import Mathlib

/-!
# CPU scheduling simulator: queues, policies and counters

A shallow embedding of `scheduler.c` and `main.c`, and properties of it.

## The model

* A `PCB *` is an address (`Addr`); `NULL` is `none`.  The heap maps every
  address to a `PCB` value.  `malloc` hands out the addresses 0, 1, 2, ... in
  turn and `free` leaves the cell in place: no property below observes
  deallocation, and a finalized record is referenced by no queue.
* C `int` values are mathematical integers (signed overflow is undefined
  behaviour in C and is not modelled).  `current_burst` is an array cursor
  that starts at 0 and is only ever incremented, so it is a natural number.
* `pcb->bursts[pcb->current_burst]` outside the allocated array is undefined
  behaviour: the read returns `none` and the enclosing step has no result.
* The pointer-chasing scan of `run_sjf` / `run_pr` takes a fuel argument, one
  unit per evaluation of its loop test; on a well-formed queue any fuel above
  the number of queued records suffices.
* `usleep` and `printf` have no effect on the state and are left out.
* The three threads are interleaved one atomic action at a time (`step`,
  `run`).  An action of a consumer thread is a queue operation together with
  the termination test that follows an empty result, or the burst-and-route
  section of one loop iteration; an action of the file-reading thread is one
  line of input, or the code after its loop.  Updates of the shared clock and
  counters are therefore atomic.
* A thread suspended in `pthread_cond_wait` is at the control point
  `Ctl.blocked` and leaves it only when the condition variable it waits on is
  signalled or broadcast.
* `parse_arguments` works on the list of the strings of `argv`; `exit` is the
  result `none`.
* Mutexes do not appear in the states above.  What a function does to a queue
  and its mutex is given apart, as the sequence of its lock, unlock, wait,
  read and write operations in program order, one sequence per path through
  the function (`Access`, `disciplined`).

## The properties

Selection by burst and by priority, round-robin preemption, first-in-first-out
order, the non-preemptive dispatch step, the scenarios, and two properties of
whole runs proved by an invariant: the count of completed processes once all
three threads have exited, and the turnaround time stored at finalization.  Then round robin within the quantum
against FIFO, the finalization shared by the five loops, the step of the I/O
system thread, `dequeue` at the end of input, removal by the scans, the bursts
read from a `proc` line, the arguments `parse_arguments` lets through, the
input that holds `stop` alone, and the order of the first read and the lock in
`run_sjf` and `run_pr`.  Last the waiting time added under `run_sjf` and
`run_pr`, well-formedness of the queues as an invariant, the slices of a
round-robin burst, the busy time against the clock, and a run in which the
dispatcher exits while a record is still on its way.
-/

namespace Sched

/-! ## Data model (`scheduler.h`) -/

/-- A `PCB *`: `some a` is the address `a`, `none` is `NULL`. -/
abbrev Addr := Nat

/-- The `PCB` struct. -/
@[ext]
structure PCB where
  priority : Int
  burst_count : Int
  bursts : List Int
  current_burst : Nat
  arrival_time : Int
  waiting_time : Int
  turnaround_time : Int
  next : Option Addr
  prev : Option Addr
deriving DecidableEq, Inhabited

/-- The `Queue` struct (its mutex and condition variable are modelled by the
atomicity of the steps and by `Ctl.blocked`). -/
structure Queue where
  head : Option Addr
  tail : Option Addr
deriving DecidableEq, Inhabited

/-- The two global queues a `Queue *` argument can point to. -/
inductive QueueId where
  | ready
  | io
deriving DecidableEq

/-- The `SchedulerArgs` struct. -/
structure SchedulerArgs where
  algorithm : String
  quantum : Int
deriving DecidableEq

/-- One line of the workload file, tokenised: `proc` followed by the integer
tokens of the line, `sleep t`, `stop`, or anything else. -/
inductive Line where
  | proc (tokens : List Int)
  | sleep (sleep_time : Int)
  | stop
  | unknown
deriving DecidableEq

/-- What the feeder does for one line once the line has been read: create a
record with the given priority and burst array and put it in the ready queue,
advance the clock, leave the loop, or nothing. -/
inductive Event where
  | spawn (priority : Int) (bursts : List Int)
  | delay (sleep_time : Int)
  | stop
  | skip
deriving DecidableEq

/-- Control point of a consumer thread (CPU scheduler or I/O system):
at the top of its loop, blocked in `pthread_cond_wait`, holding the record it
has just taken out of a queue, or past `pthread_exit`. -/
inductive Ctl where
  | top
  | blocked
  | holds (pcb : Addr)
  | exited
deriving DecidableEq

/-- The global variables of the program, the heap, and the control state of
the three threads. -/
structure Sim where
  heap : Addr → PCB
  brk : Addr
  ready_queue : Queue
  io_queue : Queue
  file_read_done : Bool
  total_time : Int
  busy_time : Int
  process_count : Int
  total_turnaround_time : Int
  total_waiting_time : Int
  current_time : Int
  feed : List Event
  feeder_exited : Bool
  cpu : Ctl
  io : Ctl

/-- Heap write `*a = p`. -/
def Sim.store (s : Sim) (a : Addr) (p : PCB) : Sim :=
  { s with heap := fun x => if x = a then p else s.heap x }

/-- The queue a `Queue *` points to. -/
def Sim.queue (s : Sim) : QueueId → Queue
  | .ready => s.ready_queue
  | .io => s.io_queue

/-- Write through a `Queue *`. -/
def Sim.setQueue (s : Sim) : QueueId → Queue → Sim
  | .ready, q => { s with ready_queue := q }
  | .io, q => { s with io_queue := q }

/-- The read `pcb->bursts[pcb->current_burst]`; `none` outside the array. -/
def PCB.burst (p : PCB) : Option Int :=
  p.bursts.get? p.current_burst

/-! ## Queue operations -/

/-- The call `pthread_cond_signal(&queue->cond)`: the only thread that ever waits on
the ready queue's condition variable is the CPU scheduler (inside
`dequeue(&ready_queue)`), and the only one that waits on the I/O queue's is
the I/O system thread. -/
def cond_signal (q : QueueId) (s : Sim) : Sim :=
  match q with
  | .ready => if s.cpu = .blocked then { s with cpu := .top } else s
  | .io => if s.io = .blocked then { s with io := .top } else s

/-- The function `enqueue(queue, pcb)`. -/
def enqueue (q : QueueId) (pcb : Addr) (s : Sim) : Sim :=
  let s1 := s.store pcb { s.heap pcb with waiting_time := s.current_time }
  let s2 :=
    match (s1.queue q).tail with
    | some t =>
      let s2a := s1.store t { s1.heap t with next := some pcb }
      let s2b := s2a.store pcb { s2a.heap pcb with prev := (s2a.queue q).tail }
      s2b.setQueue q { s2b.queue q with tail := some pcb }
    | none => s1.setQueue q { head := some pcb, tail := some pcb }
  cond_signal q s2

/-- Outcome of a call to `dequeue`: the caller is suspended in
`pthread_cond_wait`, or the call returns `NULL`, or it returns a record. -/
inductive Dequeued where
  | wait
  | null
  | pcb (a : Addr)
deriving DecidableEq

/-- The function `dequeue(queue)`. -/
def dequeue (q : QueueId) (s : Sim) : Dequeued × Sim :=
  match (s.queue q).head with
  | none => if s.file_read_done then (.null, s) else (.wait, s)
  | some pcb =>
    let s1 := s.setQueue q { s.queue q with head := (s.heap pcb).next }
    let s2 :=
      match (s1.queue q).head with
      | none => s1.setQueue q { s1.queue q with tail := none }
      | some h => s1.store h { s1.heap h with prev := none }
    let s3 := s2.store pcb { s2.heap pcb with next := none, prev := none }
    let s4 := s3.store pcb
      { s3.heap pcb with waiting_time := s3.current_time - (s3.heap pcb).waiting_time }
    (.pcb pcb, s4)

/-- The termination test
`file_read_done && ready_queue.head == NULL && io_queue.head == NULL`. -/
def all_done (s : Sim) : Bool :=
  s.file_read_done && s.ready_queue.head.isNone && s.io_queue.head.isNone

/-! ## The file-reading thread -/

/-- The construction of a record in `file_read_thread` once its burst array is
filled: `malloc`, the field initialisations and `enqueue(&ready_queue, pcb)`.
The array has `burst_count` cells. -/
def spawn (priority : Int) (bursts : List Int) (s : Sim) : Sim :=
  let pcb := s.brk
  let s1 := { s with brk := s.brk + 1 }
  let s2 := s1.store pcb
    { priority := priority
      burst_count := bursts.length
      bursts := bursts
      current_burst := 0
      arrival_time := s1.current_time
      waiting_time := 0
      turnaround_time := 0
      next := none
      prev := none }
  enqueue .ready pcb s2

/-- The effect of one line that does not leave the loop. -/
def feed_event (e : Event) (s : Sim) : Sim :=
  match e with
  | .spawn priority bursts => spawn priority bursts s
  | .delay sleep_time => { s with current_time := s.current_time + sleep_time }
  | .stop => s
  | .skip => s

/-- The reading of one line in `file_read_thread`.  For a `proc` line `sscanf`
takes the first two integers as priority and burst count; `strtok(line + 5, " ")`
then returns the priority token, so the loop's calls `strtok(NULL, " ")` return
the burst-count token first and the burst tokens after it: the array receives
the tokens that follow the priority.  `none` is undefined behaviour: fewer than
two integers for `sscanf`, or `atoi(NULL)` when the tokens run out.  A negative
count makes the `malloc` of the array fail and the line is skipped. -/
def read_line : Line → Option Event
  | .proc (priority :: burst_count :: rest) =>
    if burst_count < 0 then some .skip
    else if (burst_count :: rest).length < burst_count.toNat then none
    else some (.spawn priority ((burst_count :: rest).take burst_count.toNat))
  | .proc _ => none
  | .sleep sleep_time => some (.delay sleep_time)
  | .stop => some .stop
  | .unknown => some .skip

/-- The tail of `file_read_thread`: set `file_read_done`, broadcast on the ready
queue's condition variable (which wakes the CPU scheduler if it is blocked in
`dequeue(&ready_queue)`; nothing is sent to the I/O queue's condition
variable), and exit. -/
def file_read_finish (s : Sim) : Sim :=
  let s1 := { s with file_read_done := true }
  let s2 := if s1.cpu = .blocked then { s1 with cpu := .top } else s1
  { s2 with feeder_exited := true }

/-- One action of `file_read_thread`: one turn of its `while (fgets ...)` loop,
or the code after the loop. -/
def file_read_thread (s : Sim) : Sim :=
  if s.feeder_exited then s
  else
    match s.feed with
    | [] => file_read_finish s
    | .stop :: _ => file_read_finish s
    | e :: rest => feed_event e { s with feed := rest }

/-! ## The I/O system thread -/

/-- The part of an `io_system_thread` iteration after a record was dequeued. -/
def io_system_thread_body (pcb : Addr) (s : Sim) : Option Sim :=
  match (s.heap pcb).burst with
  | none => none
  | some b =>
    let s1 := { s with current_time := s.current_time + b }
    let s2 := s1.store pcb { s1.heap pcb with current_burst := (s1.heap pcb).current_burst + 1 }
    if ((s2.heap pcb).current_burst : Int) < (s2.heap pcb).burst_count then
      some (enqueue .ready pcb s2)
    else
      let s3 := s2.store pcb
        { s2.heap pcb with turnaround_time := s2.current_time - (s2.heap pcb).arrival_time }
      let s4 := { s3 with
        total_turnaround_time := s3.total_turnaround_time + (s3.heap pcb).turnaround_time }
      let s5 := { s4 with
        total_waiting_time := s4.total_waiting_time + (s4.heap pcb).waiting_time }
      some { s5 with process_count := s5.process_count + 1 }

/-- One action of `io_system_thread`. -/
def io_system_thread (s : Sim) : Option Sim :=
  match s.io with
  | .exited => some s
  | .blocked => some s
  | .top =>
    match dequeue .io s with
    | (.wait, s1) => some { s1 with io := .blocked }
    | (.null, s1) => some (if all_done s1 then { s1 with io := .exited } else s1)
    | (.pcb a, s1) => some { s1 with io := .holds a }
  | .holds a => (io_system_thread_body a s).map fun s1 => { s1 with io := .top }

/-! ## FIFO -/

/-- The part of a `run_fifo` iteration after a record was dequeued. -/
def run_fifo_body (pcb : Addr) (s : Sim) : Option Sim :=
  match (s.heap pcb).burst with
  | none => none
  | some burst_time =>
    let s0 := { s with busy_time := s.busy_time + burst_time }
    let s1 := { s0 with current_time := s0.current_time + burst_time }
    let s2 := s1.store pcb { s1.heap pcb with current_burst := (s1.heap pcb).current_burst + 1 }
    if ((s2.heap pcb).current_burst : Int) < (s2.heap pcb).burst_count then
      some (enqueue .io pcb s2)
    else
      let s3 := s2.store pcb
        { s2.heap pcb with turnaround_time := s2.current_time - (s2.heap pcb).arrival_time }
      let s4 := { s3 with
        total_turnaround_time := s3.total_turnaround_time + (s3.heap pcb).turnaround_time }
      let s5 := { s4 with
        total_waiting_time := s4.total_waiting_time + (s4.heap pcb).waiting_time }
      some { s5 with process_count := s5.process_count + 1 }

/-- One action of `run_fifo`. -/
def run_fifo (s : Sim) : Option Sim :=
  match s.cpu with
  | .exited => some s
  | .blocked => some s
  | .top =>
    match dequeue .ready s with
    | (.wait, s1) => some { s1 with cpu := .blocked }
    | (.null, s1) => some (if all_done s1 then { s1 with cpu := .exited } else s1)
    | (.pcb a, s1) => some { s1 with cpu := .holds a }
  | .holds a => (run_fifo_body a s).map fun s1 => { s1 with cpu := .top }

/-! ## Shortest job first -/

/-- The scan loop of `run_sjf`: `current` walks the `next` pointers and
`shortest_pcb` is replaced when `current` has a strictly smaller burst. -/
def run_sjf_scan : Nat → (Addr → PCB) → Option Addr → Option Addr → Option (Option Addr)
  | 0, _, _, _ => none
  | _ + 1, _, none, shortest_pcb => some shortest_pcb
  | fuel + 1, h, some current, none => run_sjf_scan fuel h (h current).next (some current)
  | fuel + 1, h, some current, some shortest_pcb =>
    match (h current).burst, (h shortest_pcb).burst with
    | some x, some y =>
      run_sjf_scan fuel h (h current).next
        (if x < y then some current else some shortest_pcb)
    | _, _ => none

/-- The unlinking of the selected record in `run_sjf`. -/
def run_sjf_unlink (shortest_pcb : Addr) (s : Sim) : Sim :=
  let s1 :=
    match (s.heap shortest_pcb).prev with
    | some p => s.store p { s.heap p with next := (s.heap shortest_pcb).next }
    | none => { s with ready_queue := { s.ready_queue with head := (s.heap shortest_pcb).next } }
  let s2 :=
    match (s1.heap shortest_pcb).next with
    | some n => s1.store n { s1.heap n with prev := (s1.heap shortest_pcb).prev }
    | none => { s1 with ready_queue := { s1.ready_queue with tail := (s1.heap shortest_pcb).prev } }
  s2.store shortest_pcb { s2.heap shortest_pcb with next := none, prev := none }

/-- The selection at the top of a `run_sjf` iteration: scan, then unlink. -/
def run_sjf_select (fuel : Nat) (s : Sim) : Option (Option Addr × Sim) :=
  match run_sjf_scan fuel s.heap s.ready_queue.head none with
  | none => none
  | some none => some (none, s)
  | some (some shortest_pcb) => some (some shortest_pcb, run_sjf_unlink shortest_pcb s)

/-- The part of a `run_sjf` iteration after a record was selected. -/
def run_sjf_body (shortest_pcb : Addr) (s : Sim) : Option Sim :=
  match (s.heap shortest_pcb).burst with
  | none => none
  | some burst_time =>
    let s0 := { s with busy_time := s.busy_time + burst_time }
    let s1 := { s0 with current_time := s0.current_time + burst_time }
    let s2 := s1.store shortest_pcb
      { s1.heap shortest_pcb with current_burst := (s1.heap shortest_pcb).current_burst + 1 }
    if ((s2.heap shortest_pcb).current_burst : Int) < (s2.heap shortest_pcb).burst_count then
      some (enqueue .io shortest_pcb s2)
    else
      let s3 := s2.store shortest_pcb
        { s2.heap shortest_pcb with
          turnaround_time := s2.current_time - (s2.heap shortest_pcb).arrival_time }
      let s4 := { s3 with
        total_turnaround_time := s3.total_turnaround_time + (s3.heap shortest_pcb).turnaround_time }
      let s5 := { s4 with
        total_waiting_time := s4.total_waiting_time + (s4.heap shortest_pcb).waiting_time }
      some { s5 with process_count := s5.process_count + 1 }

/-- One action of `run_sjf`. -/
def run_sjf (fuel : Nat) (s : Sim) : Option Sim :=
  match s.cpu with
  | .exited => some s
  | .blocked => some s
  | .top =>
    match run_sjf_select fuel s with
    | none => none
    | some (none, s1) => some (if all_done s1 then { s1 with cpu := .exited } else s1)
    | some (some a, s1) => some { s1 with cpu := .holds a }
  | .holds a => (run_sjf_body a s).map fun s1 => { s1 with cpu := .top }

/-! ## Static priority -/

/-- The scan loop of `run_pr`: `highest_priority_pcb` is replaced when
`current` has a strictly greater priority. -/
def run_pr_scan : Nat → (Addr → PCB) → Option Addr → Option Addr → Option (Option Addr)
  | 0, _, _, _ => none
  | _ + 1, _, none, highest_priority_pcb => some highest_priority_pcb
  | fuel + 1, h, some current, none => run_pr_scan fuel h (h current).next (some current)
  | fuel + 1, h, some current, some highest_priority_pcb =>
    run_pr_scan fuel h (h current).next
      (if (h current).priority > (h highest_priority_pcb).priority then some current
       else some highest_priority_pcb)

/-- The unlinking of the selected record in `run_pr`. -/
def run_pr_unlink (highest_priority_pcb : Addr) (s : Sim) : Sim :=
  let s1 :=
    match (s.heap highest_priority_pcb).prev with
    | some p => s.store p { s.heap p with next := (s.heap highest_priority_pcb).next }
    | none =>
      { s with ready_queue := { s.ready_queue with head := (s.heap highest_priority_pcb).next } }
  let s2 :=
    match (s1.heap highest_priority_pcb).next with
    | some n => s1.store n { s1.heap n with prev := (s1.heap highest_priority_pcb).prev }
    | none =>
      { s1 with ready_queue := { s1.ready_queue with tail := (s1.heap highest_priority_pcb).prev } }
  s2.store highest_priority_pcb { s2.heap highest_priority_pcb with next := none, prev := none }

/-- The selection at the top of a `run_pr` iteration: scan, then unlink. -/
def run_pr_select (fuel : Nat) (s : Sim) : Option (Option Addr × Sim) :=
  match run_pr_scan fuel s.heap s.ready_queue.head none with
  | none => none
  | some none => some (none, s)
  | some (some highest_priority_pcb) =>
    some (some highest_priority_pcb, run_pr_unlink highest_priority_pcb s)

/-- The part of a `run_pr` iteration after a record was selected. -/
def run_pr_body (highest_priority_pcb : Addr) (s : Sim) : Option Sim :=
  match (s.heap highest_priority_pcb).burst with
  | none => none
  | some burst_time =>
    let s0 := { s with busy_time := s.busy_time + burst_time }
    let s1 := { s0 with current_time := s0.current_time + burst_time }
    let s2 := s1.store highest_priority_pcb
      { s1.heap highest_priority_pcb with
        current_burst := (s1.heap highest_priority_pcb).current_burst + 1 }
    if ((s2.heap highest_priority_pcb).current_burst : Int)
        < (s2.heap highest_priority_pcb).burst_count then
      some (enqueue .io highest_priority_pcb s2)
    else
      let s3 := s2.store highest_priority_pcb
        { s2.heap highest_priority_pcb with
          turnaround_time := s2.current_time - (s2.heap highest_priority_pcb).arrival_time }
      let s4 := { s3 with
        total_turnaround_time :=
          s3.total_turnaround_time + (s3.heap highest_priority_pcb).turnaround_time }
      let s5 := { s4 with
        total_waiting_time := s4.total_waiting_time + (s4.heap highest_priority_pcb).waiting_time }
      some { s5 with process_count := s5.process_count + 1 }

/-- One action of `run_pr`. -/
def run_pr (fuel : Nat) (s : Sim) : Option Sim :=
  match s.cpu with
  | .exited => some s
  | .blocked => some s
  | .top =>
    match run_pr_select fuel s with
    | none => none
    | some (none, s1) => some (if all_done s1 then { s1 with cpu := .exited } else s1)
    | some (some a, s1) => some { s1 with cpu := .holds a }
  | .holds a => (run_pr_body a s).map fun s1 => { s1 with cpu := .top }

/-! ## Round robin -/

/-- The part of a `run_rr` iteration after a record was dequeued. -/
def run_rr_body (quantum : Int) (pcb : Addr) (s : Sim) : Option Sim :=
  match (s.heap pcb).burst with
  | none => none
  | some burst_time =>
    if burst_time > quantum then
      let s0 := s.store pcb
        { s.heap pcb with
          bursts := (s.heap pcb).bursts.set (s.heap pcb).current_burst (burst_time - quantum) }
      let s1 := { s0 with busy_time := s0.busy_time + quantum }
      let s2 := { s1 with current_time := s1.current_time + quantum }
      some (enqueue .ready pcb s2)
    else
      let s0 := { s with busy_time := s.busy_time + burst_time }
      let s1 := { s0 with current_time := s0.current_time + burst_time }
      let s2 := s1.store pcb { s1.heap pcb with current_burst := (s1.heap pcb).current_burst + 1 }
      if ((s2.heap pcb).current_burst : Int) < (s2.heap pcb).burst_count then
        some (enqueue .io pcb s2)
      else
        let s3 := s2.store pcb
          { s2.heap pcb with turnaround_time := s2.current_time - (s2.heap pcb).arrival_time }
        let s4 := { s3 with
          total_turnaround_time := s3.total_turnaround_time + (s3.heap pcb).turnaround_time }
        let s5 := { s4 with
          total_waiting_time := s4.total_waiting_time + (s4.heap pcb).waiting_time }
        some { s5 with process_count := s5.process_count + 1 }

/-- One action of `run_rr`. -/
def run_rr (quantum : Int) (s : Sim) : Option Sim :=
  match s.cpu with
  | .exited => some s
  | .blocked => some s
  | .top =>
    match dequeue .ready s with
    | (.wait, s1) => some { s1 with cpu := .blocked }
    | (.null, s1) => some (if all_done s1 then { s1 with cpu := .exited } else s1)
    | (.pcb a, s1) => some { s1 with cpu := .holds a }
  | .holds a => (run_rr_body quantum a s).map fun s1 => { s1 with cpu := .top }

/-! ## The CPU scheduler thread and the whole program -/

/-- One action of `cpu_scheduler_thread`: the policy named by `args->algorithm`
runs; with any other name the thread exits at once. -/
def cpu_scheduler_thread (args : SchedulerArgs) (fuel : Nat) (s : Sim) : Option Sim :=
  if args.algorithm = "FIFO" then run_fifo s
  else if args.algorithm = "SJF" then run_sjf fuel s
  else if args.algorithm = "PR" then run_pr fuel s
  else if args.algorithm = "RR" then run_rr args.quantum s
  else some { s with cpu := .exited }

/-- The three threads created by `main`. -/
inductive Tid where
  | file
  | cpu
  | io
deriving DecidableEq

/-- One atomic action of the chosen thread. -/
def step (args : SchedulerArgs) (fuel : Nat) (t : Tid) (s : Sim) : Option Sim :=
  match t with
  | .file => some (file_read_thread s)
  | .cpu => cpu_scheduler_thread args fuel s
  | .io => io_system_thread s

/-- The actions of a schedule, one after the other. -/
def run (args : SchedulerArgs) (fuel : Nat) : List Tid → Sim → Option Sim
  | [], s => some s
  | t :: ts, s =>
    match step args fuel t s with
    | none => none
    | some s1 => run args fuel ts s1

/-- The initial values of the globals (`main.c`, `scheduler.c`) with the three
threads just created and the given events waiting in the input. -/
def init (events : List Event) : Sim :=
  { heap := fun _ => default
    brk := 0
    ready_queue := { head := none, tail := none }
    io_queue := { head := none, tail := none }
    file_read_done := false
    total_time := 0
    busy_time := 0
    process_count := 0
    total_turnaround_time := 0
    total_waiting_time := 0
    current_time := 0
    feed := events
    feeder_exited := false
    cpu := .top
    io := .top }

/-! ## Well-formed queues -/

/-- The records `l` are linked in this order: each record's `prev` is its
predecessor (`p` for the first) and its `next` is its successor (`NULL` for
the last). -/
def Chain (h : Addr → PCB) : Option Addr → List Addr → Prop
  | _, [] => True
  | p, a :: l => (h a).prev = p ∧ (h a).next = l.head? ∧ Chain h (some a) l

instance Chain.decidable (h : Addr → PCB) : (p : Option Addr) → (l : List Addr) →
    Decidable (Chain h p l)
  | _, [] => isTrue trivial
  | p, a :: l =>
    have := Chain.decidable h (some a) l
    inferInstanceAs (Decidable ((h a).prev = p ∧ (h a).next = l.head? ∧ Chain h (some a) l))

/-- The queue `q` is a well-formed doubly-linked list holding exactly the
records `l`, head first. -/
def WellFormed (h : Addr → PCB) (q : Queue) (l : List Addr) : Prop :=
  q.head = l.head? ∧ q.tail = l.getLast? ∧ Chain h none l ∧ l.Nodup

instance WellFormed.decidable (h : Addr → PCB) (q : Queue) (l : List Addr) :
    Decidable (WellFormed h q l) :=
  inferInstanceAs (Decidable (q.head = l.head? ∧ q.tail = l.getLast? ∧ Chain h none l ∧ l.Nodup))

/-- A record that is not linked into any list: `next` and `prev` are `NULL`. -/
def Detached (h : Addr → PCB) (a : Addr) : Prop :=
  (h a).next = none ∧ (h a).prev = none

instance Detached.decidable (h : Addr → PCB) (a : Addr) : Decidable (Detached h a) :=
  inferInstanceAs (Decidable ((h a).next = none ∧ (h a).prev = none))

/-! ## Definitions used in the statements and proofs -/

/-- The two states have the same counters, clock, input and allocation mark. -/
def SameGlobals (s s' : Sim) : Prop :=
  s'.brk = s.brk ∧ s'.file_read_done = s.file_read_done ∧ s'.total_time = s.total_time ∧
  s'.busy_time = s.busy_time ∧ s'.process_count = s.process_count ∧
  s'.total_turnaround_time = s.total_turnaround_time ∧
  s'.total_waiting_time = s.total_waiting_time ∧ s'.current_time = s.current_time ∧
  s'.feed = s.feed ∧ s'.feeder_exited = s.feeder_exited

/-- The unlinking code with its second and third reads of the selected
record's links replaced by the values they have. -/
def unlinked (a : Addr) (s : Sim) : Sim :=
  let s1 :=
    match (s.heap a).prev with
    | some p => s.store p { s.heap p with next := (s.heap a).next }
    | none => { s with ready_queue := { s.ready_queue with head := (s.heap a).next } }
  let s2 :=
    match (s.heap a).next with
    | some n => s1.store n { s1.heap n with prev := (s.heap a).prev }
    | none => { s1 with ready_queue := { s1.ready_queue with tail := (s.heap a).prev } }
  s2.store a { s2.heap a with next := none, prev := none }

/-- One visit of a scan that keeps the record seen so far unless the visited
record has a strictly smaller key. -/
def keep (key : Addr → Int) (best : Option Addr) (c : Addr) : Option Addr :=
  match best with
  | none => some c
  | some b => if key c < key b then some c else some b

/-- Three records with bursts 5, 2 and 2 spawned in this order at clock 0. -/
def sjf_demo : Sim :=
  spawn 1 [2] (spawn 1 [2] (spawn 1 [5] (init [])))

/-- Records of priority 1 then 5, and of priority 5 then 1, spawned at clock 0. -/
def pr_demo (first second : Int) : Sim :=
  spawn second [3] (spawn first [3] (init []))

/-- Enqueue the records one after the other. -/
def enqueue_all (q : QueueId) : List Addr → Sim → Sim
  | [], s => s
  | r :: rs, s => enqueue_all q rs (enqueue q r s)

/-- Call `dequeue` the given number of times and collect what the calls return. -/
def dequeue_n (q : QueueId) : Nat → Sim → List Dequeued × Sim
  | 0, s => ([], s)
  | n + 1, s => ((dequeue q s).1 :: (dequeue_n q n (dequeue q s).2).1,
      (dequeue_n q n (dequeue q s).2).2)

/-- A ready queue holding records 0 and 1, with records 2 and 3 allocated
but detached. -/
def fifo_demo : Sim :=
  let s := spawn 1 [6] (spawn 1 [4] (init []))
  { s with heap := fun x => if x = 2 ∨ x = 3 then { s.heap x with bursts := [1] } else s.heap x }

/-- State after a CPU burst of length `b` of record `a`: clock, busy time and
burst cursor advanced. -/
def cpu_ran (b : Int) (a : Addr) (s : Sim) : Sim :=
  ({ s with busy_time := s.busy_time + b, current_time := s.current_time + b }).store a
    { s.heap a with current_burst := (s.heap a).current_burst + 1 }

/-- State after an I/O burst of length `b` of record `a`: clock and burst
cursor advanced. -/
def io_ran (b : Int) (a : Addr) (s : Sim) : Sim :=
  ({ s with current_time := s.current_time + b }).store a
    { s.heap a with current_burst := (s.heap a).current_burst + 1 }

/-- State after a round-robin slice of length `quantum` of record `a` whose
current burst is `b`. -/
def rr_sliced (quantum b : Int) (a : Addr) (s : Sim) : Sim :=
  let s0 := s.store a
    { s.heap a with bursts := (s.heap a).bursts.set (s.heap a).current_burst (b - quantum) }
  { s0 with busy_time := s0.busy_time + quantum, current_time := s0.current_time + quantum }

/-- The finalization of record `a`: turnaround stored and folded into the
totals together with the waiting time, process count incremented. -/
def finalized (a : Addr) (s : Sim) : Sim :=
  let s3 := s.store a { s.heap a with turnaround_time := s.current_time - (s.heap a).arrival_time }
  let s4 := { s3 with
    total_turnaround_time := s3.total_turnaround_time + (s3.heap a).turnaround_time }
  let s5 := { s4 with
    total_waiting_time := s4.total_waiting_time + (s4.heap a).waiting_time }
  { s5 with process_count := s5.process_count + 1 }

/-- The record has bursts left after the current one. -/
def MoreBursts (p : PCB) : Prop :=
  ((p.current_burst + 1 : Nat) : Int) < p.burst_count

instance MoreBursts.decidable (p : PCB) : Decidable (MoreBursts p) :=
  inferInstanceAs (Decidable (((p.current_burst + 1 : Nat) : Int) < p.burst_count))

/-- A dispatch from a queue holding one record with bursts 4 and 3. -/
def dispatch_demo : Sim :=
  (dequeue .ready (spawn 1 [4, 3] (init []))).2

/-- The arguments `-alg FIFO`. -/
def fifo_args : SchedulerArgs := { algorithm := "FIFO", quantum := 0 }

/-- The arguments `-alg RR -quantum 5`. -/
def rr5_args : SchedulerArgs := { algorithm := "RR", quantum := 5 }

/-- Two single-burst processes, bursts 4 and 6, and nothing else. -/
def fifo_events : List Event := [.spawn 1 [4], .spawn 1 [6]]

/-- What a scenario observes of a state: clock, busy time, process count,
turnaround total, waiting total, and the dispatcher's control point. -/
def observe (s : Sim) : Int × Int × Int × Int × Int × Ctl :=
  (s.current_time, s.busy_time, s.process_count, s.total_turnaround_time,
    s.total_waiting_time, s.cpu)

/-- The schedule in which the feeder reads both lines before the dispatcher
starts, up to the second finalization. -/
def fifo_sched : List Tid := [.file, .file, .cpu, .cpu, .cpu, .cpu]

/-- The spec's waiting time of record `a` over a run, summed per ready-queue
visit: each visit contributes the clock at the dequeue that ends it minus the
clock at the enqueue that begins it.  A step begins a visit when it makes `a`
the tail of the ready queue and ends one when it makes the dispatcher hold
`a`. -/
def spec_waiting_per_visit (args : SchedulerArgs) (fuel : Nat) (a : Addr) :
    List Tid → Sim → Option Int
  | [], _ => some 0
  | t :: ts, s =>
    match step args fuel t s with
    | none => none
    | some s1 =>
      let ends := if s1.cpu = .holds a ∧ s.cpu ≠ .holds a then s1.current_time else 0
      let begins :=
        if s1.ready_queue.tail = some a ∧ s.ready_queue.tail ≠ some a then s1.current_time
        else 0
      (spec_waiting_per_visit args fuel a ts s1).map fun w => ends - begins + w

/-- Two processes with one burst of 8 each. -/
def rr_pair : List Event := [.spawn 1 [8], .spawn 1 [8]]

/-- Both spawns, then four round-robin iterations: a slice of each record,
then the rest of each. -/
def rr_pair_sched : List Tid := [.file, .file, .cpu, .cpu, .cpu, .cpu, .cpu, .cpu, .cpu, .cpu]

/-- Two processes with a CPU burst of 1 and an I/O burst of 5 each. -/
def io_pair : List Event := [.spawn 1 [1, 5], .spawn 1 [1, 5]]

/-- Both spawns, two FIFO dispatches, then two I/O iterations. -/
def io_pair_sched : List Tid :=
  [.file, .file, .cpu, .cpu, .cpu, .cpu, .io, .io, .io, .io]

/-- The two queues are well-formed, hold the records `rl` and `il`, share no
record with each other or with the records `held` by the threads, and the held
records are detached. -/
structure Shape (h : Addr → PCB) (rq ioq : Queue) (rl il held : List Addr) : Prop where
  ready : WellFormed h rq rl
  io : WellFormed h ioq il
  held_nodup : held.Nodup
  ready_io : ∀ x ∈ rl, x ∉ il
  ready_held : ∀ x ∈ rl, x ∉ held
  io_held : ∀ x ∈ il, x ∉ held
  detached : ∀ x ∈ held, Detached h x

/-- The burst arrays of the records the feeder creates, in creation order:
those of the spawn events before the first stop. -/
def spawned : List Event → List (List Int)
  | [] => []
  | .stop :: _ => []
  | .spawn _ bursts :: es => bursts :: spawned es
  | .delay _ :: es => spawned es
  | .skip :: es => spawned es

/-- The number of spawn events the feeder accepts. -/
def accepted (events : List Event) : Nat :=
  (spawned events).length

/-- The record a consumer thread holds, if any. -/
def Ctl.held : Ctl → List Addr
  | .holds a => [a]
  | _ => []

/-- The records that are in a queue or held by a thread. -/
def Live (s : Sim) (rl il : List Addr) (x : Addr) : Prop :=
  x ∈ rl ∨ x ∈ il ∨ x ∈ s.cpu.held ++ s.io.held

/-- The clock has advanced since the arrival of the record by at least the
part of the spawned bursts `o` that the record has consumed. -/
def Timely (clock : Int) (p : PCB) (o : List Int) : Prop :=
  p.burst_count = p.bursts.length ∧ (∀ v ∈ p.bursts, 0 ≤ v) ∧
  o.sum ≤ clock - p.arrival_time + (p.bursts.drop p.current_burst).sum

/-- The fields of a record that `Timely` reads are the same. -/
def SameData (p p' : PCB) : Prop :=
  p'.burst_count = p.burst_count ∧ p'.bursts = p.bursts ∧
  p'.current_burst = p.current_burst ∧ p'.arrival_time = p.arrival_time

/-- The event is a delay that is not negative, a spawn without a negative burst,
or any other event. -/
def Event.benign : Event → Prop
  | .delay d => 0 ≤ d
  | .spawn _ bursts => ∀ v ∈ bursts, 0 ≤ v
  | .stop => True
  | .skip => True

/-- No delay and no spawned burst is negative, and neither is the quantum of
round robin. -/
def Benign (args : SchedulerArgs) (events : List Event) : Prop :=
  (args.algorithm = "RR" → 0 ≤ args.quantum) ∧ ∀ e ∈ events, e.benign

/-- The invariant of the simulation started on `events`: the queues hold the
records `rl` and `il`, every record created so far is finalized, queued or
held, the feeder has consumed a prefix of the events, and (in a benign run)
every live record is timely. -/
structure Inv (args : SchedulerArgs) (events : List Event) (s : Sim) (rl il : List Addr) :
    Prop where
  shape : Shape s.heap s.ready_queue s.io_queue rl il (s.cpu.held ++ s.io.held)
  lt : ∀ x, Live s rl il x → x < s.brk
  count : s.process_count + ((rl.length + il.length + (s.cpu.held ++ s.io.held).length : Nat) : Int)
    = s.brk
  flag : s.file_read_done = s.feeder_exited
  suffix : ∃ pre, events = pre ++ s.feed
  fed : ∃ done, spawned events = done ++ spawned s.feed ∧ done.length = s.brk
  fed_exit : s.feeder_exited = true → spawned s.feed = []
  timely : Benign args events → ∀ x, Live s rl il x →
    ∃ o, (spawned events)[x]? = some o ∧ Timely s.current_time (s.heap x) o
  cpu_exit : s.cpu = .exited → s.file_read_done = true
  io_exit : s.io = .exited → s.file_read_done = true
  both_exit : s.cpu = .exited → s.io = .exited → rl = [] ∧ il = []

/-- The record `file_read_thread` initialises for a `proc` line. -/
def new_pcb (priority : Int) (bursts : List Int) (clock : Int) : PCB :=
  { priority := priority
    burst_count := bursts.length
    bursts := bursts
    current_burst := 0
    arrival_time := clock
    waiting_time := 0
    turnaround_time := 0
    next := none
    prev := none }

/-- The policy is one of the four the dispatcher knows. -/
def KnownPolicy (args : SchedulerArgs) : Prop :=
  args.algorithm = "FIFO" ∨ args.algorithm = "SJF" ∨ args.algorithm = "PR" ∨
    args.algorithm = "RR"

instance KnownPolicy.decidable (args : SchedulerArgs) : Decidable (KnownPolicy args) :=
  inferInstanceAs (Decidable (args.algorithm = "FIFO" ∨ args.algorithm = "SJF" ∨
    args.algorithm = "PR" ∨ args.algorithm = "RR"))

instance Event.benign.decidable : (e : Event) → Decidable e.benign
  | .delay d => inferInstanceAs (Decidable (0 ≤ d))
  | .spawn _ bursts => inferInstanceAs (Decidable (∀ v ∈ bursts, 0 ≤ v))
  | .stop => isTrue trivial
  | .skip => isTrue trivial

instance Benign.decidable (args : SchedulerArgs) (events : List Event) :
    Decidable (Benign args events) :=
  inferInstanceAs (Decidable ((args.algorithm = "RR" → 0 ≤ args.quantum) ∧
    ∀ e ∈ events, e.benign))

/-- A dispatch from a queue holding one record with the single burst 4. -/
def last_demo : Sim :=
  (dequeue .ready (spawn 1 [4] (init []))).2

/-- A record with bursts 4, 3 and 2 after its first CPU burst, taken out of the
I/O queue by the I/O system thread. -/
def io_demo : Sim :=
  (dequeue .io
    ((run_fifo_body 0 (dequeue .ready (spawn 1 [4, 3, 2] (init []))).2).getD (init []))).2

/-- The queue empty, the file read: the state after the feeder has met `stop`
as its first line. -/
def drained_demo : Sim :=
  file_read_thread (init [.stop])

/-- What the removal of `a` from the ready queue `rl` of `s` must leave in `s'`:
the other records in their order, `a` detached, the I/O queue, the counters
and every field other than `next` and `prev` as they were, and no record
outside the queue touched. -/
def Removed (s s' : Sim) (rl : List Addr) (a : Addr) : Prop :=
  ∃ pre post, rl = pre ++ a :: post ∧
    WellFormed s'.heap s'.ready_queue (pre ++ post) ∧ Detached s'.heap a ∧
    s'.io_queue = s.io_queue ∧ SameGlobals s s' ∧
    (∀ x, { s'.heap x with next := (s.heap x).next, prev := (s.heap x).prev } = s.heap x) ∧
    ∀ x, x ∉ rl → s'.heap x = s.heap x

/-- What the end of a run shows: the control points of the dispatcher and of
the I/O system thread, whether the feeder has exited, and process count, busy
time and clock. -/
def outcome (s : Sim) : Ctl × Ctl × Bool × Int × Int × Int :=
  (s.cpu, s.io, s.feeder_exited, s.process_count, s.busy_time, s.current_time)

/-- The state of a program whose input is over, whose queues are empty, whose
counters are 0 and whose I/O system thread is suspended in
`pthread_cond_wait(&io_queue.cond, ...)`. -/
def Stuck (s : Sim) : Prop :=
  s.io = .blocked ∧ s.file_read_done = true ∧ s.feeder_exited = true ∧
  s.ready_queue.head = none ∧ s.io_queue.head = none ∧ (∀ x, s.cpu ≠ .holds x) ∧
  s.process_count = 0 ∧ s.busy_time = 0 ∧ s.current_time = 0

/-- The arguments `-alg SJF`. -/
def sjf_args : SchedulerArgs := { algorithm := "SJF", quantum := 0 }

/-- The arguments `-alg PR`. -/
def pr_args : SchedulerArgs := { algorithm := "PR", quantum := 0 }

/-- A `sleep 7` line and then one single-burst process, burst 4. -/
def late_events : List Event := [.delay 7, .spawn 1 [4]]

/-- The feeder reads both lines, then the dispatcher selects the record and runs
its burst. -/
def late_sched : List Tid := [.file, .file, .cpu, .cpu]

/-- From `s` to `s'` the busy time has not decreased and the clock has advanced
by at least as much as the busy time. -/
def Advance (s s' : Sim) : Prop :=
  s.busy_time ≤ s'.busy_time ∧
  s'.busy_time - s.busy_time ≤ s'.current_time - s.current_time

/-- The arguments `-alg RR -quantum quantum`. -/
def rr_args (quantum : Int) : SchedulerArgs := { algorithm := "RR", quantum := quantum }

/-- The number of preemptions of a burst `b` under the quantum: the ceiling of
`b / quantum`, less one. -/
def rr_preemptions (quantum b : Int) : Nat :=
  ((b + quantum - 1) / quantum - 1).toNat

/-- The dispatcher is at the top of its loop and record `a` is the only record
in the ready queue. -/
def Alone (s : Sim) (a : Addr) : Prop :=
  s.cpu = .top ∧ WellFormed s.heap s.ready_queue [a]

/-- A record with one burst of 8 alone in the ready queue, the dispatcher at
the top of its loop. -/
def rr_demo : Sim := spawn 1 [8] (init [])

/-- Following the `next` pointers from record `x` leads through the records `l`
in turn and ends at record `y`. -/
def Reaches (h : Addr → PCB) : Addr → List Addr → Addr → Prop
  | x, [], y => x = y
  | x, z :: l, y => (h x).next = some z ∧ Reaches h z l y

/-- Well-formedness in the words of the property: head and tail both `NULL`, or
`head->prev` is `NULL`, `tail->next` is `NULL`, the tail is reachable from the
head along `next`, and `x->next->prev` is `x` for every record on the way. -/
def DoublyLinked (h : Addr → PCB) (q : Queue) : Prop :=
  (q.head = none ∧ q.tail = none) ∨
  ∃ hd tl l, q.head = some hd ∧ q.tail = some tl ∧ (h hd).prev = none ∧ (h tl).next = none ∧
    Reaches h hd l tl ∧ ∀ x ∈ hd :: l, ∀ y, (h x).next = some y → (h y).prev = some x

/-- A ready queue holding record 0 alone. -/
def single_demo : Sim := spawn 1 [4] (init [])

/-- One process with three bursts: CPU 3, I/O 1, CPU 1 (the array that the line
`proc 1 3 1 1 1` yields). -/
def lost_events : List Event := [.spawn 1 [3, 1, 1]]

/-- The feeder reads the line and ends; the dispatcher takes the record and runs
its first burst; the I/O system thread takes the record out of the I/O queue;
the dispatcher finds both queues empty; the I/O system thread runs the I/O
burst and puts the record back in the ready queue. -/
def lost_sched : List Tid := [.file, .file, .cpu, .cpu, .io, .cpu, .io]

/-- The dispatcher has exited and a record is in the ready queue: input over,
I/O queue empty, I/O system thread at the top of its loop. -/
def Lost (s : Sim) : Prop :=
  s.cpu = .exited ∧ s.io = .top ∧ s.feeder_exited = true ∧ s.file_read_done = true ∧
  s.ready_queue.head ≠ none ∧ s.io_queue.head = none

/-! ## The command line (`main.c`) -/

/-- The globals `algorithm`, `input_file` and `quantum` of `main.c`; a `char *`
that is `NULL` is `none`. -/
structure Arguments where
  algorithm : Option String
  input_file : Option String
  quantum : Int
deriving DecidableEq

/-- The C library predicate `isspace` in the "C" locale. -/
def isspace (c : Char) : Bool :=
  c.toNat = 32 || (9 ≤ c.toNat && c.toNat ≤ 13)

/-- The digits read by `atoi`, most significant first, added to `acc`. -/
def atoi_digits : List Char → Int → Int
  | [], acc => acc
  | c :: cs, acc =>
    if c.isDigit then atoi_digits cs (acc * 10 + ((c.toNat - 48 : Nat) : Int)) else acc

/-- The C library function `atoi`: leading white space, an optional sign, then
decimal digits up to the first other character; 0 when there is no digit
(values outside `int` are undefined behaviour and not modelled). -/
def atoi (s : String) : Int :=
  match s.data.dropWhile isspace with
  | [] => 0
  | c :: cs =>
    if c.toNat = 45 then -atoi_digits cs 0
    else if c.toNat = 43 then atoi_digits cs 0
    else atoi_digits (c :: cs) 0

/-- The `for` loop of `parse_arguments` over `argv[i], argv[i + 1], ...`: a flag
that has a successor (`i + 1 < argc`) takes it as its value and both are
skipped; anything else is skipped alone. -/
def parse_arguments_loop : List String → Arguments → Arguments
  | [], g => g
  | [_], g => g
  | x :: y :: rest, g =>
    if x = "-alg" then parse_arguments_loop rest { g with algorithm := some y }
    else if x = "-input" then parse_arguments_loop rest { g with input_file := some y }
    else if x = "-quantum" then parse_arguments_loop rest { g with quantum := atoi y }
    else parse_arguments_loop (y :: rest) g

/-- The function `parse_arguments(argc, argv)` run on the initial globals: the
globals it leaves, or `none` when it prints the usage line and calls
`exit(EXIT_FAILURE)`. -/
def parse_arguments (argv : List String) : Option Arguments :=
  let g := parse_arguments_loop argv.tail { algorithm := none, input_file := none, quantum := 0 }
  if g.algorithm = none ∨ g.input_file = none ∨ (g.algorithm = some "RR" ∧ g.quantum = 0) then
    none
  else some g

/-! ## Accesses to the queues in program order -/

/-- The pointers of a queue: its `head` and `tail`, and the `next` and `prev`
of the records linked in it or being linked into it. -/
inductive Ptr where
  | head
  | tail
  | next
  | prev
deriving DecidableEq

/-- What a thread does to a queue, in program order: `pthread_mutex_lock` and
`pthread_mutex_unlock` on its mutex, `pthread_cond_wait` on its condition
variable (the mutex is released while suspended and held again on return),
and reads and writes of its pointers. -/
inductive Access where
  | lock (q : QueueId)
  | unlock (q : QueueId)
  | wait (q : QueueId)
  | read (q : QueueId) (p : Ptr)
  | write (q : QueueId) (p : Ptr)
deriving DecidableEq

/-- Every pointer access and every wait in the sequence happens while the
thread holds the mutex of the queue concerned; `held` are the mutexes held at
the start. -/
def disciplined : List QueueId → List Access → Bool
  | _, [] => true
  | held, .lock q :: rest => disciplined (q :: held) rest
  | held, .unlock q :: rest => disciplined (held.erase q) rest
  | held, .wait q :: rest => decide (q ∈ held) && disciplined held rest
  | held, .read q _ :: rest => decide (q ∈ held) && disciplined held rest
  | held, .write q _ :: rest => decide (q ∈ held) && disciplined held rest

/-- The accesses of one call `enqueue(queue, pcb)`, by whether `queue->tail` is
`NULL`: lock, the test of `tail`, the three assignments of the first branch or
the double assignment of the second, unlock. -/
def enqueue_accesses (q : QueueId) (tail_null : Bool) : List Access :=
  [.lock q, .read q .tail] ++
  (if tail_null then [.write q .tail, .write q .head]
   else [.read q .tail, .write q .next, .read q .tail, .write q .prev, .write q .tail]) ++
  [.unlock q]

/-- The accesses of the `while` loop of `dequeue` after its first test, `n`
waits long: each wait is followed by the test of `head`. -/
def dequeue_wait_accesses (q : QueueId) : Nat → List Access
  | 0 => []
  | n + 1 => .wait q :: .read q .head :: dequeue_wait_accesses q n

/-- The accesses of one call `dequeue(queue)` that waits `waits` times and then
returns `NULL` (`result = none`) or a record, the last of the queue or not. -/
def dequeue_accesses (q : QueueId) (waits : Nat) (result : Option Bool) : List Access :=
  [.lock q, .read q .head] ++ dequeue_wait_accesses q waits ++ [.read q .head] ++
  (match result with
   | none => []
   | some last =>
     [.read q .head, .read q .next, .write q .head, .read q .head] ++
     (if last then [.write q .tail] else [.read q .head, .write q .prev]) ++
     [.write q .prev, .write q .next]) ++
  [.unlock q]

/-- The accesses of the unlinking in `run_sjf` and `run_pr`, by whether the
selected record has a predecessor and a successor. -/
def unlink_accesses (has_prev has_next : Bool) : List Access :=
  [.read .ready .prev] ++
  (if has_prev then [.read .ready .prev, .read .ready .next, .write .ready .next]
   else [.read .ready .next, .write .ready .head]) ++
  [.read .ready .next] ++
  (if has_next then [.read .ready .next, .read .ready .prev, .write .ready .prev]
   else [.read .ready .prev, .write .ready .tail]) ++
  [.write .ready .prev, .write .ready .next]

/-- The accesses of the selection at the top of a `run_sjf` iteration whose scan
visits `visited` records: `current = ready_queue.head`, then
`pthread_mutex_lock`, one read of `current->next` per record, the unlinking if
a record was selected, `pthread_mutex_unlock`. -/
def run_sjf_accesses (visited : Nat) (selected : Option (Bool × Bool)) : List Access :=
  [.read .ready .head, .lock .ready] ++ List.replicate visited (.read .ready .next) ++
  (match selected with
   | none => []
   | some (has_prev, has_next) => unlink_accesses has_prev has_next) ++
  [.unlock .ready]

/-- The accesses of the selection at the top of a `run_pr` iteration. -/
def run_pr_accesses (visited : Nat) (selected : Option (Bool × Bool)) : List Access :=
  [.read .ready .head, .lock .ready] ++ List.replicate visited (.read .ready .next) ++
  (match selected with
   | none => []
   | some (has_prev, has_next) => unlink_accesses has_prev has_next) ++
  [.unlock .ready]

/-! ## Theorems -/

/-! ### Linked chains -/

theorem chain_congr {h h' : Addr → PCB} : ∀ (l : List Addr) (p : Option Addr),
    (∀ x ∈ l, (h' x).next = (h x).next ∧ (h' x).prev = (h x).prev) →
    Chain h p l → Chain h' p l
  | [], _, _, _ => trivial
  | a :: l, p, hs, hc => by
    obtain ⟨h1, h2, h3⟩ := hc
    have ha := hs a (List.mem_cons_self _ _)
    refine ⟨by rw [ha.2, h1], by rw [ha.1, h2], ?_⟩
    exact chain_congr l (some a) (fun x hx => hs x (List.mem_cons_of_mem _ hx)) h3

theorem wellFormed_congr {h h' : Addr → PCB} {q : Queue} {l : List Addr}
    (hs : ∀ x ∈ l, (h' x).next = (h x).next ∧ (h' x).prev = (h x).prev)
    (hw : WellFormed h q l) : WellFormed h' q l :=
  ⟨hw.1, hw.2.1, chain_congr l none hs hw.2.2.1, hw.2.2.2⟩

/-- The first record of a chain may be given any predecessor pointer if its
own `prev` field is changed to match. -/
theorem Chain.rehead {h h' : Addr → PCB} {a : Addr} {l : List Addr} {p p' : Option Addr}
    (hc : Chain h p (a :: l))
    (ha : (h' a).prev = p' ∧ (h' a).next = (h a).next)
    (hs : ∀ x ∈ l, (h' x).next = (h x).next ∧ (h' x).prev = (h x).prev) :
    Chain h' p' (a :: l) := by
  obtain ⟨_, h2, h3⟩ := hc
  exact ⟨ha.1, by rw [ha.2, h2], chain_congr l (some a) hs h3⟩

/-- Appending a record behind the last one of a chain. -/
theorem Chain.snoc {h h' : Addr → PCB} {a t : Addr} :
    ∀ (l : List Addr) (p : Option Addr), Chain h p l → l.Nodup → a ∉ l →
    l.getLast? = some t →
    (∀ x ∈ l, x ≠ t → (h' x).next = (h x).next ∧ (h' x).prev = (h x).prev) →
    (h' t).next = some a → (h' t).prev = (h t).prev →
    (h' a).prev = some t → (h' a).next = none →
    Chain h' p (l ++ [a])
  | [], _, _, _, _, hl, _, _, _, _, _ => by simp at hl
  | [x], p, hc, _, _, hl, _, htn, htp, hap, han => by
    simp at hl
    subst hl
    obtain ⟨h1, _, _⟩ := hc
    exact ⟨by rw [htp, h1], by simpa using htn, hap, by simpa using han, trivial⟩
  | x :: y :: l, p, hc, hnd, hna, hl, hs, htn, htp, hap, han => by
    obtain ⟨h1, h2, h3⟩ := hc
    have hnd' : (y :: l).Nodup := (List.nodup_cons.mp hnd).2
    have hxn : x ∉ y :: l := (List.nodup_cons.mp hnd).1
    have hl' : (y :: l).getLast? = some t := by
      rw [List.getLast?_cons_cons] at hl; exact hl
    have hxt : x ≠ t := by
      intro he
      apply hxn
      rw [he]
      exact List.mem_of_getLast?_eq_some hl'
    have hx := hs x (List.mem_cons_self _ _) hxt
    have ih := Chain.snoc (y :: l) (some x) h3 hnd'
      (fun hm => hna (List.mem_cons_of_mem _ hm)) hl'
      (fun z hz => hs z (List.mem_cons_of_mem _ hz)) htn htp hap han
    refine ⟨by rw [hx.2, h1], ?_, ih⟩
    rw [hx.1, h2]
    rfl

/-- Removing the record `a` from the middle of a chain: its predecessor's
`next` and its successor's `prev` are redirected around it. -/
theorem Chain.remove {h h' : Addr → PCB} {a : Addr} {post : List Addr} :
    ∀ (pre : List Addr) (p : Option Addr), Chain h p (pre ++ a :: post) →
    (pre ++ a :: post).Nodup →
    (∀ x ∈ pre ++ post, pre.getLast? ≠ some x → post.head? ≠ some x →
      (h' x).next = (h x).next ∧ (h' x).prev = (h x).prev) →
    (∀ t, pre.getLast? = some t → (h' t).next = post.head? ∧
      (post.head? ≠ some t → (h' t).prev = (h t).prev)) →
    (∀ n, post.head? = some n → (h' n).prev = (pre.getLast?.or p) ∧
      (pre.getLast? ≠ some n → (h' n).next = (h n).next)) →
    Chain h' p (pre ++ post)
  | [], p, hc, hnd, hs, _, hn => by
    obtain ⟨_, _, h3⟩ := hc
    simp only [List.nil_append] at hnd hs ⊢
    cases post with
    | nil => trivial
    | cons n post =>
      have hn' := hn n rfl
      have hnp : n ∉ post := (List.nodup_cons.mp (List.nodup_cons.mp hnd).2).1
      refine Chain.rehead h3 ⟨by simpa using hn'.1, hn'.2 (by simp)⟩ ?_
      intro x hx
      refine hs x (List.mem_cons_of_mem _ hx) (by simp) ?_
      intro he
      simp at he
      exact hnp (he ▸ hx)
  | [t], p, hc, hnd, hs, ht, hn => by
    obtain ⟨h1, _, h2, _, h3⟩ := hc
    have ht' := ht t rfl
    simp only [List.singleton_append, List.nodup_cons, List.mem_cons, not_or] at hnd
    obtain ⟨⟨hta, htp⟩, hap, hpp⟩ := hnd
    cases post with
    | nil =>
      refine ⟨?_, by simpa using ht'.1, trivial⟩
      rw [ht'.2 (by simp), h1]
    | cons n post =>
      have hn' := hn n rfl
      have htn : t ≠ n := fun he => htp (by simp [he])
      have hnp : n ∉ post := (List.nodup_cons.mp hpp).1
      refine ⟨?_, by simpa using ht'.1, ?_⟩
      · rw [ht'.2 (by simpa using fun he => htn he.symm), h1]
      · refine Chain.rehead h3 ⟨by simpa using hn'.1, hn'.2 (by simpa using htn)⟩ ?_
        intro x hx
        have hxt : x ≠ t := fun he => htp (by simp [← he, hx])
        refine hs x (by simp [hx]) (by simpa using fun he => hxt he.symm) ?_
        intro he
        simp at he
        exact hnp (he ▸ hx)
  | x :: y :: pre, p, hc, hnd, hs, ht, hn => by
    obtain ⟨h1, h2, h3⟩ := hc
    have hnd' : (y :: pre ++ a :: post).Nodup := (List.nodup_cons.mp hnd).2
    have hxn : x ∉ y :: pre ++ a :: post := (List.nodup_cons.mp hnd).1
    have hlast : (x :: y :: pre).getLast? = (y :: pre).getLast? := List.getLast?_cons_cons
    have hx : (h' x).next = (h x).next ∧ (h' x).prev = (h x).prev := by
      refine hs x (by simp) ?_ ?_
      · rw [hlast]
        intro he
        apply hxn
        have := List.mem_of_getLast?_eq_some he
        exact List.mem_append_left _ this
      · intro he
        apply hxn
        have : x ∈ post := by
          cases post with
          | nil => simp at he
          | cons n post => simp at he; simp [he]
        simp [this]
    have ih := Chain.remove (y :: pre) (some x) h3 hnd'
      (fun z hz h1 h2 => hs z (by
        simp only [List.cons_append, List.mem_cons, List.mem_append] at hz ⊢
        tauto) (by rw [hlast]; exact h1) h2)
      (fun t he => ht t (by rw [hlast]; exact he))
      (fun n he => by
        have := hn n he
        rw [hlast] at this
        refine ⟨?_, this.2⟩
        rw [this.1]
        cases hq : (y :: pre).getLast? with
        | none => simp at hq
        | some w => rfl)
    refine ⟨by rw [hx.2, h1], ?_, ih⟩
    rw [hx.1, h2]
    rfl

/-! ### Effect of the queue operations, field by field -/

@[simp] theorem store_heap (s : Sim) (a : Addr) (p : PCB) (x : Addr) :
    (s.store a p).heap x = if x = a then p else s.heap x := rfl

@[simp] theorem store_queue (s : Sim) (a : Addr) (p : PCB) (q : QueueId) :
    (s.store a p).queue q = s.queue q := by cases q <;> rfl

@[simp] theorem store_current_time (s : Sim) (a : Addr) (p : PCB) :
    (s.store a p).current_time = s.current_time := rfl

@[simp] theorem setQueue_current_time (s : Sim) (q : QueueId) (v : Queue) :
    (s.setQueue q v).current_time = s.current_time := by cases q <;> rfl

@[simp] theorem store_ready_queue (s : Sim) (a : Addr) (p : PCB) :
    (s.store a p).ready_queue = s.ready_queue := rfl

@[simp] theorem store_io_queue (s : Sim) (a : Addr) (p : PCB) :
    (s.store a p).io_queue = s.io_queue := rfl

@[simp] theorem setQueue_heap (s : Sim) (q : QueueId) (v : Queue) :
    (s.setQueue q v).heap = s.heap := by cases q <;> rfl

@[simp] theorem setQueue_queue (s : Sim) (q : QueueId) (v : Queue) :
    (s.setQueue q v).queue q = v := by cases q <;> rfl

@[simp] theorem cond_signal_heap (q : QueueId) (s : Sim) : (cond_signal q s).heap = s.heap := by
  cases q <;> simp only [cond_signal] <;> split_ifs <;> rfl

@[simp] theorem cond_signal_queue (q q' : QueueId) (s : Sim) :
    (cond_signal q s).queue q' = s.queue q' := by
  cases q <;> cases q' <;> simp only [cond_signal] <;> split_ifs <;> rfl

theorem enqueue_heap (q : QueueId) (a : Addr) (s : Sim) (x : Addr) :
    (enqueue q a s).heap x =
      { s.heap x with
        waiting_time := if x = a then s.current_time else (s.heap x).waiting_time
        next := if (s.queue q).tail = some x then some a else (s.heap x).next
        prev := if x = a ∧ (s.queue q).tail ≠ none then (s.queue q).tail else (s.heap x).prev } := by
  unfold enqueue
  cases ht : (s.queue q).tail <;>
    simp only [ht, store_heap, cond_signal_heap, setQueue_heap, store_queue] <;>
    split_ifs <;> (try subst_vars) <;> (try rfl) <;> simp_all

theorem enqueue_queue (q : QueueId) (a : Addr) (s : Sim) :
    (enqueue q a s).queue q =
      { head := if (s.queue q).tail = none then some a else (s.queue q).head, tail := some a } := by
  unfold enqueue
  cases ht : (s.queue q).tail <;>
    simp only [ht, cond_signal_queue, setQueue_queue, store_queue] <;> simp

theorem enqueue_queue_ne (q q' : QueueId) (a : Addr) (s : Sim) (hq : q' ≠ q) :
    (enqueue q a s).queue q' = s.queue q' := by
  unfold enqueue
  cases q <;> cases q' <;> first | exact absurd rfl hq | skip
  all_goals
    simp only [cond_signal_queue]
    split <;> rfl

theorem enqueue_globals (q : QueueId) (a : Addr) (s : Sim) : SameGlobals s (enqueue q a s) := by
  unfold enqueue
  cases ht : (s.queue q).tail <;> cases q <;>
    simp only [ht, store_queue, cond_signal, Sim.setQueue] <;> split_ifs <;>
    exact ⟨rfl, rfl, rfl, rfl, rfl, rfl, rfl, rfl, rfl, rfl⟩

theorem enqueue_cpu (q : QueueId) (a : Addr) (s : Sim) :
    (enqueue q a s).cpu = (cond_signal q s).cpu := by
  unfold enqueue
  cases ht : (s.queue q).tail <;> cases q <;>
    simp only [ht, store_queue, cond_signal, Sim.setQueue] <;> split_ifs <;> first | rfl | contradiction

theorem enqueue_io (q : QueueId) (a : Addr) (s : Sim) :
    (enqueue q a s).io = (cond_signal q s).io := by
  unfold enqueue
  cases ht : (s.queue q).tail <;> cases q <;>
    simp only [ht, store_queue, cond_signal, Sim.setQueue] <;> split_ifs <;> first | rfl | contradiction

theorem SameGlobals.refl (s : Sim) : SameGlobals s s :=
  ⟨rfl, rfl, rfl, rfl, rfl, rfl, rfl, rfl, rfl, rfl⟩

theorem dequeue_none {q : QueueId} {s : Sim} (h : (s.queue q).head = none) :
    dequeue q s = (if s.file_read_done then .null else .wait, s) := by
  unfold dequeue
  rw [h]
  simp only []
  split_ifs <;> rfl

theorem dequeue_fst {q : QueueId} {s : Sim} {a : Addr} (h : (s.queue q).head = some a) :
    (dequeue q s).1 = .pcb a := by
  unfold dequeue
  rw [h]

theorem dequeue_heap {q : QueueId} {s : Sim} {a : Addr} (h : (s.queue q).head = some a)
    (x : Addr) :
    (dequeue q s).2.heap x =
      { s.heap x with
        waiting_time :=
          if x = a then s.current_time - (s.heap a).waiting_time else (s.heap x).waiting_time
        next := if x = a then none else (s.heap x).next
        prev := if x = a ∨ (s.heap a).next = some x then none else (s.heap x).prev } := by
  unfold dequeue
  rw [h]
  cases hn : (s.heap a).next <;>
    simp only [hn, store_heap, setQueue_heap, setQueue_queue, store_queue, store_current_time] <;>
    split_ifs <;> (try subst_vars) <;> (try rfl) <;> simp_all

theorem dequeue_queue {q : QueueId} {s : Sim} {a : Addr} (h : (s.queue q).head = some a) :
    (dequeue q s).2.queue q =
      { head := (s.heap a).next
        tail := if (s.heap a).next = none then none else (s.queue q).tail } := by
  unfold dequeue
  rw [h]
  cases hn : (s.heap a).next <;>
    simp only [hn, setQueue_queue, store_queue] <;> simp

theorem dequeue_queue_ne (q q' : QueueId) (s : Sim) (hq : q' ≠ q) :
    (dequeue q s).2.queue q' = s.queue q' := by
  unfold dequeue
  cases q <;> cases q' <;> first | exact absurd rfl hq | skip
  all_goals
    split
    · split_ifs <;> rfl
    · simp only [Sim.queue, Sim.setQueue, Sim.store]
      split <;> rfl

theorem dequeue_globals (q : QueueId) (s : Sim) : SameGlobals s (dequeue q s).2 := by
  unfold dequeue
  cases h : (s.queue q).head with
  | none => simp only []; split_ifs <;> exact SameGlobals.refl s
  | some a =>
    cases hn : (s.heap a).next <;> cases q <;>
      simp only [hn, setQueue_queue] <;> exact ⟨rfl, rfl, rfl, rfl, rfl, rfl, rfl, rfl, rfl, rfl⟩

theorem dequeue_ctl (q : QueueId) (s : Sim) :
    (dequeue q s).2.cpu = s.cpu ∧ (dequeue q s).2.io = s.io := by
  unfold dequeue
  cases h : (s.queue q).head with
  | none => simp only []; split_ifs <;> exact ⟨rfl, rfl⟩
  | some a =>
    cases hn : (s.heap a).next <;> cases q <;>
      simp only [hn, setQueue_queue] <;> exact ⟨rfl, rfl⟩

theorem unlink_read (a p : Addr) (s : Sim) :
    ((s.store p { s.heap p with next := (s.heap a).next }).heap a).next = (s.heap a).next ∧
    ((s.store p { s.heap p with next := (s.heap a).next }).heap a).prev = (s.heap a).prev := by
  simp only [store_heap]
  split_ifs with h
  · subst h; exact ⟨rfl, rfl⟩
  · exact ⟨rfl, rfl⟩

theorem run_sjf_unlink_eq (a : Addr) (s : Sim) : run_sjf_unlink a s = unlinked a s := by
  unfold run_sjf_unlink unlinked
  cases hp : (s.heap a).prev with
  | none => cases hn : (s.heap a).next <;> simp only [hp, hn]
  | some p =>
    have key := unlink_read a p s
    cases hn : (s.heap a).next <;> simp only [hn, hp] at key <;> simp only [key.1, key.2, hp, hn]

theorem run_sjf_unlink_heap (a : Addr) (s : Sim) (x : Addr) :
    (run_sjf_unlink a s).heap x =
      { s.heap x with
        next :=
          if x = a then none
          else if (s.heap a).prev = some x then (s.heap a).next else (s.heap x).next
        prev :=
          if x = a then none
          else if (s.heap a).next = some x then (s.heap a).prev else (s.heap x).prev } := by
  rw [run_sjf_unlink_eq]
  unfold unlinked
  cases hp : (s.heap a).prev <;> cases hn : (s.heap a).next <;>
    simp only [store_heap] <;>
    refine PCB.ext ?_ ?_ ?_ ?_ ?_ ?_ ?_ ?_ ?_ <;>
    simp only [apply_ite PCB.priority, apply_ite PCB.burst_count, apply_ite PCB.bursts,
      apply_ite PCB.current_burst, apply_ite PCB.arrival_time, apply_ite PCB.waiting_time,
      apply_ite PCB.turnaround_time, apply_ite PCB.next, apply_ite PCB.prev,
      Option.some.injEq, reduceCtorEq, if_false, @eq_comm _ x] <;>
    split_ifs <;> (try subst_vars) <;> first | rfl | simp_all

theorem run_sjf_unlink_ready_queue (a : Addr) (s : Sim) :
    (run_sjf_unlink a s).ready_queue =
      { head := if (s.heap a).prev = none then (s.heap a).next else s.ready_queue.head
        tail := if (s.heap a).next = none then (s.heap a).prev else s.ready_queue.tail } := by
  rw [run_sjf_unlink_eq]
  unfold unlinked
  cases hp : (s.heap a).prev <;> cases hn : (s.heap a).next <;> rfl

theorem run_sjf_unlink_io_queue (a : Addr) (s : Sim) :
    (run_sjf_unlink a s).io_queue = s.io_queue := by
  rw [run_sjf_unlink_eq]
  unfold unlinked
  cases hp : (s.heap a).prev <;> cases hn : (s.heap a).next <;> rfl

theorem run_sjf_unlink_globals (a : Addr) (s : Sim) : SameGlobals s (run_sjf_unlink a s) := by
  rw [run_sjf_unlink_eq]
  unfold unlinked
  cases hp : (s.heap a).prev <;> cases hn : (s.heap a).next <;>
    exact ⟨rfl, rfl, rfl, rfl, rfl, rfl, rfl, rfl, rfl, rfl⟩

theorem run_sjf_unlink_ctl (a : Addr) (s : Sim) :
    (run_sjf_unlink a s).cpu = s.cpu ∧ (run_sjf_unlink a s).io = s.io := by
  rw [run_sjf_unlink_eq]
  unfold unlinked
  cases hp : (s.heap a).prev <;> cases hn : (s.heap a).next <;> exact ⟨rfl, rfl⟩

theorem run_pr_unlink_eq : run_pr_unlink = run_sjf_unlink := rfl

theorem run_sjf_body_eq : run_sjf_body = run_fifo_body := rfl

theorem run_pr_body_eq : run_pr_body = run_fifo_body := rfl

/-! ### Well-formedness under the queue operations -/

theorem WellFormed.head_none {h : Addr → PCB} {q : Queue} {l : List Addr}
    (hw : WellFormed h q l) : q.head = none ↔ l = [] := by
  rw [hw.1]; cases l <;> simp

theorem WellFormed.tail_none {h : Addr → PCB} {q : Queue} {l : List Addr}
    (hw : WellFormed h q l) : q.tail = none ↔ l = [] := by
  rw [hw.2.1]; exact List.getLast?_eq_none_iff

theorem WellFormed.tail_mem {h : Addr → PCB} {q : Queue} {l : List Addr} {t : Addr}
    (hw : WellFormed h q l) (ht : q.tail = some t) : t ∈ l :=
  List.mem_of_getLast?_eq_some (hw.2.1 ▸ ht)

/-- `enqueue` appends the record at the tail of a well-formed queue. -/
theorem enqueue_wf {q : QueueId} {a : Addr} {s : Sim} {l : List Addr}
    (hw : WellFormed s.heap (s.queue q) l) (hna : a ∉ l) (hd : Detached s.heap a) :
    WellFormed (enqueue q a s).heap ((enqueue q a s).queue q) (l ++ [a]) := by
  obtain ⟨hh, ht, hc, hnd⟩ := hw
  have hnd' : (l ++ [a]).Nodup := by
    rw [List.nodup_append]
    exact ⟨hnd, List.nodup_singleton a, by simpa using hna⟩
  rw [enqueue_queue]
  cases hl : l.getLast? with
  | none =>
    have hnil : l = [] := List.getLast?_eq_none_iff.mp hl
    subst hnil
    rw [hl] at ht
    refine ⟨by simp [ht], by simp, ⟨?_, ?_, trivial⟩, hnd'⟩
    · rw [enqueue_heap]; simp [ht, hd.2]
    · rw [enqueue_heap]; simp [ht, hd.1]
  | some t =>
    rw [hl] at ht
    have hne : l ≠ [] := by intro h; simp [h] at hl
    have hta : t ≠ a := fun he => hna (he ▸ List.mem_of_getLast?_eq_some hl)
    refine ⟨?_, by simp, ?_, hnd'⟩
    · simp only [ht, reduceCtorEq, if_false, hh]
      cases l with
      | nil => exact absurd rfl hne
      | cons x l => rfl
    · refine Chain.snoc l none hc hnd hna hl ?_ ?_ ?_ ?_ ?_
      · intro x hx hxt
        have hxa : x ≠ a := fun he => hna (he ▸ hx)
        rw [enqueue_heap]
        simp [ht, hxa, Ne.symm hxt]
      · rw [enqueue_heap]; simp [ht]
      · rw [enqueue_heap]; simp [ht, hta]
      · rw [enqueue_heap]; simp [ht]
      · rw [enqueue_heap]; simp [ht, hta, hd.1]

/-- Links of records other than the enqueued one and the old tail are untouched
by `enqueue`. -/
theorem enqueue_links {q : QueueId} {a : Addr} {s : Sim} {x : Addr}
    (hxa : x ≠ a) (hxt : (s.queue q).tail ≠ some x) :
    ((enqueue q a s).heap x).next = (s.heap x).next ∧
    ((enqueue q a s).heap x).prev = (s.heap x).prev := by
  rw [enqueue_heap]
  simp [hxa, hxt]

/-- `enqueue` on one queue leaves a disjoint well-formed queue well-formed. -/
theorem enqueue_wf_frame {q q' : QueueId} {a : Addr} {s : Sim} {l l' : List Addr}
    (hw : WellFormed s.heap (s.queue q) l) (hw' : WellFormed s.heap (s.queue q') l')
    (hq : q' ≠ q) (hna : a ∉ l') (hdis : ∀ x ∈ l, x ∉ l') :
    WellFormed (enqueue q a s).heap ((enqueue q a s).queue q') l' := by
  rw [enqueue_queue_ne q q' a s hq]
  refine wellFormed_congr ?_ hw'
  intro x hx
  refine enqueue_links (fun he => hna (he ▸ hx)) ?_
  intro ht
  exact hdis x (hw.tail_mem ht) hx

/-- `dequeue` on a well-formed non-empty queue returns the head, detached, and
leaves the rest in order. -/
theorem dequeue_wf {q : QueueId} {a : Addr} {s : Sim} {l : List Addr}
    (hw : WellFormed s.heap (s.queue q) (a :: l)) :
    (dequeue q s).1 = .pcb a ∧
    WellFormed (dequeue q s).2.heap ((dequeue q s).2.queue q) l ∧
    Detached (dequeue q s).2.heap a := by
  obtain ⟨hh, ht, hc, hnd⟩ := hw
  have hh' : (s.queue q).head = some a := by simpa using hh
  obtain ⟨_, hn, hc'⟩ := hc
  have hal : a ∉ l := (List.nodup_cons.mp hnd).1
  have hnd' : l.Nodup := (List.nodup_cons.mp hnd).2
  refine ⟨dequeue_fst hh', ?_, ?_⟩
  · rw [dequeue_queue hh']
    refine ⟨by simpa using hn, ?_, ?_, hnd'⟩
    · cases l with
      | nil => simp [hn]
      | cons b l => simp [hn, ht, List.getLast?_cons_cons]
    · cases l with
      | nil => trivial
      | cons b l =>
        have hba : b ≠ a := fun he => hal (by simp [he])
        have hbl : b ∉ l := (List.nodup_cons.mp hnd').1
        refine Chain.rehead hc' ⟨?_, ?_⟩ ?_
        · rw [dequeue_heap hh']; simp [hn]
        · rw [dequeue_heap hh']; simp [hba]
        · intro x hx
          have hxa : x ≠ a := fun he => hal (by simp [← he, hx])
          have hxb : b ≠ x := fun he => hbl (he ▸ hx)
          rw [dequeue_heap hh']
          simp [hxa, hn, hxb]
  · constructor <;> rw [dequeue_heap hh'] <;> simp

/-- Links of records other than the head and its successor are untouched by
`dequeue`. -/
theorem dequeue_links {q : QueueId} {a : Addr} {s : Sim} {x : Addr}
    (hh : (s.queue q).head = some a) (hxa : x ≠ a) (hxn : (s.heap a).next ≠ some x) :
    ((dequeue q s).2.heap x).next = (s.heap x).next ∧
    ((dequeue q s).2.heap x).prev = (s.heap x).prev := by
  rw [dequeue_heap hh]
  simp [hxa, hxn]

/-- `dequeue` on one queue leaves a disjoint well-formed queue well-formed. -/
theorem dequeue_wf_frame {q q' : QueueId} {s : Sim} {l l' : List Addr}
    (hw : WellFormed s.heap (s.queue q) l) (hw' : WellFormed s.heap (s.queue q') l')
    (hq : q' ≠ q) (hdis : ∀ x ∈ l, x ∉ l') :
    WellFormed (dequeue q s).2.heap ((dequeue q s).2.queue q') l' := by
  rw [dequeue_queue_ne q q' s hq]
  cases l with
  | nil =>
    have : (s.queue q).head = none := hw.head_none.mpr rfl
    rw [dequeue_none this]
    exact hw'
  | cons a l =>
    have hh : (s.queue q).head = some a := by simpa using hw.1
    refine wellFormed_congr ?_ hw'
    intro x hx
    have hxa : x ≠ a := fun he => hdis a (by simp) (he ▸ hx)
    refine dequeue_links hh hxa ?_
    intro hn
    have : (s.heap a).next = l.head? := hw.2.2.1.2.1
    rw [this] at hn
    have hxl : x ∈ l := List.mem_of_mem_head? hn
    exact hdis x (by simp [hxl]) hx

theorem Chain.mid {h : Addr → PCB} {a : Addr} {post : List Addr} :
    ∀ (pre : List Addr) (p : Option Addr), Chain h p (pre ++ a :: post) →
    (h a).prev = pre.getLast?.or p ∧ (h a).next = post.head?
  | [], _, hc => ⟨by simpa using hc.1, hc.2.1⟩
  | [x], _, hc => by
    have := Chain.mid [] (some x) hc.2.2
    simpa using this
  | x :: y :: pre, p, hc => by
    have := Chain.mid (y :: pre) (some x) hc.2.2
    rw [List.getLast?_cons_cons]
    refine ⟨?_, this.2⟩
    rw [this.1]
    cases hq : (y :: pre).getLast? with
    | none => simp at hq
    | some w => rfl

/-- Unlinking a member of a well-formed ready queue removes exactly that record
and leaves it detached. -/
theorem run_sjf_unlink_wf {a : Addr} {s : Sim} {pre post : List Addr}
    (hw : WellFormed s.heap s.ready_queue (pre ++ a :: post)) :
    WellFormed (run_sjf_unlink a s).heap (run_sjf_unlink a s).ready_queue (pre ++ post) ∧
    Detached (run_sjf_unlink a s).heap a := by
  obtain ⟨hh, ht, hc, hnd⟩ := hw
  obtain ⟨hp, hn⟩ := Chain.mid pre none hc
  simp only [Option.or_none] at hp
  have hapre : a ∉ pre := fun hm => by
    have := (List.nodup_append.mp hnd).2.2
    exact this hm (by simp)
  have hapost : a ∉ post := (List.nodup_cons.mp (List.nodup_append.mp hnd).2.1).1
  have hnd' : (pre ++ post).Nodup := by
    rw [List.nodup_append] at hnd ⊢
    exact ⟨hnd.1, (List.nodup_cons.mp hnd.2.1).2,
      fun x hx hy => hnd.2.2 hx (List.mem_cons_of_mem _ hy)⟩
  refine ⟨⟨?_, ?_, ?_, hnd'⟩, ?_⟩
  · rw [run_sjf_unlink_ready_queue]
    simp only [hp, hn, hh]
    cases pre with
    | nil => simp
    | cons x pre =>
      have : (x :: pre).getLast? ≠ none := by simp
      simp [this]
  · rw [run_sjf_unlink_ready_queue]
    simp only [hp, hn, ht]
    cases post with
    | nil => simp
    | cons y post =>
      simp [List.getLast?_append, List.getLast?_cons_cons]
  · refine Chain.remove pre none hc hnd ?_ ?_ ?_
    · intro x hx h1 h2
      have hxa : x ≠ a := fun he => by
        rcases List.mem_append.mp hx with h | h
        · exact hapre (he ▸ h)
        · exact hapost (he ▸ h)
      rw [run_sjf_unlink_heap]
      simp [hxa, hp, hn, h1, h2]
    · intro t hl
      have hta : t ≠ a := fun he => hapre (he ▸ List.mem_of_getLast?_eq_some hl)
      rw [run_sjf_unlink_heap]
      constructor
      · simp [hta, hp, hl, hn]
      · intro h2
        simp [hta, hn, h2]
    · intro n hl
      have hna : n ≠ a := fun he => hapost (he ▸ List.mem_of_mem_head? hl)
      rw [run_sjf_unlink_heap]
      constructor
      · simp [hna, hn, hl, hp]
      · intro h2
        simp [hna, hp, h2]
  · constructor <;> rw [run_sjf_unlink_heap] <;> simp

/-- Unlinking touches only the selected record and its two neighbours. -/
theorem run_sjf_unlink_links {a : Addr} {s : Sim} {x : Addr}
    (hxa : x ≠ a) (hp : (s.heap a).prev ≠ some x) (hn : (s.heap a).next ≠ some x) :
    ((run_sjf_unlink a s).heap x).next = (s.heap x).next ∧
    ((run_sjf_unlink a s).heap x).prev = (s.heap x).prev := by
  rw [run_sjf_unlink_heap]
  simp [hxa, hp, hn]

/-- Unlinking from the ready queue leaves a disjoint well-formed I/O queue
well-formed. -/
theorem run_sjf_unlink_wf_frame {a : Addr} {s : Sim} {pre post l' : List Addr}
    (hw : WellFormed s.heap s.ready_queue (pre ++ a :: post))
    (hw' : WellFormed s.heap s.io_queue l')
    (hdis : ∀ x ∈ pre ++ a :: post, x ∉ l') :
    WellFormed (run_sjf_unlink a s).heap (run_sjf_unlink a s).io_queue l' := by
  rw [run_sjf_unlink_io_queue]
  obtain ⟨hp, hn⟩ := Chain.mid pre none hw.2.2.1
  simp only [Option.or_none] at hp
  refine wellFormed_congr ?_ hw'
  intro x hx
  refine run_sjf_unlink_links (fun he => hdis a (by simp) (he ▸ hx)) ?_ ?_
  · rw [hp]
    intro he
    exact hdis x (by simp [List.mem_of_getLast?_eq_some he]) hx
  · rw [hn]
    intro he
    exact hdis x (by simp [List.mem_of_mem_head? he]) hx

/-! ### The scans of `run_sjf` and `run_pr` -/

/-- On a chain the `run_sjf` scan computes the fold of `keep` over the records,
the key of a record being its current burst. -/
theorem run_sjf_scan_eq {h : Addr → PCB} {key : Addr → Int} :
    ∀ (l : List Addr) (p best : Option Addr) (fuel : Nat), Chain h p l → l.length < fuel →
    (∀ x ∈ l, (h x).burst = some (key x)) →
    (∀ b, best = some b → (h b).burst = some (key b)) →
    run_sjf_scan fuel h l.head? best = some (l.foldl (keep key) best)
  | [], _, best, fuel + 1, _, _, _, _ => by simp [run_sjf_scan]
  | c :: l, _, none, fuel + 1, hc, hf, hk, _ => by
    simp only [List.head?_cons, run_sjf_scan, List.foldl_cons, keep]
    rw [hc.2.1]
    exact run_sjf_scan_eq l (some c) (some c) fuel hc.2.2 (by simpa using hf)
      (fun x hx => hk x (List.mem_cons_of_mem _ hx))
      (fun b hb => by
        simp only [Option.some.injEq] at hb
        subst hb
        exact hk c (List.mem_cons_self _ _))
  | c :: l, _, some b, fuel + 1, hc, hf, hk, hb => by
    simp only [List.head?_cons, run_sjf_scan, List.foldl_cons, keep]
    rw [hk c (List.mem_cons_self _ _), hb b rfl, hc.2.1]
    simp only []
    refine run_sjf_scan_eq l (some c) _ fuel hc.2.2 (by simpa using hf)
      (fun x hx => hk x (List.mem_cons_of_mem _ hx)) ?_
    intro b' hb'
    split_ifs at hb' with hlt
    · simp only [Option.some.injEq] at hb'
      subst hb'
      exact hk c (List.mem_cons_self _ _)
    · simp only [Option.some.injEq] at hb'
      subst hb'
      exact hb b rfl

/-- On a chain the `run_pr` scan computes the fold of `keep` over the records,
the key of a record being the negation of its priority. -/
theorem run_pr_scan_eq {h : Addr → PCB} :
    ∀ (l : List Addr) (p best : Option Addr) (fuel : Nat), Chain h p l → l.length < fuel →
    run_pr_scan fuel h l.head? best = some (l.foldl (keep fun x => -(h x).priority) best)
  | [], _, best, fuel + 1, _, _ => by simp [run_pr_scan]
  | c :: l, _, none, fuel + 1, hc, hf => by
    simp only [List.head?_cons, run_pr_scan, List.foldl_cons, keep]
    rw [hc.2.1]
    exact run_pr_scan_eq l (some c) (some c) fuel hc.2.2 (by simpa using hf)
  | c :: l, _, some b, fuel + 1, hc, hf => by
    simp only [List.head?_cons, run_pr_scan, List.foldl_cons, keep, neg_lt_neg_iff, gt_iff_lt]
    rw [hc.2.1]
    exact run_pr_scan_eq l (some c) _ fuel hc.2.2 (by simpa using hf)

/-- The fold of `keep` started with a record: either that record survives and
no later key is smaller, or the survivor is the first record of least key. -/
theorem foldl_keep_some (key : Addr → Int) :
    ∀ (l : List Addr) (b : Addr), ∃ r, l.foldl (keep key) (some b) = some r ∧
      ((r = b ∧ ∀ x ∈ l, key b ≤ key x) ∨
       (∃ pre post, l = pre ++ r :: post ∧ key r < key b ∧
          (∀ x ∈ pre, key r < key x) ∧ ∀ x ∈ post, key r ≤ key x))
  | [], b => ⟨b, rfl, Or.inl ⟨rfl, by simp⟩⟩
  | c :: l, b => by
    simp only [List.foldl_cons, keep]
    split_ifs with hlt
    · obtain ⟨r, hr, hcase⟩ := foldl_keep_some key l c
      refine ⟨r, hr, Or.inr ?_⟩
      rcases hcase with ⟨he, hall⟩ | ⟨pre, post, hl, hrc, hpre, hpost⟩
      · subst he
        exact ⟨[], l, rfl, hlt, by simp, hall⟩
      · refine ⟨c :: pre, post, by simp [hl], by omega, ?_, hpost⟩
        intro x hx
        rcases List.mem_cons.mp hx with he | hm
        · subst he; exact hrc
        · exact hpre x hm
    · obtain ⟨r, hr, hcase⟩ := foldl_keep_some key l b
      refine ⟨r, hr, ?_⟩
      rcases hcase with ⟨he, hall⟩ | ⟨pre, post, hl, hrb, hpre, hpost⟩
      · left
        refine ⟨he, ?_⟩
        intro x hx
        rcases List.mem_cons.mp hx with he' | hm
        · subst he'; omega
        · exact hall x hm
      · right
        refine ⟨c :: pre, post, by simp [hl], hrb, ?_, hpost⟩
        intro x hx
        rcases List.mem_cons.mp hx with he | hm
        · subst he; omega
        · exact hpre x hm

/-- The fold of `keep` over a non-empty list selects the first record of least
key. -/
theorem foldl_keep_none (key : Addr → Int) (l : List Addr) (hne : l ≠ []) :
    ∃ r pre post, l.foldl (keep key) none = some r ∧ l = pre ++ r :: post ∧
      (∀ x ∈ pre, key r < key x) ∧ ∀ x ∈ post, key r ≤ key x := by
  cases l with
  | nil => exact absurd rfl hne
  | cons c l =>
    obtain ⟨r, hr, hcase⟩ := foldl_keep_some key l c
    rcases hcase with ⟨he, hall⟩ | ⟨pre, post, hl, hrc, hpre, hpost⟩
    · subst he
      exact ⟨r, [], l, hr, rfl, by simp, hall⟩
    · refine ⟨r, c :: pre, post, hr, by simp [hl], ?_, hpost⟩
      intro x hx
      rcases List.mem_cons.mp hx with he | hm
      · subst he; exact hrc
      · exact hpre x hm

/-! ### Selection by burst and by priority -/

theorem run_sjf_unlink_burst (a : Addr) (s : Sim) (x : Addr) :
    ((run_sjf_unlink a s).heap x).burst = (s.heap x).burst := by
  rw [run_sjf_unlink_heap]; rfl

/-- C1: on a non-empty well-formed ready queue whose records all have a current
burst, the selection of `run_sjf` returns a record whose current burst is at
most that of every record in the queue and strictly less than that of every
record nearer the head; that record is unlinked (the others keep their order),
detached, and is the one whose burst the iteration then runs. -/
theorem run_sjf_selects_shortest (fuel : Nat) (s : Sim) (l : List Addr) (key : Addr → Int)
    (hw : WellFormed s.heap s.ready_queue l) (hne : l ≠ [])
    (hk : ∀ x ∈ l, (s.heap x).burst = some (key x)) (hf : l.length < fuel) :
    ∃ a pre post, run_sjf_select fuel s = some (some a, run_sjf_unlink a s) ∧
      l = pre ++ a :: post ∧
      (∀ x ∈ l, key a ≤ key x) ∧ (∀ x ∈ pre, key a < key x) ∧
      WellFormed (run_sjf_unlink a s).heap (run_sjf_unlink a s).ready_queue (pre ++ post) ∧
      Detached (run_sjf_unlink a s).heap a ∧
      ((run_sjf_unlink a s).heap a).burst = some (key a) := by
  obtain ⟨a, pre, post, hfold, hl, hpre, hpost⟩ := foldl_keep_none key l hne
  have hscan := run_sjf_scan_eq l none none fuel hw.2.2.1 hf hk (by simp)
  rw [← hw.1, hfold] at hscan
  have hal : a ∈ l := by rw [hl]; simp
  subst hl
  refine ⟨a, pre, post, ?_, rfl, ?_, hpre, (run_sjf_unlink_wf hw).1, (run_sjf_unlink_wf hw).2, ?_⟩
  · simp only [run_sjf_select, hscan]
  · intro x hx
    rcases List.mem_append.mp hx with h | h
    · exact le_of_lt (hpre x h)
    · rcases List.mem_cons.mp h with h | h
      · rw [h]
      · exact hpost x h
  · rw [run_sjf_unlink_burst]; exact hk a hal

/-- The selection of `run_sjf` on three queued records with bursts 5, 2 and 2
returns record 1, the first of the two shortest. -/
theorem run_sjf_selects_shortest_witness :
    (run_sjf_select 4 sjf_demo).map Prod.fst = some (some 1) ∧
    ∃ a pre post, run_sjf_select 4 sjf_demo = some (some a, run_sjf_unlink a sjf_demo) ∧
      [0, 1, 2] = pre ++ a :: post ∧
      (∀ x ∈ [0, 1, 2], ((sjf_demo.heap a).burst).getD 0 ≤ ((sjf_demo.heap x).burst).getD 0) ∧
      (∀ x ∈ pre, ((sjf_demo.heap a).burst).getD 0 < ((sjf_demo.heap x).burst).getD 0) ∧
      WellFormed (run_sjf_unlink a sjf_demo).heap (run_sjf_unlink a sjf_demo).ready_queue
        (pre ++ post) ∧
      Detached (run_sjf_unlink a sjf_demo).heap a ∧
      ((run_sjf_unlink a sjf_demo).heap a).burst = some (((sjf_demo.heap a).burst).getD 0) :=
  ⟨by decide,
   run_sjf_selects_shortest 4 sjf_demo [0, 1, 2] (fun x => ((sjf_demo.heap x).burst).getD 0)
    (by decide) (by decide) (by decide) (by decide)⟩

/-- C2: on a non-empty well-formed ready queue, the selection of `run_pr`
returns a record whose priority is at least that of every record in the queue
and strictly greater than that of every record nearer the head; that record is
unlinked (the others keep their order) and detached.  In particular, of two
queued records with priorities 1 and 5 the one with priority 5 is selected,
whichever was inserted first. -/
theorem run_pr_selects_highest (fuel : Nat) (s : Sim) (l : List Addr)
    (hw : WellFormed s.heap s.ready_queue l) (hne : l ≠ []) (hf : l.length < fuel) :
    ∃ a pre post, run_pr_select fuel s = some (some a, run_pr_unlink a s) ∧
      l = pre ++ a :: post ∧
      (∀ x ∈ l, (s.heap x).priority ≤ (s.heap a).priority) ∧
      (∀ x ∈ pre, (s.heap x).priority < (s.heap a).priority) ∧
      WellFormed (run_pr_unlink a s).heap (run_pr_unlink a s).ready_queue (pre ++ post) ∧
      Detached (run_pr_unlink a s).heap a ∧
      (∀ x y, l = [x, y] →
        ((s.heap x).priority = 1 ∧ (s.heap y).priority = 5 → a = y) ∧
        ((s.heap x).priority = 5 ∧ (s.heap y).priority = 1 → a = x)) := by
  obtain ⟨a, pre, post, hfold, hl, hpre, hpost⟩ :=
    foldl_keep_none (fun x => -(s.heap x).priority) l hne
  have hscan := run_pr_scan_eq l none none fuel hw.2.2.1 hf
  rw [← hw.1, hfold] at hscan
  subst hl
  simp only [neg_lt_neg_iff, neg_le_neg_iff] at hpre hpost
  have hall : ∀ x ∈ pre ++ a :: post, (s.heap x).priority ≤ (s.heap a).priority := by
    intro x hx
    rcases List.mem_append.mp hx with h | h
    · exact le_of_lt (hpre x h)
    · rcases List.mem_cons.mp h with h | h
      · rw [h]
      · exact hpost x h
  rw [run_pr_unlink_eq]
  refine ⟨a, pre, post, ?_, rfl, hall, hpre, (run_sjf_unlink_wf hw).1, (run_sjf_unlink_wf hw).2, ?_⟩
  · simp only [run_pr_select, hscan, run_pr_unlink_eq]
  · intro x y hxy
    have hx := hall x (by rw [hxy]; simp)
    have hy := hall y (by rw [hxy]; simp)
    have ha : a = x ∨ a = y := by
      have : a ∈ [x, y] := by rw [← hxy]; simp
      simpa using this
    constructor
    · rintro ⟨h1, h5⟩
      rcases ha with h | h
      · subst h; omega
      · exact h
    · rintro ⟨h5, h1⟩
      rcases ha with h | h
      · exact h
      · subst h; omega

/-- The selection of `run_pr` on records of priority 1 and 5 returns the one of
priority 5 in either insertion order. -/
theorem run_pr_selects_highest_witness :
    (run_pr_select 3 (pr_demo 1 5)).map Prod.fst = some (some 1) ∧
    (run_pr_select 3 (pr_demo 5 1)).map Prod.fst = some (some 0) ∧
    ∃ a pre post, run_pr_select 3 (pr_demo 1 5) = some (some a, run_pr_unlink a (pr_demo 1 5)) ∧
      [0, 1] = pre ++ a :: post ∧
      (∀ x ∈ [0, 1], ((pr_demo 1 5).heap x).priority ≤ ((pr_demo 1 5).heap a).priority) ∧
      (∀ x ∈ pre, ((pr_demo 1 5).heap x).priority < ((pr_demo 1 5).heap a).priority) ∧
      WellFormed (run_pr_unlink a (pr_demo 1 5)).heap (run_pr_unlink a (pr_demo 1 5)).ready_queue
        (pre ++ post) ∧
      Detached (run_pr_unlink a (pr_demo 1 5)).heap a ∧
      (∀ x y, [0, 1] = [x, y] →
        (((pr_demo 1 5).heap x).priority = 1 ∧ ((pr_demo 1 5).heap y).priority = 5 → a = y) ∧
        (((pr_demo 1 5).heap x).priority = 5 ∧ ((pr_demo 1 5).heap y).priority = 1 → a = x)) :=
  ⟨by decide, by decide,
   run_pr_selects_highest 3 (pr_demo 1 5) [0, 1] (by decide) (by decide) (by decide)⟩

/-! ### First in, first out -/

theorem enqueue_all_wf (q : QueueId) :
    ∀ (rs : List Addr) (s : Sim) (qs : List Addr), WellFormed s.heap (s.queue q) qs →
    rs.Nodup → (∀ r ∈ rs, r ∉ qs ∧ Detached s.heap r) →
    WellFormed (enqueue_all q rs s).heap ((enqueue_all q rs s).queue q) (qs ++ rs)
  | [], s, qs, hw, _, _ => by simpa [enqueue_all] using hw
  | r :: rs, s, qs, hw, hnd, hf => by
    have hr := hf r (List.mem_cons_self _ _)
    have hw1 := enqueue_wf hw hr.1 hr.2
    have hrs : r ∉ rs := (List.nodup_cons.mp hnd).1
    have := enqueue_all_wf q rs (enqueue q r s) (qs ++ [r]) hw1 (List.nodup_cons.mp hnd).2 (by
      intro x hx
      have hx' := hf x (List.mem_cons_of_mem _ hx)
      have hxr : x ≠ r := fun he => hrs (he ▸ hx)
      refine ⟨by simp [hx'.1, hxr], ?_⟩
      have hl := @enqueue_links q r s x hxr (fun ht => hx'.1 (hw.tail_mem ht))
      exact ⟨by rw [hl.1]; exact hx'.2.1, by rw [hl.2]; exact hx'.2.2⟩)
    simpa [enqueue_all] using this

theorem dequeue_n_wf (q : QueueId) :
    ∀ (l : List Addr) (s : Sim), WellFormed s.heap (s.queue q) l →
    (dequeue_n q l.length s).1 = l.map Dequeued.pcb ∧
    (dequeue_n q l.length s).2.queue q = { head := none, tail := none }
  | [], s, hw => by
    refine ⟨rfl, ?_⟩
    have h1 := hw.1
    have h2 := hw.2.1
    simp only [dequeue_n]
    cases hq : s.queue q with
    | mk hd tl =>
      rw [hq] at h1 h2
      simp at h1 h2
      simp [h1, h2]
  | a :: l, s, hw => by
    obtain ⟨h1, h2, _⟩ := dequeue_wf hw
    have ih := dequeue_n_wf q l (dequeue q s).2 h2
    simp only [List.length_cons, dequeue_n, List.map_cons, h1, ih.1, ih.2, and_self]

/-- C4: starting from a well-formed queue holding `qs`, enqueueing the distinct
detached records `rs` (none of them in the queue) and then calling `dequeue`
once per record returns the records of `qs` followed by those of `rs`, in
that order, and leaves the queue empty. -/
theorem queue_is_fifo (q : QueueId) (s : Sim) (qs rs : List Addr)
    (hw : WellFormed s.heap (s.queue q) qs) (hnd : rs.Nodup)
    (hf : ∀ r ∈ rs, r ∉ qs ∧ Detached s.heap r) :
    (dequeue_n q (qs.length + rs.length) (enqueue_all q rs s)).1
      = (qs ++ rs).map Dequeued.pcb ∧
    (dequeue_n q (qs.length + rs.length) (enqueue_all q rs s)).2.queue q
      = { head := none, tail := none } := by
  have hw' := enqueue_all_wf q rs s qs hw hnd hf
  have := dequeue_n_wf q (qs ++ rs) (enqueue_all q rs s) hw'
  rwa [List.length_append] at this

/-- Records 3 and 2 enqueued behind records 0 and 1 come out as 0, 1, 3, 2. -/
theorem queue_is_fifo_witness :
    (dequeue_n .ready (2 + 2) (enqueue_all .ready [3, 2] fifo_demo)).1
      = [.pcb 0, .pcb 1, .pcb 3, .pcb 2] ∧
    (dequeue_n .ready (2 + 2) (enqueue_all .ready [3, 2] fifo_demo)).2.queue .ready
      = { head := none, tail := none } :=
  queue_is_fifo .ready fifo_demo [0, 1] [3, 2] (by decide) (by decide) (by decide)

/-! ### The burst-and-route steps -/

theorem moreBursts_iff (a : Addr) (s : Sim) (p : PCB) :
    ((((s.store a { p with current_burst := p.current_burst + 1 }).heap a).current_burst : Int)
      < ((s.store a { p with current_burst := p.current_burst + 1 }).heap a).burst_count)
    ↔ MoreBursts p := by
  simp [MoreBursts]

theorem run_fifo_body_more {a : Addr} {s : Sim} {b : Int} (hb : (s.heap a).burst = some b)
    (hm : MoreBursts (s.heap a)) :
    run_fifo_body a s = some (enqueue .io a (cpu_ran b a s)) := by
  unfold run_fifo_body
  rw [hb]
  simp only []
  rw [if_pos ((moreBursts_iff a _ _).mpr hm)]
  rfl

theorem run_fifo_body_last {a : Addr} {s : Sim} {b : Int} (hb : (s.heap a).burst = some b)
    (hm : ¬ MoreBursts (s.heap a)) :
    run_fifo_body a s = some (finalized a (cpu_ran b a s)) := by
  unfold run_fifo_body
  rw [hb]
  simp only []
  rw [if_neg (fun h => hm ((moreBursts_iff a _ _).mp h))]
  rfl

theorem io_system_thread_body_more {a : Addr} {s : Sim} {b : Int}
    (hb : (s.heap a).burst = some b) (hm : MoreBursts (s.heap a)) :
    io_system_thread_body a s = some (enqueue .ready a (io_ran b a s)) := by
  unfold io_system_thread_body
  rw [hb]
  simp only []
  rw [if_pos ((moreBursts_iff a _ _).mpr hm)]
  rfl

theorem io_system_thread_body_last {a : Addr} {s : Sim} {b : Int}
    (hb : (s.heap a).burst = some b) (hm : ¬ MoreBursts (s.heap a)) :
    io_system_thread_body a s = some (finalized a (io_ran b a s)) := by
  unfold io_system_thread_body
  rw [hb]
  simp only []
  rw [if_neg (fun h => hm ((moreBursts_iff a _ _).mp h))]
  rfl

theorem run_rr_body_slice {quantum : Int} {a : Addr} {s : Sim} {b : Int}
    (hb : (s.heap a).burst = some b) (hq : b > quantum) :
    run_rr_body quantum a s = some (enqueue .ready a (rr_sliced quantum b a s)) := by
  unfold run_rr_body
  rw [hb]
  simp only []
  rw [if_pos hq]
  rfl

theorem run_rr_body_short {quantum : Int} {a : Addr} {s : Sim} {b : Int}
    (hb : (s.heap a).burst = some b) (hq : ¬ b > quantum) :
    run_rr_body quantum a s = run_fifo_body a s := by
  unfold run_rr_body run_fifo_body
  rw [hb]
  simp only []
  rw [if_neg hq]

@[simp] theorem store_brk (s : Sim) (a : Addr) (p : PCB) :
    (s.store a p).brk = s.brk := rfl

@[simp] theorem store_file_read_done (s : Sim) (a : Addr) (p : PCB) :
    (s.store a p).file_read_done = s.file_read_done := rfl

@[simp] theorem store_total_time (s : Sim) (a : Addr) (p : PCB) :
    (s.store a p).total_time = s.total_time := rfl

@[simp] theorem store_busy_time (s : Sim) (a : Addr) (p : PCB) :
    (s.store a p).busy_time = s.busy_time := rfl

@[simp] theorem store_process_count (s : Sim) (a : Addr) (p : PCB) :
    (s.store a p).process_count = s.process_count := rfl

@[simp] theorem store_total_turnaround_time (s : Sim) (a : Addr) (p : PCB) :
    (s.store a p).total_turnaround_time = s.total_turnaround_time := rfl

@[simp] theorem store_total_waiting_time (s : Sim) (a : Addr) (p : PCB) :
    (s.store a p).total_waiting_time = s.total_waiting_time := rfl

@[simp] theorem store_feed (s : Sim) (a : Addr) (p : PCB) :
    (s.store a p).feed = s.feed := rfl

@[simp] theorem store_feeder_exited (s : Sim) (a : Addr) (p : PCB) :
    (s.store a p).feeder_exited = s.feeder_exited := rfl

@[simp] theorem store_cpu (s : Sim) (a : Addr) (p : PCB) :
    (s.store a p).cpu = s.cpu := rfl

@[simp] theorem store_io (s : Sim) (a : Addr) (p : PCB) :
    (s.store a p).io = s.io := rfl

theorem cpu_ran_heap (b : Int) (a : Addr) (s : Sim) (x : Addr) :
    (cpu_ran b a s).heap x =
      if x = a then { s.heap a with current_burst := (s.heap a).current_burst + 1 }
      else s.heap x := rfl

theorem io_ran_heap (b : Int) (a : Addr) (s : Sim) (x : Addr) :
    (io_ran b a s).heap x =
      if x = a then { s.heap a with current_burst := (s.heap a).current_burst + 1 }
      else s.heap x := rfl

theorem rr_sliced_heap (quantum b : Int) (a : Addr) (s : Sim) (x : Addr) :
    (rr_sliced quantum b a s).heap x =
      if x = a then
        { s.heap a with
          bursts := (s.heap a).bursts.set (s.heap a).current_burst (b - quantum) }
      else s.heap x := rfl

theorem finalized_heap (a : Addr) (s : Sim) (x : Addr) :
    (finalized a s).heap x =
      if x = a then { s.heap a with turnaround_time := s.current_time - (s.heap a).arrival_time }
      else s.heap x := rfl

theorem finalized_total_turnaround_time (a : Addr) (s : Sim) :
    (finalized a s).total_turnaround_time =
      s.total_turnaround_time + (s.current_time - (s.heap a).arrival_time) := by
  simp [finalized]

theorem finalized_total_waiting_time (a : Addr) (s : Sim) :
    (finalized a s).total_waiting_time = s.total_waiting_time + (s.heap a).waiting_time := by
  simp [finalized]

/-- Every record keeps its links when one field other than `next` and `prev`
of one record is rewritten. -/
theorem links_of_heap_eq {h h' : Addr → PCB} {a : Addr} {p : PCB}
    (hh : ∀ x, h' x = if x = a then p else h x)
    (hp : p.next = (h a).next ∧ p.prev = (h a).prev) (x : Addr) :
    (h' x).next = (h x).next ∧ (h' x).prev = (h x).prev := by
  rw [hh]
  split_ifs with he
  · subst he; exact hp
  · exact ⟨rfl, rfl⟩

theorem cpu_ran_links (b : Int) (a : Addr) (s : Sim) (x : Addr) :
    ((cpu_ran b a s).heap x).next = (s.heap x).next ∧
    ((cpu_ran b a s).heap x).prev = (s.heap x).prev :=
  links_of_heap_eq (cpu_ran_heap b a s) ⟨rfl, rfl⟩ x

theorem io_ran_links (b : Int) (a : Addr) (s : Sim) (x : Addr) :
    ((io_ran b a s).heap x).next = (s.heap x).next ∧
    ((io_ran b a s).heap x).prev = (s.heap x).prev :=
  links_of_heap_eq (io_ran_heap b a s) ⟨rfl, rfl⟩ x

theorem rr_sliced_links (quantum b : Int) (a : Addr) (s : Sim) (x : Addr) :
    ((rr_sliced quantum b a s).heap x).next = (s.heap x).next ∧
    ((rr_sliced quantum b a s).heap x).prev = (s.heap x).prev :=
  links_of_heap_eq (rr_sliced_heap quantum b a s) ⟨rfl, rfl⟩ x

theorem finalized_links (a : Addr) (s : Sim) (x : Addr) :
    ((finalized a s).heap x).next = (s.heap x).next ∧
    ((finalized a s).heap x).prev = (s.heap x).prev :=
  links_of_heap_eq (finalized_heap a s) ⟨rfl, rfl⟩ x

theorem detached_congr {h h' : Addr → PCB} {a : Addr}
    (hl : (h' a).next = (h a).next ∧ (h' a).prev = (h a).prev) (hd : Detached h a) :
    Detached h' a :=
  ⟨by rw [hl.1]; exact hd.1, by rw [hl.2]; exact hd.2⟩

/-- C10: one non-preemptive dispatch (`run_fifo`, `run_sjf`, `run_pr`, the three
copies agree) of a selected record `a` with current burst `b` adds `b` to the
clock and to the busy time, advances the burst cursor by one, keeps priority,
arrival time, burst count and bursts, and then either appends `a` at the tail
of the I/O queue (bursts left) or finalizes it: totals and process count
updated, no queue and no link changed. -/
theorem nonpreemptive_dispatch_step (s : Sim) (a : Addr) (b : Int) (il : List Addr)
    (hb : (s.heap a).burst = some b) (hw : WellFormed s.heap s.io_queue il)
    (ha : a ∉ il) (hd : Detached s.heap a) :
    ∃ s', run_fifo_body a s = some s' ∧ run_sjf_body a s = some s' ∧
      run_pr_body a s = some s' ∧
      s'.current_time = s.current_time + b ∧ s'.busy_time = s.busy_time + b ∧
      (s'.heap a).current_burst = (s.heap a).current_burst + 1 ∧
      (s'.heap a).priority = (s.heap a).priority ∧
      (s'.heap a).arrival_time = (s.heap a).arrival_time ∧
      (s'.heap a).burst_count = (s.heap a).burst_count ∧
      (s'.heap a).bursts = (s.heap a).bursts ∧
      s'.ready_queue = s.ready_queue ∧
      (((s'.heap a).current_burst : Int) < (s'.heap a).burst_count →
        WellFormed s'.heap s'.io_queue (il ++ [a]) ∧
        s'.process_count = s.process_count ∧
        s'.total_turnaround_time = s.total_turnaround_time ∧
        s'.total_waiting_time = s.total_waiting_time) ∧
      (¬ ((s'.heap a).current_burst : Int) < (s'.heap a).burst_count →
        s'.total_turnaround_time
          = s.total_turnaround_time + (s'.current_time - (s.heap a).arrival_time) ∧
        (s'.heap a).turnaround_time = s'.current_time - (s.heap a).arrival_time ∧
        s'.total_waiting_time = s.total_waiting_time + (s.heap a).waiting_time ∧
        s'.process_count = s.process_count + 1 ∧
        s'.io_queue = s.io_queue ∧
        ∀ x, (s'.heap x).next = (s.heap x).next ∧ (s'.heap x).prev = (s.heap x).prev) := by
  by_cases hm : MoreBursts (s.heap a)
  · have hbody := run_fifo_body_more hb hm
    have hg := enqueue_globals .io a (cpu_ran b a s)
    have hw1 : WellFormed (cpu_ran b a s).heap ((cpu_ran b a s).queue .io) il :=
      wellFormed_congr (fun x _ => cpu_ran_links b a s x) hw
    have hd1 : Detached (cpu_ran b a s).heap a := detached_congr (cpu_ran_links b a s a) hd
    refine ⟨_, hbody, hbody, hbody, hg.2.2.2.2.2.2.2.1, hg.2.2.2.1, ?_, ?_, ?_, ?_, ?_,
      enqueue_queue_ne .io .ready a _ (by decide), ?_, ?_⟩
    · rw [enqueue_heap, cpu_ran_heap]; simp
    · rw [enqueue_heap, cpu_ran_heap]; simp
    · rw [enqueue_heap, cpu_ran_heap]; simp
    · rw [enqueue_heap, cpu_ran_heap]; simp
    · rw [enqueue_heap, cpu_ran_heap]; simp
    · intro _
      exact ⟨enqueue_wf hw1 ha hd1, hg.2.2.2.2.1, hg.2.2.2.2.2.1, hg.2.2.2.2.2.2.1⟩
    · intro hn
      exfalso
      apply hn
      rw [enqueue_heap, cpu_ran_heap]
      simpa [MoreBursts] using hm
  · have hbody := run_fifo_body_last hb hm
    refine ⟨_, hbody, hbody, hbody, rfl, rfl, ?_, ?_, ?_, ?_, ?_, rfl, ?_, ?_⟩
    · rw [finalized_heap, cpu_ran_heap]; simp
    · rw [finalized_heap, cpu_ran_heap]; simp
    · rw [finalized_heap, cpu_ran_heap]; simp
    · rw [finalized_heap, cpu_ran_heap]; simp
    · rw [finalized_heap, cpu_ran_heap]; simp
    · intro hn
      exfalso
      apply hm
      rw [finalized_heap, cpu_ran_heap] at hn
      simpa [MoreBursts] using hn
    · intro _
      refine ⟨?_, ?_, ?_, rfl, rfl, ?_⟩
      · rw [finalized_total_turnaround_time, cpu_ran_heap]; simp; rfl
      · rw [finalized_heap, cpu_ran_heap]; simp; rfl
      · rw [finalized_total_waiting_time, cpu_ran_heap]; simp; rfl
      · intro x
        have h1 := finalized_links a (cpu_ran b a s) x
        have h2 := cpu_ran_links b a s x
        exact ⟨h1.1.trans h2.1, h1.2.trans h2.2⟩

/-- A dispatch of a record with bursts 4 and 3: clock and busy time 4, cursor 1,
record in the I/O queue. -/
theorem nonpreemptive_dispatch_step_witness :
    ∃ s', run_fifo_body 0 dispatch_demo = some s' ∧ run_sjf_body 0 dispatch_demo = some s' ∧
      run_pr_body 0 dispatch_demo = some s' ∧ s'.current_time = 4 ∧ s'.busy_time = 4 ∧
      (s'.heap 0).current_burst = 1 ∧ WellFormed s'.heap s'.io_queue [0] := by
  obtain ⟨s', h1, h2, h3, h4, h5, h6, _, _, h9, _, _, h12, _⟩ :=
    nonpreemptive_dispatch_step dispatch_demo 0 4 [] (by decide) (by decide) (by decide)
      (by decide)
  refine ⟨s', h1, h2, h3, by simpa using h4, by simpa using h5, by simpa using h6, ?_⟩
  have hlt : ((s'.heap 0).current_burst : Int) < (s'.heap 0).burst_count := by
    rw [h6, h9]; decide
  simpa using (h12 hlt).1

theorem dequeue_eq {q : QueueId} {s : Sim} {a : Addr} (h : (s.queue q).head = some a) :
    dequeue q s = (.pcb a, (dequeue q s).2) := by
  rw [← dequeue_fst h]

theorem dequeue_burst {q : QueueId} {s : Sim} {a : Addr} (h : (s.queue q).head = some a)
    (x : Addr) : ((dequeue q s).2.heap x).burst = (s.heap x).burst := by
  rw [dequeue_heap h]; rfl

theorem run_rr_top {quantum : Int} {s : Sim} {a : Addr} (hcpu : s.cpu = .top)
    (hh : s.ready_queue.head = some a) :
    run_rr quantum s = some { (dequeue .ready s).2 with cpu := .holds a } := by
  unfold run_rr
  rw [hcpu]
  simp only []
  rw [dequeue_eq (q := .ready) hh]

theorem run_rr_holds {quantum : Int} {s : Sim} {a : Addr} (hcpu : s.cpu = .holds a) :
    run_rr quantum s = (run_rr_body quantum a s).map fun s1 => { s1 with cpu := .top } := by
  unfold run_rr
  rw [hcpu]

theorem burst_set {p : PCB} {b v : Int} (hb : p.burst = some b) :
    PCB.burst { p with bursts := p.bursts.set p.current_burst v } = some v := by
  unfold PCB.burst at hb ⊢
  simp only [List.get?_eq_getElem?] at hb ⊢
  have hlt : p.current_burst < p.bursts.length := by
    by_contra hge
    rw [List.getElem?_eq_none (by omega)] at hb
    exact absurd hb (by simp)
  simp [List.getElem?_set, hlt]

/-- C3: when the dispatcher of `run_rr` is at the top of its loop and the head
`a` of the ready queue has a current burst `b` greater than the quantum, the
iteration (dequeue, then slice) reduces that burst to `b - quantum`, keeps the
burst cursor, adds the quantum to the clock and to the busy time, appends `a`
at the tail of the ready queue, changes neither the process count nor the
turnaround and waiting totals, and leaves the I/O queue as it was. -/
theorem run_rr_preempts (quantum : Int) (s : Sim) (a : Addr) (l il : List Addr) (b : Int)
    (hcpu : s.cpu = .top) (hw : WellFormed s.heap s.ready_queue (a :: l))
    (hwio : WellFormed s.heap s.io_queue il) (hdis : ∀ x ∈ a :: l, x ∉ il)
    (hb : (s.heap a).burst = some b) (hq : b > quantum) :
    ∃ s1 s2, run_rr quantum s = some s1 ∧ s1.cpu = .holds a ∧
      run_rr quantum s1 = some s2 ∧ s2.cpu = .top ∧
      (s2.heap a).burst = some (b - quantum) ∧
      (s2.heap a).bursts = (s.heap a).bursts.set (s.heap a).current_burst (b - quantum) ∧
      (s2.heap a).current_burst = (s.heap a).current_burst ∧
      s2.current_time = s.current_time + quantum ∧ s2.busy_time = s.busy_time + quantum ∧
      WellFormed s2.heap s2.ready_queue (l ++ [a]) ∧
      s2.process_count = s.process_count ∧
      s2.total_turnaround_time = s.total_turnaround_time ∧
      s2.total_waiting_time = s.total_waiting_time ∧
      s2.io_queue = s.io_queue ∧ WellFormed s2.heap s2.io_queue il := by
  have hh : s.ready_queue.head = some a := by simpa using hw.1
  have hal : a ∉ l := (List.nodup_cons.mp hw.2.2.2).1
  obtain ⟨_, hw1, hd1⟩ := dequeue_wf (q := .ready) hw
  have hio1 := @dequeue_wf_frame .ready .io _ _ _ hw hwio (by decide) hdis
  have hg1 := dequeue_globals .ready s
  have hioq1 : (dequeue .ready s).2.io_queue = s.io_queue :=
    dequeue_queue_ne .ready .io s (by decide)
  -- the state in which the dispatcher holds the record
  set s1 : Sim := { (dequeue .ready s).2 with cpu := .holds a } with hs1
  have hb1 : (s1.heap a).burst = some b := by
    show ((dequeue .ready s).2.heap a).burst = some b
    rw [dequeue_burst (q := .ready) hh]; exact hb
  have hbody := run_rr_body_slice (s := s1) hb1 hq
  have hg2 := enqueue_globals .ready a (rr_sliced quantum b a s1)
  have hw2 : WellFormed (rr_sliced quantum b a s1).heap
      ((rr_sliced quantum b a s1).queue .ready) l :=
    wellFormed_congr (fun x _ => rr_sliced_links quantum b a s1 x) hw1
  have hd2 : Detached (rr_sliced quantum b a s1).heap a :=
    detached_congr (rr_sliced_links quantum b a s1 a) hd1
  have hio2 : WellFormed (rr_sliced quantum b a s1).heap
      ((rr_sliced quantum b a s1).queue .io) il :=
    wellFormed_congr (fun x _ => rr_sliced_links quantum b a s1 x) hio1
  have hio3 := @enqueue_wf_frame .ready .io _ _ _ _ hw2 hio2 (by decide)
    (fun hm => hdis a (List.mem_cons_self _ _) hm)
    (fun x hx => hdis x (List.mem_cons_of_mem _ hx))
  have hrec : (enqueue .ready a (rr_sliced quantum b a s1)).heap a =
      { s.heap a with
        bursts := (s.heap a).bursts.set (s.heap a).current_burst (b - quantum)
        waiting_time := ((enqueue .ready a (rr_sliced quantum b a s1)).heap a).waiting_time
        next := ((enqueue .ready a (rr_sliced quantum b a s1)).heap a).next
        prev := ((enqueue .ready a (rr_sliced quantum b a s1)).heap a).prev } := by
    rw [enqueue_heap, rr_sliced_heap]
    simp only [if_true]
    show _ = _
    have : s1.heap a = (dequeue .ready s).2.heap a := rfl
    rw [this, dequeue_heap (q := .ready) hh]
  refine ⟨s1, { enqueue .ready a (rr_sliced quantum b a s1) with cpu := .top },
    run_rr_top hcpu hh, rfl, ?_, rfl, ?_, ?_, ?_, ?_, ?_, enqueue_wf hw2 hal hd2, ?_, ?_, ?_,
    ?_, hio3⟩
  · rw [run_rr_holds (s := s1) rfl, hbody]; rfl
  · show ((enqueue .ready a (rr_sliced quantum b a s1)).heap a).burst = _
    rw [hrec]
    exact burst_set hb
  · show ((enqueue .ready a (rr_sliced quantum b a s1)).heap a).bursts = _
    rw [hrec]
  · show ((enqueue .ready a (rr_sliced quantum b a s1)).heap a).current_burst = _
    rw [hrec]
  · show (enqueue .ready a (rr_sliced quantum b a s1)).current_time = _
    rw [hg2.2.2.2.2.2.2.2.1]
    show (dequeue .ready s).2.current_time + quantum = _
    rw [hg1.2.2.2.2.2.2.2.1]
  · show (enqueue .ready a (rr_sliced quantum b a s1)).busy_time = _
    rw [hg2.2.2.2.1]
    show (dequeue .ready s).2.busy_time + quantum = _
    rw [hg1.2.2.2.1]
  · show (enqueue .ready a (rr_sliced quantum b a s1)).process_count = _
    rw [hg2.2.2.2.2.1]
    exact hg1.2.2.2.2.1
  · show (enqueue .ready a (rr_sliced quantum b a s1)).total_turnaround_time = _
    rw [hg2.2.2.2.2.2.1]
    exact hg1.2.2.2.2.2.1
  · show (enqueue .ready a (rr_sliced quantum b a s1)).total_waiting_time = _
    rw [hg2.2.2.2.2.2.2.1]
    exact hg1.2.2.2.2.2.2.1
  · show (enqueue .ready a (rr_sliced quantum b a s1)).io_queue = _
    rw [show (enqueue .ready a (rr_sliced quantum b a s1)).io_queue
      = (rr_sliced quantum b a s1).queue .io from enqueue_queue_ne .ready .io a _ (by decide)]
    exact hioq1

/-- A round-robin iteration with quantum 5 on a record with one burst of 8. -/
theorem run_rr_preempts_witness :
    ∃ s1 s2, run_rr 5 (spawn 1 [8] (init [])) = some s1 ∧ run_rr 5 s1 = some s2 ∧
      (s2.heap 0).burst = some 3 ∧ s2.current_time = 5 ∧ s2.busy_time = 5 ∧
      WellFormed s2.heap s2.ready_queue [0] ∧ s2.process_count = 0 ∧
      s2.io_queue = { head := none, tail := none } := by
  obtain ⟨s1, s2, h1, _, h3, _, h5, _, _, h8, h9, h10, h11, _, _, h14, _⟩ :=
    run_rr_preempts 5 (spawn 1 [8] (init [])) 0 [] [] 8 (by decide) (by decide) (by decide)
      (by decide) (by decide) (by decide)
  exact ⟨s1, s2, h1, h3, h5, by simpa using h8, by simpa using h9, by simpa using h10,
    by simpa using h11, by simpa using h14⟩

/-! ### Scenarios -/

/-- C7 fails on the code: under round robin with quantum 5 and two processes with
a burst of 8 each, record 1 waits in the ready queue from clock 0 to 5 and
from clock 10 to 13, 8 in all, but its finalization adds only the last visit,
3, to the waiting total (which ends at 8 where the per-visit sums give 13).
Under FIFO with two processes of bursts [1, 5], finalized by the I/O thread,
the ready-queue waits are 0 and 1 but the waits added are those of the I/O
queue, 1 and 5. -/
theorem waiting_time_keeps_last_visit_only :
    spec_waiting_per_visit rr5_args 0 0 rr_pair_sched (init rr_pair) = some 5 ∧
    spec_waiting_per_visit rr5_args 0 1 rr_pair_sched (init rr_pair) = some 8 ∧
    (run rr5_args 0 (rr_pair_sched.take 8) (init rr_pair)).map observe
      = some (13, 13, 1, 13, 5, .top) ∧
    (run rr5_args 0 (rr_pair_sched.take 9) (init rr_pair)).map observe
      = some (13, 13, 1, 13, 5, .holds 1) ∧
    (run rr5_args 0 rr_pair_sched (init rr_pair)).map observe
      = some (16, 16, 2, 29, 8, .top) ∧
    spec_waiting_per_visit fifo_args 0 0 io_pair_sched (init io_pair) = some 0 ∧
    spec_waiting_per_visit fifo_args 0 1 io_pair_sched (init io_pair) = some 1 ∧
    (run fifo_args 0 io_pair_sched (init io_pair)).map observe
      = some (12, 2, 2, 19, 6, .top) := by
  refine ⟨by decide, by decide, by decide, by decide, by decide, by decide, by decide,
    by decide⟩

/-! ### The invariant of the whole simulation -/

theorem shape_congr {h h' : Addr → PCB} {rq ioq : Queue} {rl il held : List Addr}
    (hl : ∀ x, (h' x).next = (h x).next ∧ (h' x).prev = (h x).prev)
    (hs : Shape h rq ioq rl il held) : Shape h' rq ioq rl il held :=
  { hs with
    ready := wellFormed_congr (fun x _ => hl x) hs.ready
    io := wellFormed_congr (fun x _ => hl x) hs.io
    detached := fun x hx => detached_congr (hl x) (hs.detached x hx) }

theorem shape_enqueue_ready {s : Sim} {rl il held held' : List Addr} {a : Addr}
    (hs : Shape s.heap s.ready_queue s.io_queue rl il held) (ha : a ∈ held)
    (hsub : ∀ x ∈ held', x ∈ held ∧ x ≠ a) (hnd : held'.Nodup) :
    Shape (enqueue .ready a s).heap (enqueue .ready a s).ready_queue
      (enqueue .ready a s).io_queue (rl ++ [a]) il held' := by
  have harl : a ∉ rl := fun hm => hs.ready_held a hm ha
  have hail : a ∉ il := fun hm => hs.io_held a hm ha
  refine ⟨enqueue_wf (q := .ready) hs.ready harl (hs.detached a ha),
    @enqueue_wf_frame .ready .io _ _ _ _ hs.ready hs.io (by decide) hail hs.ready_io,
    hnd, ?_, ?_, ?_, ?_⟩
  · intro x hx
    rcases List.mem_append.mp hx with h | h
    · exact hs.ready_io x h
    · simp only [List.mem_singleton] at h; subst h; exact hail
  · intro x hx hx'
    rcases List.mem_append.mp hx with h | h
    · exact hs.ready_held x h (hsub x hx').1
    · simp only [List.mem_singleton] at h; exact (hsub x hx').2 h
  · intro x hx hx'
    exact hs.io_held x hx (hsub x hx').1
  · intro x hx
    have hx' := hsub x hx
    refine detached_congr (enqueue_links (q := .ready) hx'.2 ?_) (hs.detached x hx'.1)
    intro ht
    exact hs.ready_held x (hs.ready.tail_mem ht) hx'.1

theorem shape_enqueue_io {s : Sim} {rl il held held' : List Addr} {a : Addr}
    (hs : Shape s.heap s.ready_queue s.io_queue rl il held) (ha : a ∈ held)
    (hsub : ∀ x ∈ held', x ∈ held ∧ x ≠ a) (hnd : held'.Nodup) :
    Shape (enqueue .io a s).heap (enqueue .io a s).ready_queue
      (enqueue .io a s).io_queue rl (il ++ [a]) held' := by
  have harl : a ∉ rl := fun hm => hs.ready_held a hm ha
  have hail : a ∉ il := fun hm => hs.io_held a hm ha
  refine ⟨@enqueue_wf_frame .io .ready _ _ _ _ hs.io hs.ready (by decide) harl
      (fun x hx hx' => hs.ready_io x hx' hx),
    enqueue_wf (q := .io) hs.io hail (hs.detached a ha), hnd, ?_, ?_, ?_, ?_⟩
  · intro x hx hx'
    rcases List.mem_append.mp hx' with h | h
    · exact hs.ready_io x hx h
    · simp only [List.mem_singleton] at h; subst h; exact harl hx
  · intro x hx hx'
    exact hs.ready_held x hx (hsub x hx').1
  · intro x hx hx'
    rcases List.mem_append.mp hx with h | h
    · exact hs.io_held x h (hsub x hx').1
    · simp only [List.mem_singleton] at h; exact (hsub x hx').2 h
  · intro x hx
    have hx' := hsub x hx
    refine detached_congr (enqueue_links (q := .io) hx'.2 ?_) (hs.detached x hx'.1)
    intro ht
    exact hs.io_held x (hs.io.tail_mem ht) hx'.1

theorem shape_dequeue_ready {s : Sim} {rl il held held' : List Addr} {a : Addr}
    (hs : Shape s.heap s.ready_queue s.io_queue (a :: rl) il held)
    (hsub : ∀ x ∈ held', x = a ∨ x ∈ held) (hnd : held'.Nodup) :
    Shape (dequeue .ready s).2.heap (dequeue .ready s).2.ready_queue
      (dequeue .ready s).2.io_queue rl il held' := by
  obtain ⟨_, hw, hd⟩ := dequeue_wf (q := .ready) hs.ready
  have hh : (s.queue .ready).head = some a := by simpa using hs.ready.1
  have hal : a ∉ rl := (List.nodup_cons.mp hs.ready.2.2.2).1
  refine ⟨hw, @dequeue_wf_frame .ready .io _ _ _ hs.ready hs.io (by decide) hs.ready_io,
    hnd, ?_, ?_, ?_, ?_⟩
  · intro x hx
    exact hs.ready_io x (List.mem_cons_of_mem _ hx)
  · intro x hx hx'
    rcases hsub x hx' with h | h
    · subst h; exact hal hx
    · exact hs.ready_held x (List.mem_cons_of_mem _ hx) h
  · intro x hx hx'
    rcases hsub x hx' with h | h
    · subst h; exact hs.ready_io x (List.mem_cons_self _ _) hx
    · exact hs.io_held x hx h
  · intro x hx
    rcases hsub x hx with h | h
    · subst h; exact hd
    · have hxa : x ≠ a := fun he => hs.ready_held a (List.mem_cons_self _ _) (he ▸ h)
      refine detached_congr (dequeue_links (q := .ready) hh hxa ?_) (hs.detached x h)
      intro hn
      rw [hs.ready.2.2.1.2.1] at hn
      exact hs.ready_held x (List.mem_cons_of_mem _ (List.mem_of_mem_head? hn)) h

theorem shape_dequeue_io {s : Sim} {rl il held held' : List Addr} {a : Addr}
    (hs : Shape s.heap s.ready_queue s.io_queue rl (a :: il) held)
    (hsub : ∀ x ∈ held', x = a ∨ x ∈ held) (hnd : held'.Nodup) :
    Shape (dequeue .io s).2.heap (dequeue .io s).2.ready_queue
      (dequeue .io s).2.io_queue rl il held' := by
  obtain ⟨_, hw, hd⟩ := dequeue_wf (q := .io) hs.io
  have hh : (s.queue .io).head = some a := by simpa using hs.io.1
  have hal : a ∉ il := (List.nodup_cons.mp hs.io.2.2.2).1
  refine ⟨@dequeue_wf_frame .io .ready _ _ _ hs.io hs.ready (by decide)
      (fun x hx hx' => hs.ready_io x hx' hx), hw, hnd, ?_, ?_, ?_, ?_⟩
  · intro x hx hx'
    exact hs.ready_io x hx (List.mem_cons_of_mem _ hx')
  · intro x hx hx'
    rcases hsub x hx' with h | h
    · subst h; exact hs.ready_io x hx (List.mem_cons_self _ _)
    · exact hs.ready_held x hx h
  · intro x hx hx'
    rcases hsub x hx' with h | h
    · subst h; exact hal hx
    · exact hs.io_held x (List.mem_cons_of_mem _ hx) h
  · intro x hx
    rcases hsub x hx with h | h
    · subst h; exact hd
    · have hxa : x ≠ a := fun he => hs.io_held a (List.mem_cons_self _ _) (he ▸ h)
      refine detached_congr (dequeue_links (q := .io) hh hxa ?_) (hs.detached x h)
      intro hn
      rw [hs.io.2.2.1.2.1] at hn
      exact hs.io_held x (List.mem_cons_of_mem _ (List.mem_of_mem_head? hn)) h

theorem shape_unlink {s : Sim} {pre post il held held' : List Addr} {a : Addr}
    (hs : Shape s.heap s.ready_queue s.io_queue (pre ++ a :: post) il held)
    (hsub : ∀ x ∈ held', x = a ∨ x ∈ held) (hnd : held'.Nodup) :
    Shape (run_sjf_unlink a s).heap (run_sjf_unlink a s).ready_queue
      (run_sjf_unlink a s).io_queue (pre ++ post) il held' := by
  obtain ⟨hw, hd⟩ := run_sjf_unlink_wf hs.ready
  obtain ⟨hp, hn⟩ := Chain.mid pre none hs.ready.2.2.1
  simp only [Option.or_none] at hp
  have hmem : ∀ x ∈ pre ++ post, x ∈ pre ++ a :: post := by
    intro x hx
    rcases List.mem_append.mp hx with h | h
    · exact List.mem_append_left _ h
    · exact List.mem_append_right _ (List.mem_cons_of_mem _ h)
  have ham : a ∈ pre ++ a :: post := by simp
  have hanot : a ∉ pre ++ post := by
    have hnd' := hs.ready.2.2.2
    rw [List.nodup_append] at hnd'
    intro hm
    rcases List.mem_append.mp hm with h | h
    · exact hnd'.2.2 h (List.mem_cons_self _ _)
    · exact (List.nodup_cons.mp hnd'.2.1).1 h
  refine ⟨hw, run_sjf_unlink_wf_frame hs.ready hs.io hs.ready_io, hnd, ?_, ?_, ?_, ?_⟩
  · intro x hx
    exact hs.ready_io x (hmem x hx)
  · intro x hx hx'
    rcases hsub x hx' with h | h
    · subst h; exact hanot hx
    · exact hs.ready_held x (hmem x hx) h
  · intro x hx hx'
    rcases hsub x hx' with h | h
    · subst h; exact hs.ready_io x ham hx
    · exact hs.io_held x hx h
  · intro x hx
    rcases hsub x hx with h | h
    · subst h; exact hd
    · have hxa : x ≠ a := fun he => hs.ready_held a ham (he ▸ h)
      refine detached_congr (run_sjf_unlink_links hxa ?_ ?_) (hs.detached x h)
      · rw [hp]
        intro he
        exact hs.ready_held x (List.mem_append_left _ (List.mem_of_getLast?_eq_some he)) h
      · rw [hn]
        intro he
        exact hs.ready_held x
          (List.mem_append_right _ (List.mem_cons_of_mem _ (List.mem_of_mem_head? he))) h

theorem timely_mono {clock clock' : Int} {p p' : PCB} {o : List Int}
    (hc : clock ≤ clock') (hd : SameData p p') (ht : Timely clock p o) : Timely clock' p' o := by
  obtain ⟨h1, h2, h3, h4⟩ := hd
  obtain ⟨t1, t2, t3⟩ := ht
  refine ⟨by rw [h1, h2, t1], by rw [h2]; exact t2, ?_⟩
  rw [h2, h3, h4]
  omega

theorem sum_drop_of_get {l : List Int} {i : Nat} {b : Int} (h : l.get? i = some b) :
    (l.drop i).sum = b + (l.drop (i + 1)).sum := by
  simp only [List.get?_eq_getElem?] at h
  obtain ⟨hlt, he⟩ := List.getElem?_eq_some_iff.mp h
  rw [List.drop_eq_getElem_cons hlt, List.sum_cons, he]

theorem sum_drop_set {v : Int} : ∀ (l : List Int) (i : Nat), i < l.length →
    ((l.set i v).drop i).sum = v + (l.drop (i + 1)).sum
  | [], _, h => by simp at h
  | _ :: _, 0, _ => by simp
  | _ :: l, i + 1, h => by
    simpa using sum_drop_set l i (by simpa using h)

theorem timely_advance {clock b : Int} {p : PCB} {o : List Int}
    (hb : p.burst = some b) (ht : Timely clock p o) :
    Timely (clock + b) { p with current_burst := p.current_burst + 1 } o := by
  obtain ⟨t1, t2, t3⟩ := ht
  refine ⟨t1, t2, ?_⟩
  have := sum_drop_of_get hb
  simp only
  omega

theorem timely_slice {clock b quantum : Int} {p : PCB} {o : List Int}
    (hb : p.burst = some b) (hq : b > quantum) (ht : Timely clock p o) :
    Timely (clock + quantum)
      { p with bursts := p.bursts.set p.current_burst (b - quantum) } o := by
  obtain ⟨t1, t2, t3⟩ := ht
  have hb' := hb
  unfold PCB.burst at hb'
  simp only [List.get?_eq_getElem?] at hb'
  obtain ⟨hlt, _⟩ := List.getElem?_eq_some_iff.mp hb'
  refine ⟨by simpa using t1, ?_, ?_⟩
  · intro v hv
    rcases List.mem_or_eq_of_mem_set hv with h | h
    · exact t2 v h
    · rw [h]; omega
  · have h1 := sum_drop_of_get hb
    have h2 := sum_drop_set (v := b - quantum) p.bursts p.current_burst hlt
    simp only
    omega

/-- Preservation of the invariant by a step of a consumer thread, from the
facts about the step that the invariant reads. -/
theorem inv_consumer {args : SchedulerArgs} {events : List Event} {s s' : Sim}
    {rl il rl' il' : List Addr} (hi : Inv args events s rl il)
    (hshape : Shape s'.heap s'.ready_queue s'.io_queue rl' il' (s'.cpu.held ++ s'.io.held))
    (hlive : ∀ x, Live s' rl' il' x → Live s rl il x)
    (hcount : s'.process_count
        + ((rl'.length + il'.length + (s'.cpu.held ++ s'.io.held).length : Nat) : Int)
      = s.process_count + ((rl.length + il.length + (s.cpu.held ++ s.io.held).length : Nat) : Int))
    (hg : s'.brk = s.brk ∧ s'.file_read_done = s.file_read_done ∧
      s'.feeder_exited = s.feeder_exited ∧ s'.feed = s.feed)
    (htime : Benign args events → ∀ x o, Live s' rl' il' x →
      Timely s.current_time (s.heap x) o → Timely s'.current_time (s'.heap x) o)
    (hcpu : s'.cpu = .exited → s'.file_read_done = true)
    (hio : s'.io = .exited → s'.file_read_done = true)
    (hboth : s'.cpu = .exited → s'.io = .exited → rl' = [] ∧ il' = []) :
    Inv args events s' rl' il' := by
  obtain ⟨hbrk, hflag, hex, hfeed⟩ := hg
  refine ⟨hshape, ?_, ?_, ?_, ?_, ?_, ?_, ?_, hcpu, hio, hboth⟩
  · intro x hx; rw [hbrk]; exact hi.lt x (hlive x hx)
  · rw [hcount, hbrk]; exact hi.count
  · rw [hflag, hex]; exact hi.flag
  · rw [hfeed]; exact hi.suffix
  · rw [hfeed, hbrk]; exact hi.fed
  · rw [hfeed, hex]; exact hi.fed_exit
  · intro hb x hx
    obtain ⟨o, ho, ht⟩ := hi.timely hb x (hlive x hx)
    exact ⟨o, ho, htime hb x o hx ht⟩

theorem enqueue_sameData (q : QueueId) (a : Addr) (s : Sim) (x : Addr) :
    SameData (s.heap x) ((enqueue q a s).heap x) := by
  rw [enqueue_heap]; exact ⟨rfl, rfl, rfl, rfl⟩

theorem dequeue_sameData (q : QueueId) (s : Sim) (x : Addr) :
    SameData (s.heap x) ((dequeue q s).2.heap x) := by
  cases hh : (s.queue q).head with
  | none => rw [dequeue_none hh]; exact ⟨rfl, rfl, rfl, rfl⟩
  | some a => rw [dequeue_heap hh]; exact ⟨rfl, rfl, rfl, rfl⟩

theorem run_sjf_unlink_sameData (a : Addr) (s : Sim) (x : Addr) :
    SameData (s.heap x) ((run_sjf_unlink a s).heap x) := by
  rw [run_sjf_unlink_heap]; exact ⟨rfl, rfl, rfl, rfl⟩

theorem sameData_of_heap_ne {s s' : Sim} {a x : Addr} {p : PCB}
    (hh : ∀ y, s'.heap y = if y = a then p else s.heap y) (hx : x ≠ a) :
    SameData (s.heap x) (s'.heap x) := by
  rw [hh, if_neg hx]; exact ⟨rfl, rfl, rfl, rfl⟩

theorem SameData.trans {p p' p'' : PCB} (h1 : SameData p p') (h2 : SameData p' p'') :
    SameData p p'' :=
  ⟨h2.1.trans h1.1, h2.2.1.trans h1.2.1, h2.2.2.1.trans h1.2.2.1, h2.2.2.2.trans h1.2.2.2⟩

theorem cond_signal_cpu_held (q : QueueId) (s : Sim) :
    (cond_signal q s).cpu.held = s.cpu.held ∧
    ((cond_signal q s).cpu = .exited ↔ s.cpu = .exited) := by
  cases q <;> simp only [cond_signal]
  · split_ifs with h
    · simp [h, Ctl.held]
    · exact ⟨rfl, Iff.rfl⟩
  · split_ifs <;> exact ⟨rfl, Iff.rfl⟩

theorem cond_signal_io_held (q : QueueId) (s : Sim) :
    (cond_signal q s).io.held = s.io.held ∧
    ((cond_signal q s).io = .exited ↔ s.io = .exited) := by
  cases q <;> simp only [cond_signal]
  · split_ifs <;> exact ⟨rfl, Iff.rfl⟩
  · split_ifs with h
    · simp [h, Ctl.held]
    · exact ⟨rfl, Iff.rfl⟩

theorem enqueue_cpu_held (q : QueueId) (a : Addr) (s : Sim) :
    (enqueue q a s).cpu.held = s.cpu.held ∧ ((enqueue q a s).cpu = .exited ↔ s.cpu = .exited) := by
  rw [enqueue_cpu]; exact cond_signal_cpu_held q s

theorem enqueue_io_held (q : QueueId) (a : Addr) (s : Sim) :
    (enqueue q a s).io.held = s.io.held ∧ ((enqueue q a s).io = .exited ↔ s.io = .exited) := by
  rw [enqueue_io]; exact cond_signal_io_held q s

theorem shape_shrink {h : Addr → PCB} {rq ioq : Queue} {rl il held held' : List Addr}
    (hs : Shape h rq ioq rl il held) (hsub : ∀ x ∈ held', x ∈ held) (hnd : held'.Nodup) :
    Shape h rq ioq rl il held' :=
  { hs with
    held_nodup := hnd
    ready_held := fun x hx hx' => hs.ready_held x hx (hsub x hx')
    io_held := fun x hx hx' => hs.io_held x hx (hsub x hx')
    detached := fun x hx => hs.detached x (hsub x hx) }

theorem sameData_refl (p : PCB) : SameData p p := ⟨rfl, rfl, rfl, rfl⟩

/-- A change of the dispatcher's control point between points at which it
holds no record. -/
theorem inv_cpu_ctl {args : SchedulerArgs} {events : List Event} {s : Sim} {rl il : List Addr}
    (hi : Inv args events s rl il) (c : Ctl) (h0 : s.cpu.held = []) (h1 : c.held = [])
    (hex : c = .exited → s.file_read_done = true ∧ rl = [] ∧ il = []) :
    Inv args events { s with cpu := c } rl il := by
  have hheld : (c.held ++ s.io.held) = (s.cpu.held ++ s.io.held) := by rw [h0, h1]
  refine inv_consumer hi ?_ ?_ ?_ ⟨rfl, rfl, rfl, rfl⟩ ?_ ?_ hi.io_exit ?_
  · show Shape s.heap s.ready_queue s.io_queue rl il (c.held ++ s.io.held)
    rw [hheld]; exact hi.shape
  · intro x hx
    unfold Live at hx ⊢
    rwa [show ({ s with cpu := c } : Sim).cpu.held ++ ({ s with cpu := c } : Sim).io.held
      = s.cpu.held ++ s.io.held from hheld] at hx
  · show _ + (((rl.length + il.length + (c.held ++ s.io.held).length : Nat)) : Int) = _
    rw [hheld]
  · intro _ x o _ ht
    exact ht
  · intro he
    exact (hex he).1
  · intro he _
    exact (hex he).2

/-- A change of the I/O thread's control point between points at which it
holds no record. -/
theorem inv_io_ctl {args : SchedulerArgs} {events : List Event} {s : Sim} {rl il : List Addr}
    (hi : Inv args events s rl il) (c : Ctl) (h0 : s.io.held = []) (h1 : c.held = [])
    (hex : c = .exited → s.file_read_done = true ∧ rl = [] ∧ il = []) :
    Inv args events { s with io := c } rl il := by
  have hheld : (s.cpu.held ++ c.held) = (s.cpu.held ++ s.io.held) := by rw [h0, h1]
  refine inv_consumer hi ?_ ?_ ?_ ⟨rfl, rfl, rfl, rfl⟩ ?_ hi.cpu_exit ?_ ?_
  · show Shape s.heap s.ready_queue s.io_queue rl il (s.cpu.held ++ c.held)
    rw [hheld]; exact hi.shape
  · intro x hx
    unfold Live at hx ⊢
    rwa [show ({ s with io := c } : Sim).cpu.held ++ ({ s with io := c } : Sim).io.held
      = s.cpu.held ++ s.io.held from hheld] at hx
  · show _ + (((rl.length + il.length + (s.cpu.held ++ c.held).length : Nat)) : Int) = _
    rw [hheld]
  · intro _ x o _ ht
    exact ht
  · intro he
    exact (hex he).1
  · intro _ he
    exact (hex he).2

/-- The termination test succeeds only when the feed is done and both queues
are empty. -/
theorem all_done_iff {s : Sim} {rl il : List Addr}
    (hr : WellFormed s.heap s.ready_queue rl) (hio : WellFormed s.heap s.io_queue il) :
    all_done s = true ↔ s.file_read_done = true ∧ rl = [] ∧ il = [] := by
  unfold all_done
  simp only [Bool.and_eq_true, Option.isNone_iff_eq_none, hr.head_none, hio.head_none]
  tauto

/-- The dispatcher takes the head of the ready queue. -/
theorem inv_dequeue_ready {args : SchedulerArgs} {events : List Event} {s : Sim}
    {a : Addr} {rl il : List Addr}
    (hi : Inv args events s (a :: rl) il) (h0 : s.cpu.held = []) :
    Inv args events { (dequeue .ready s).2 with cpu := .holds a } rl il := by
  have hg := dequeue_globals .ready s
  have hc := dequeue_ctl .ready s
  have hsh := hi.shape
  rw [h0, List.nil_append] at hsh
  have hheld : ({ (dequeue .ready s).2 with cpu := Ctl.holds a } : Sim).cpu.held
      ++ ({ (dequeue .ready s).2 with cpu := Ctl.holds a } : Sim).io.held = a :: s.io.held := by
    show [a] ++ (dequeue .ready s).2.io.held = _
    rw [hc.2]; rfl
  have hnd : (a :: s.io.held).Nodup :=
    List.nodup_cons.mpr ⟨hsh.ready_held a (List.mem_cons_self _ _), hsh.held_nodup⟩
  refine inv_consumer hi ?_ ?_ ?_ ⟨hg.1, hg.2.1, hg.2.2.2.2.2.2.2.2.2, hg.2.2.2.2.2.2.2.2.1⟩
    ?_ ?_ ?_ ?_
  · rw [hheld]
    exact shape_dequeue_ready hsh (fun x hx => by simpa using hx) hnd
  · intro x hx
    unfold Live at hx ⊢
    rw [hheld] at hx
    rw [h0, List.nil_append]
    simp only [List.mem_cons] at hx ⊢
    tauto
  · rw [hheld, h0]
    show (dequeue .ready s).2.process_count + _ = _
    rw [hg.2.2.2.2.1]
    simp only [List.length_cons, List.nil_append]
    omega
  · intro _ x o _ ht
    refine timely_mono ?_ (dequeue_sameData .ready s x) ht
    show s.current_time ≤ (dequeue .ready s).2.current_time
    rw [hg.2.2.2.2.2.2.2.1]
  · intro he
    exact absurd he (by simp)
  · intro he
    have : s.io = .exited := by rw [← hc.2]; exact he
    show (dequeue .ready s).2.file_read_done = true
    rw [hg.2.1]
    exact hi.io_exit this
  · intro he
    exact absurd he (by simp)

/-- The I/O thread takes the head of the I/O queue. -/
theorem inv_dequeue_io {args : SchedulerArgs} {events : List Event} {s : Sim}
    {a : Addr} {rl il : List Addr}
    (hi : Inv args events s rl (a :: il)) (h0 : s.io.held = []) :
    Inv args events { (dequeue .io s).2 with io := .holds a } rl il := by
  have hg := dequeue_globals .io s
  have hc := dequeue_ctl .io s
  have hsh := hi.shape
  rw [h0, List.append_nil] at hsh
  have hheld : ({ (dequeue .io s).2 with io := Ctl.holds a } : Sim).cpu.held
      ++ ({ (dequeue .io s).2 with io := Ctl.holds a } : Sim).io.held = s.cpu.held ++ [a] := by
    show (dequeue .io s).2.cpu.held ++ [a] = _
    rw [hc.1]
  have hnd : (s.cpu.held ++ [a]).Nodup := by
    rw [List.nodup_append]
    refine ⟨hsh.held_nodup, List.nodup_singleton a, ?_⟩
    intro x hx hx'
    simp only [List.mem_singleton] at hx'
    subst hx'
    exact hsh.io_held x (List.mem_cons_self _ _) hx
  refine inv_consumer hi ?_ ?_ ?_ ⟨hg.1, hg.2.1, hg.2.2.2.2.2.2.2.2.2, hg.2.2.2.2.2.2.2.2.1⟩
    ?_ ?_ ?_ ?_
  · rw [hheld]
    refine shape_dequeue_io hsh (fun x hx => ?_) hnd
    simp only [List.mem_append, List.mem_singleton] at hx
    tauto
  · intro x hx
    unfold Live at hx ⊢
    rw [hheld] at hx
    rw [h0, List.append_nil]
    simp only [List.mem_cons, List.mem_append, List.mem_singleton] at hx ⊢
    tauto
  · rw [hheld, h0]
    show (dequeue .io s).2.process_count + _ = _
    rw [hg.2.2.2.2.1]
    simp only [List.length_cons, List.length_append, List.length_nil, List.append_nil,
      List.length_singleton]
    omega
  · intro _ x o _ ht
    refine timely_mono ?_ (dequeue_sameData .io s x) ht
    show s.current_time ≤ (dequeue .io s).2.current_time
    rw [hg.2.2.2.2.2.2.2.1]
  · intro he
    have : s.cpu = .exited := by rw [← hc.1]; exact he
    show (dequeue .io s).2.file_read_done = true
    rw [hg.2.1]
    exact hi.cpu_exit this
  · intro he
    exact absurd he (by simp)
  · intro _ he
    exact absurd he (by simp)

/-- The dispatcher unlinks a record of the ready queue. -/
theorem inv_unlink {args : SchedulerArgs} {events : List Event} {s : Sim}
    {a : Addr} {pre post il : List Addr}
    (hi : Inv args events s (pre ++ a :: post) il) (h0 : s.cpu.held = []) :
    Inv args events { run_sjf_unlink a s with cpu := .holds a } (pre ++ post) il := by
  have hg := run_sjf_unlink_globals a s
  have hc := run_sjf_unlink_ctl a s
  have hsh := hi.shape
  rw [h0, List.nil_append] at hsh
  have hheld : ({ run_sjf_unlink a s with cpu := Ctl.holds a } : Sim).cpu.held
      ++ ({ run_sjf_unlink a s with cpu := Ctl.holds a } : Sim).io.held = a :: s.io.held := by
    show [a] ++ (run_sjf_unlink a s).io.held = _
    rw [hc.2]; rfl
  have hnd : (a :: s.io.held).Nodup :=
    List.nodup_cons.mpr ⟨hsh.ready_held a (by simp), hsh.held_nodup⟩
  refine inv_consumer hi ?_ ?_ ?_ ⟨hg.1, hg.2.1, hg.2.2.2.2.2.2.2.2.2, hg.2.2.2.2.2.2.2.2.1⟩
    ?_ ?_ ?_ ?_
  · rw [hheld]
    exact shape_unlink hsh (fun x hx => by simpa using hx) hnd
  · intro x hx
    unfold Live at hx ⊢
    rw [hheld] at hx
    rw [h0, List.nil_append]
    simp only [List.mem_cons, List.mem_append] at hx ⊢
    tauto
  · rw [hheld, h0]
    show (run_sjf_unlink a s).process_count + _ = _
    rw [hg.2.2.2.2.1]
    simp only [List.length_cons, List.length_append, List.nil_append]
    omega
  · intro _ x o _ ht
    refine timely_mono ?_ (run_sjf_unlink_sameData a s x) ht
    show s.current_time ≤ (run_sjf_unlink a s).current_time
    rw [hg.2.2.2.2.2.2.2.1]
  · intro he
    exact absurd he (by simp)
  · intro he
    have : s.io = .exited := by rw [← hc.2]; exact he
    show (run_sjf_unlink a s).file_read_done = true
    rw [hg.2.1]
    exact hi.io_exit this
  · intro he
    exact absurd he (by simp)

@[simp] theorem held_holds (a : Addr) : (Ctl.holds a).held = [a] := rfl

@[simp] theorem held_top : Ctl.top.held = [] := rfl

@[simp] theorem held_blocked : Ctl.blocked.held = [] := rfl

@[simp] theorem held_exited : Ctl.exited.held = [] := rfl

/-- The invariant survives the simulation of a burst of a live record `a`: only
the record `a` changes (not its links), and the clock does not go back. -/
theorem inv_ran {args : SchedulerArgs} {events : List Event} {s m : Sim} {a : Addr} {p : PCB}
    {rl il : List Addr} (hi : Inv args events s rl il)
    (hheap : ∀ y, m.heap y = if y = a then p else s.heap y)
    (hlinks : p.next = (s.heap a).next ∧ p.prev = (s.heap a).prev)
    (hq : m.ready_queue = s.ready_queue ∧ m.io_queue = s.io_queue)
    (hctl : m.cpu = s.cpu ∧ m.io = s.io)
    (hg : m.brk = s.brk ∧ m.file_read_done = s.file_read_done ∧
      m.feeder_exited = s.feeder_exited ∧ m.feed = s.feed)
    (hpc : m.process_count = s.process_count)
    (hclock : Benign args events → s.current_time ≤ m.current_time)
    (ha : Benign args events → ∀ o, Timely s.current_time (s.heap a) o →
      Timely m.current_time p o) :
    Inv args events m rl il := by
  have hheld : m.cpu.held ++ m.io.held = s.cpu.held ++ s.io.held := by rw [hctl.1, hctl.2]
  refine inv_consumer hi ?_ ?_ ?_ hg ?_ ?_ ?_ ?_
  · rw [hheld, hq.1, hq.2]
    exact shape_congr (links_of_heap_eq hheap hlinks) hi.shape
  · intro x hx
    unfold Live at hx ⊢
    rwa [hheld] at hx
  · rw [hheld, hpc]
  · intro hb x o _ ht
    by_cases hxa : x = a
    · subst hxa
      rw [hheap, if_pos rfl]
      exact ha hb o ht
    · exact timely_mono (hclock hb) (sameData_of_heap_ne hheap hxa) ht
  · rw [hctl.1, hg.2.1]; exact hi.cpu_exit
  · rw [hctl.2, hg.2.1]; exact hi.io_exit
  · rw [hctl.1, hctl.2]; exact hi.both_exit

/-- The dispatcher puts the record it holds at the tail of the I/O queue. -/
theorem inv_enqueue_io_cpu {args : SchedulerArgs} {events : List Event} {m : Sim} {a : Addr}
    {rl il : List Addr} (hi : Inv args events m rl il) (hc : m.cpu = .holds a) :
    Inv args events { enqueue .io a m with cpu := .top } rl (il ++ [a]) := by
  have hg := enqueue_globals .io a m
  have hio := enqueue_io_held .io a m
  have hsh := hi.shape
  rw [hc] at hsh
  have hheld : ({ enqueue .io a m with cpu := Ctl.top } : Sim).cpu.held
      ++ ({ enqueue .io a m with cpu := Ctl.top } : Sim).io.held = m.io.held := by
    show [] ++ (enqueue .io a m).io.held = _
    rw [hio.1]; rfl
  have hnd : (a :: m.io.held).Nodup := hsh.held_nodup
  refine inv_consumer hi ?_ ?_ ?_ ⟨hg.1, hg.2.1, hg.2.2.2.2.2.2.2.2.2, hg.2.2.2.2.2.2.2.2.1⟩
    ?_ ?_ ?_ ?_
  · rw [hheld]
    refine shape_enqueue_io hsh (List.mem_cons_self _ _) (fun x hx => ?_)
      (List.nodup_cons.mp hnd).2
    exact ⟨List.mem_cons_of_mem _ hx, fun he => (List.nodup_cons.mp hnd).1 (he ▸ hx)⟩
  · intro x hx
    unfold Live at hx ⊢
    rw [hheld] at hx
    rw [hc]
    simp only [held_holds, List.length_nil, List.mem_cons, List.mem_append, List.mem_singleton,
      List.singleton_append] at hx ⊢
    tauto
  · rw [hheld, hc]
    show (enqueue .io a m).process_count + _ = _
    rw [hg.2.2.2.2.1]
    simp only [held_holds, List.length_nil, List.length_cons, List.length_append, List.singleton_append,
      List.length_singleton]
    omega
  · intro _ x o _ ht
    refine timely_mono ?_ (enqueue_sameData .io a m x) ht
    show m.current_time ≤ (enqueue .io a m).current_time
    rw [hg.2.2.2.2.2.2.2.1]
  · intro he
    exact absurd he (by simp)
  · intro he
    show (enqueue .io a m).file_read_done = true
    rw [hg.2.1]
    exact hi.io_exit (hio.2.mp he)
  · intro he
    exact absurd he (by simp)

/-- The dispatcher puts the record it holds back at the tail of the ready queue. -/
theorem inv_enqueue_ready_cpu {args : SchedulerArgs} {events : List Event} {m : Sim} {a : Addr}
    {rl il : List Addr} (hi : Inv args events m rl il) (hc : m.cpu = .holds a) :
    Inv args events { enqueue .ready a m with cpu := .top } (rl ++ [a]) il := by
  have hg := enqueue_globals .ready a m
  have hio := enqueue_io_held .ready a m
  have hsh := hi.shape
  rw [hc] at hsh
  have hheld : ({ enqueue .ready a m with cpu := Ctl.top } : Sim).cpu.held
      ++ ({ enqueue .ready a m with cpu := Ctl.top } : Sim).io.held = m.io.held := by
    show [] ++ (enqueue .ready a m).io.held = _
    rw [hio.1]; rfl
  have hnd : (a :: m.io.held).Nodup := hsh.held_nodup
  refine inv_consumer hi ?_ ?_ ?_ ⟨hg.1, hg.2.1, hg.2.2.2.2.2.2.2.2.2, hg.2.2.2.2.2.2.2.2.1⟩
    ?_ ?_ ?_ ?_
  · rw [hheld]
    refine shape_enqueue_ready hsh (List.mem_cons_self _ _) (fun x hx => ?_)
      (List.nodup_cons.mp hnd).2
    exact ⟨List.mem_cons_of_mem _ hx, fun he => (List.nodup_cons.mp hnd).1 (he ▸ hx)⟩
  · intro x hx
    unfold Live at hx ⊢
    rw [hheld] at hx
    rw [hc]
    simp only [held_holds, List.length_nil, List.mem_cons, List.mem_append, List.mem_singleton,
      List.singleton_append] at hx ⊢
    tauto
  · rw [hheld, hc]
    show (enqueue .ready a m).process_count + _ = _
    rw [hg.2.2.2.2.1]
    simp only [held_holds, List.length_nil, List.length_cons, List.length_append, List.singleton_append,
      List.length_singleton]
    omega
  · intro _ x o _ ht
    refine timely_mono ?_ (enqueue_sameData .ready a m x) ht
    show m.current_time ≤ (enqueue .ready a m).current_time
    rw [hg.2.2.2.2.2.2.2.1]
  · intro he
    exact absurd he (by simp)
  · intro he
    show (enqueue .ready a m).file_read_done = true
    rw [hg.2.1]
    exact hi.io_exit (hio.2.mp he)
  · intro he
    exact absurd he (by simp)

/-- The I/O thread puts the record it holds at the tail of the ready queue. -/
theorem inv_enqueue_ready_io {args : SchedulerArgs} {events : List Event} {m : Sim} {a : Addr}
    {rl il : List Addr} (hi : Inv args events m rl il) (hc : m.io = .holds a) :
    Inv args events { enqueue .ready a m with io := .top } (rl ++ [a]) il := by
  have hg := enqueue_globals .ready a m
  have hcpu := enqueue_cpu_held .ready a m
  have hsh := hi.shape
  rw [hc] at hsh
  have hheld : ({ enqueue .ready a m with io := Ctl.top } : Sim).cpu.held
      ++ ({ enqueue .ready a m with io := Ctl.top } : Sim).io.held = m.cpu.held := by
    show (enqueue .ready a m).cpu.held ++ [] = _
    rw [hcpu.1, List.append_nil]
  have hnd : (m.cpu.held ++ [a]).Nodup := hsh.held_nodup
  rw [List.nodup_append] at hnd
  refine inv_consumer hi ?_ ?_ ?_ ⟨hg.1, hg.2.1, hg.2.2.2.2.2.2.2.2.2, hg.2.2.2.2.2.2.2.2.1⟩
    ?_ ?_ ?_ ?_
  · rw [hheld]
    refine shape_enqueue_ready hsh (by simp) (fun x hx => ?_) hnd.1
    exact ⟨List.mem_append_left _ hx, fun he => hnd.2.2 hx (by simp [he])⟩
  · intro x hx
    unfold Live at hx ⊢
    rw [hheld] at hx
    rw [hc]
    simp only [held_holds, List.length_nil, List.mem_cons, List.mem_append, List.mem_singleton] at hx ⊢
    tauto
  · rw [hheld, hc]
    show (enqueue .ready a m).process_count + _ = _
    rw [hg.2.2.2.2.1]
    simp only [held_holds, List.length_nil, List.length_cons, List.length_append, List.length_singleton]
    omega
  · intro _ x o _ ht
    refine timely_mono ?_ (enqueue_sameData .ready a m x) ht
    show m.current_time ≤ (enqueue .ready a m).current_time
    rw [hg.2.2.2.2.2.2.2.1]
  · intro he
    show (enqueue .ready a m).file_read_done = true
    rw [hg.2.1]
    exact hi.cpu_exit (hcpu.2.mp he)
  · intro he
    exact absurd he (by simp)
  · intro _ he
    exact absurd he (by simp)

theorem finalized_sameData (a : Addr) (s : Sim) (x : Addr) :
    SameData (s.heap x) ((finalized a s).heap x) := by
  rw [finalized_heap]
  split_ifs with h
  · subst h; exact ⟨rfl, rfl, rfl, rfl⟩
  · exact ⟨rfl, rfl, rfl, rfl⟩

theorem finalized_process_count (a : Addr) (s : Sim) :
    (finalized a s).process_count = s.process_count + 1 := rfl

/-- The dispatcher finalizes the record it holds. -/
theorem inv_finalized_cpu {args : SchedulerArgs} {events : List Event} {m : Sim} {a : Addr}
    {rl il : List Addr} (hi : Inv args events m rl il) (hc : m.cpu = .holds a) :
    Inv args events { finalized a m with cpu := .top } rl il := by
  have hsh := hi.shape
  rw [hc] at hsh
  have hnd : (a :: m.io.held).Nodup := hsh.held_nodup
  refine inv_consumer hi ?_ ?_ ?_ ⟨rfl, rfl, rfl, rfl⟩ ?_ ?_ hi.io_exit ?_
  · show Shape (finalized a m).heap m.ready_queue m.io_queue rl il ([] ++ m.io.held)
    refine shape_congr (finalized_links a m) (shape_shrink hsh (fun x hx => ?_) ?_)
    · exact List.mem_cons_of_mem _ (by simpa using hx)
    · simpa using (List.nodup_cons.mp hnd).2
  · intro x hx
    unfold Live at hx ⊢
    rw [hc]
    have hx' : x ∈ rl ∨ x ∈ il ∨ x ∈ [] ++ m.io.held := hx
    simp only [held_holds, List.length_nil, List.mem_cons, List.mem_append, List.nil_append,
      List.singleton_append] at hx' ⊢
    tauto
  · show (finalized a m).process_count + ((rl.length + il.length
      + ([] ++ m.io.held).length : Nat) : Int) = _
    rw [finalized_process_count, hc]
    simp only [held_holds, List.length_nil, List.length_cons, List.length_append, List.nil_append,
      List.singleton_append]
    omega
  · intro _ x o _ ht
    exact timely_mono (le_refl _) (finalized_sameData a m x) ht
  · intro he
    exact absurd he (by simp)
  · intro he
    exact absurd he (by simp)

/-- The I/O thread finalizes the record it holds. -/
theorem inv_finalized_io {args : SchedulerArgs} {events : List Event} {m : Sim} {a : Addr}
    {rl il : List Addr} (hi : Inv args events m rl il) (hc : m.io = .holds a) :
    Inv args events { finalized a m with io := .top } rl il := by
  have hsh := hi.shape
  rw [hc] at hsh
  have hnd : (m.cpu.held ++ [a]).Nodup := hsh.held_nodup
  rw [List.nodup_append] at hnd
  refine inv_consumer hi ?_ ?_ ?_ ⟨rfl, rfl, rfl, rfl⟩ ?_ hi.cpu_exit ?_ ?_
  · show Shape (finalized a m).heap m.ready_queue m.io_queue rl il (m.cpu.held ++ [])
    refine shape_congr (finalized_links a m) (shape_shrink hsh (fun x hx => ?_) ?_)
    · exact List.mem_append_left _ (by simpa using hx)
    · simpa using hnd.1
  · intro x hx
    unfold Live at hx ⊢
    rw [hc]
    have hx' : x ∈ rl ∨ x ∈ il ∨ x ∈ m.cpu.held ++ [] := hx
    simp only [held_holds, List.length_nil, List.mem_cons, List.mem_append, List.append_nil] at hx' ⊢
    tauto
  · show (finalized a m).process_count + ((rl.length + il.length
      + (m.cpu.held ++ []).length : Nat) : Int) = _
    rw [finalized_process_count, hc]
    simp only [held_holds, List.length_nil, List.length_cons, List.length_append, List.append_nil,
      List.length_singleton]
    omega
  · intro _ x o _ ht
    exact timely_mono (le_refl _) (finalized_sameData a m x) ht
  · intro he
    exact absurd he (by simp)
  · intro _ he
    exact absurd he (by simp)

theorem benign_mem {args : SchedulerArgs} {events pre rest : List Event} {e : Event}
    (hb : Benign args events) (hs : events = pre ++ e :: rest) : e.benign :=
  hb.2 e (by rw [hs]; simp)

/-- The feeder reads a `sleep` line. -/
theorem inv_delay {args : SchedulerArgs} {events : List Event} {s : Sim} {rl il : List Addr}
    {d : Int} {rest : List Event} (hi : Inv args events s rl il)
    (hfeed : s.feed = .delay d :: rest) (hne : s.feeder_exited = false) :
    Inv args events
      { s with feed := rest, current_time := s.current_time + d } rl il := by
  obtain ⟨pre, hpre⟩ := hi.suffix
  obtain ⟨done, hdone, hlen⟩ := hi.fed
  rw [hfeed] at hpre hdone
  refine ⟨hi.shape, hi.lt, hi.count, hi.flag, ⟨pre ++ [.delay d], by simp [hpre]⟩,
    ⟨done, by simpa [spawned] using hdone, hlen⟩, ?_, ?_, hi.cpu_exit, hi.io_exit, hi.both_exit⟩
  · intro he
    exact absurd (hne ▸ he : false = true) (by simp)
  · intro hb x hx
    obtain ⟨o, ho, ht⟩ := hi.timely hb x hx
    refine ⟨o, ho, timely_mono ?_ (sameData_refl _) ht⟩
    have : 0 ≤ d := benign_mem hb hpre
    show s.current_time ≤ s.current_time + d
    omega

/-- The feeder reads a line that has no effect. -/
theorem inv_skip {args : SchedulerArgs} {events : List Event} {s : Sim} {rl il : List Addr}
    {rest : List Event} (hi : Inv args events s rl il)
    (hfeed : s.feed = .skip :: rest) (hne : s.feeder_exited = false) :
    Inv args events { s with feed := rest } rl il := by
  obtain ⟨pre, hpre⟩ := hi.suffix
  obtain ⟨done, hdone, hlen⟩ := hi.fed
  rw [hfeed] at hpre hdone
  refine ⟨hi.shape, hi.lt, hi.count, hi.flag, ⟨pre ++ [.skip], by simp [hpre]⟩,
    ⟨done, by simpa [spawned] using hdone, hlen⟩, ?_, hi.timely, hi.cpu_exit, hi.io_exit,
    hi.both_exit⟩
  intro he
  exact absurd (hne ▸ he : false = true) (by simp)

/-- The feeder reaches the end of its input or a `stop` line. -/
theorem inv_finish {args : SchedulerArgs} {events : List Event} {s : Sim} {rl il : List Addr}
    (hi : Inv args events s rl il) (hfeed : spawned s.feed = []) :
    Inv args events (file_read_finish s) rl il := by
  unfold file_read_finish
  by_cases hc : s.cpu = .blocked
  · simp only [hc, if_true]
    have hheld : (Ctl.top.held ++ s.io.held) = s.cpu.held ++ s.io.held := by rw [hc]; rfl
    refine ⟨?_, ?_, ?_, rfl, hi.suffix, hi.fed, fun _ => hfeed, ?_, fun _ => rfl,
      fun _ => rfl, ?_⟩
    · show Shape s.heap s.ready_queue s.io_queue rl il (Ctl.top.held ++ s.io.held)
      rw [hheld]; exact hi.shape
    · intro x hx
      refine hi.lt x ?_
      unfold Live at hx ⊢
      rw [← hheld]; exact hx
    · show _ + ((rl.length + il.length + (Ctl.top.held ++ s.io.held).length : Nat) : Int) = _
      rw [hheld]; exact hi.count
    · intro hb x hx
      refine hi.timely hb x ?_
      unfold Live at hx ⊢
      rw [← hheld]; exact hx
    · intro he
      exact absurd he (by simp)
  · simp only [hc, if_false]
    exact ⟨hi.shape, hi.lt, hi.count, rfl, hi.suffix, hi.fed, fun _ => hfeed, hi.timely,
      fun _ => rfl, fun _ => rfl, hi.both_exit⟩

theorem spawn_eq (priority : Int) (bursts : List Int) (s : Sim) :
    spawn priority bursts s =
      enqueue .ready s.brk (({ s with brk := s.brk + 1 } : Sim).store s.brk
        (new_pcb priority bursts s.current_time)) := rfl

/-- The feeder reads a `proc` line: a new record enters the ready queue. -/
theorem inv_spawn {args : SchedulerArgs} {events : List Event} {s : Sim} {rl il : List Addr}
    {priority : Int} {bursts : List Int} {rest : List Event} (hi : Inv args events s rl il)
    (hfeed : s.feed = .spawn priority bursts :: rest) (hne : s.feeder_exited = false) :
    Inv args events (spawn priority bursts { s with feed := rest }) (rl ++ [s.brk]) il := by
  obtain ⟨pre, hpre⟩ := hi.suffix
  obtain ⟨done, hdone, hlen⟩ := hi.fed
  rw [hfeed] at hpre hdone
  rw [spawn_eq]
  -- the state after the allocation and initialisation of the record
  set m : Sim := (({ ({ s with feed := rest } : Sim) with brk := s.brk + 1 } : Sim).store s.brk
        (new_pcb priority bursts s.current_time)) with hm
  have hmheap : ∀ x, x ≠ s.brk → m.heap x = s.heap x := by
    intro x hx
    show (if x = s.brk then _ else s.heap x) = _
    rw [if_neg hx]
  have hma : m.heap s.brk = new_pcb priority bursts s.current_time := by
    show (if s.brk = s.brk then _ else s.heap s.brk) = _
    rw [if_pos rfl]
  have hfresh : ∀ x, Live s rl il x → x ≠ s.brk := fun x hx => Nat.ne_of_lt (hi.lt x hx)
  have hsh := hi.shape
  have hshm : Shape m.heap m.ready_queue m.io_queue rl il (s.brk :: (s.cpu.held ++ s.io.held)) := by
    refine ⟨wellFormed_congr (fun x hx => ?_) hsh.ready, wellFormed_congr (fun x hx => ?_) hsh.io,
      List.nodup_cons.mpr ⟨fun hx => hfresh _ (Or.inr (Or.inr hx)) rfl, hsh.held_nodup⟩,
      hsh.ready_io, ?_, ?_, ?_⟩
    · rw [hmheap x (hfresh x (Or.inl hx))]; exact ⟨rfl, rfl⟩
    · rw [hmheap x (hfresh x (Or.inr (Or.inl hx)))]; exact ⟨rfl, rfl⟩
    · intro x hx hx'
      rcases List.mem_cons.mp hx' with h | h
      · exact hfresh x (Or.inl hx) h
      · exact hsh.ready_held x hx h
    · intro x hx hx'
      rcases List.mem_cons.mp hx' with h | h
      · exact hfresh x (Or.inr (Or.inl hx)) h
      · exact hsh.io_held x hx h
    · intro x hx
      rcases List.mem_cons.mp hx with h | h
      · subst h
        unfold Detached
        rw [hma]
        exact ⟨rfl, rfl⟩
      · unfold Detached
        rw [hmheap x (hfresh x (Or.inr (Or.inr h)))]
        exact hsh.detached x h
  have hg := enqueue_globals .ready s.brk m
  have hcpu := enqueue_cpu_held .ready s.brk m
  have hio := enqueue_io_held .ready s.brk m
  have hheld : (enqueue .ready s.brk m).cpu.held ++ (enqueue .ready s.brk m).io.held
      = s.cpu.held ++ s.io.held := by
    rw [hcpu.1, hio.1]
    rfl
  have hflag : (enqueue .ready s.brk m).file_read_done = s.file_read_done := hg.2.1
  have hnotdone : s.file_read_done = false := by rw [hi.flag]; exact hne
  refine ⟨?_, ?_, ?_, ?_, ⟨pre ++ [.spawn priority bursts], ?_⟩,
    ⟨done ++ [bursts], ?_, ?_⟩, ?_, ?_, ?_, ?_, ?_⟩
  · rw [hheld]
    refine shape_enqueue_ready hshm (List.mem_cons_self _ _) (fun x hx => ?_) hsh.held_nodup
    exact ⟨List.mem_cons_of_mem _ hx, hfresh x (Or.inr (Or.inr hx))⟩
  · intro x hx
    unfold Live at hx
    rw [hheld] at hx
    rw [hg.1]
    show x < s.brk + 1
    rcases hx with h | h | h
    · rcases List.mem_append.mp h with h | h
      · exact Nat.lt_succ_of_lt (hi.lt x (Or.inl h))
      · simp only [List.mem_singleton] at h; subst h; exact Nat.lt_succ_self _
    · exact Nat.lt_succ_of_lt (hi.lt x (Or.inr (Or.inl h)))
    · exact Nat.lt_succ_of_lt (hi.lt x (Or.inr (Or.inr h)))
  · rw [hheld, hg.1, hg.2.2.2.2.1]
    show s.process_count + _ = ((s.brk + 1 : Nat) : Int)
    have := hi.count
    simp only [List.length_append, List.length_singleton] at this ⊢
    omega
  · rw [hflag, hg.2.2.2.2.2.2.2.2.2]
    exact hi.flag
  · rw [hg.2.2.2.2.2.2.2.2.1]
    show events = _ ++ rest
    simp [hpre]
  · rw [hg.2.2.2.2.2.2.2.2.1]
    show spawned events = _ ++ spawned rest
    simpa [spawned] using hdone
  · rw [hg.1]
    show (done ++ [bursts]).length = s.brk + 1
    simp [hlen]
  · intro he
    rw [hg.2.2.2.2.2.2.2.2.2] at he
    exact absurd (hne ▸ he : false = true) (by simp)
  · intro hb x hx
    unfold Live at hx
    rw [hheld] at hx
    have hclock : (enqueue .ready s.brk m).current_time = s.current_time := hg.2.2.2.2.2.2.2.1
    have hxcase : x = s.brk ∨ Live s rl il x := by
      rcases hx with h | h | h
      · rcases List.mem_append.mp h with h | h
        · exact Or.inr (Or.inl h)
        · exact Or.inl (by simpa using h)
      · exact Or.inr (Or.inr (Or.inl h))
      · exact Or.inr (Or.inr (Or.inr h))
    rcases hxcase with h | h
    · subst h
      refine ⟨bursts, ?_, ?_⟩
      · rw [hdone, ← hlen, List.getElem?_append_right (le_refl _)]
        simp [spawned]
      · rw [hclock]
        refine timely_mono (le_refl _) (enqueue_sameData .ready s.brk m s.brk) ?_
        rw [hma]
        have hben : ∀ v ∈ bursts, 0 ≤ v := benign_mem hb hpre
        refine ⟨rfl, hben, ?_⟩
        show bursts.sum ≤ s.current_time - s.current_time + (bursts.drop 0).sum
        simp
    · obtain ⟨o, ho, ht⟩ := hi.timely hb x h
      refine ⟨o, ho, ?_⟩
      rw [hclock]
      refine timely_mono (le_refl _) (enqueue_sameData .ready s.brk m x) ?_
      rw [hmheap x (hfresh x h)]
      exact ht
  · intro he
    rw [hflag]
    exact hi.cpu_exit (hcpu.2.mp he)
  · intro he
    rw [hflag]
    exact hi.io_exit (hio.2.mp he)
  · intro he _
    have := hi.cpu_exit (hcpu.2.mp he)
    rw [hnotdone] at this
    exact absurd this (by simp)

theorem burst_mem {p : PCB} {b : Int} (hb : p.burst = some b) : b ∈ p.bursts := by
  unfold PCB.burst at hb
  simp only [List.get?_eq_getElem?] at hb
  obtain ⟨hlt, he⟩ := List.getElem?_eq_some_iff.mp hb
  exact he ▸ List.getElem_mem hlt

theorem live_cpu {s : Sim} {rl il : List Addr} {a : Addr} (hc : s.cpu = .holds a) :
    Live s rl il a := by
  unfold Live
  rw [hc]
  simp

theorem live_io {s : Sim} {rl il : List Addr} {a : Addr} (hc : s.io = .holds a) :
    Live s rl il a := by
  unfold Live
  rw [hc]
  simp

/-- In a benign run the current burst of a live record is not negative. -/
theorem burst_nonneg {args : SchedulerArgs} {events : List Event} {s : Sim} {rl il : List Addr}
    {a : Addr} {b : Int} (hi : Inv args events s rl il) (hl : Live s rl il a)
    (hb : (s.heap a).burst = some b) (hben : Benign args events) : 0 ≤ b := by
  obtain ⟨o, _, ht⟩ := hi.timely hben a hl
  exact ht.2.1 b (burst_mem hb)

theorem inv_cpu_ran {args : SchedulerArgs} {events : List Event} {s : Sim} {rl il : List Addr}
    {a : Addr} {b : Int} (hi : Inv args events s rl il) (hc : s.cpu = .holds a)
    (hb : (s.heap a).burst = some b) : Inv args events (cpu_ran b a s) rl il := by
  refine inv_ran hi (cpu_ran_heap b a s) ⟨rfl, rfl⟩ ⟨rfl, rfl⟩ ⟨rfl, rfl⟩ ⟨rfl, rfl, rfl, rfl⟩
    rfl ?_ ?_
  · intro hben
    have := burst_nonneg hi (live_cpu hc) hb hben
    show s.current_time ≤ s.current_time + b
    omega
  · intro _ o ht
    exact timely_advance hb ht

theorem inv_io_ran {args : SchedulerArgs} {events : List Event} {s : Sim} {rl il : List Addr}
    {a : Addr} {b : Int} (hi : Inv args events s rl il) (hc : s.io = .holds a)
    (hb : (s.heap a).burst = some b) : Inv args events (io_ran b a s) rl il := by
  refine inv_ran hi (io_ran_heap b a s) ⟨rfl, rfl⟩ ⟨rfl, rfl⟩ ⟨rfl, rfl⟩ ⟨rfl, rfl, rfl, rfl⟩
    rfl ?_ ?_
  · intro hben
    have := burst_nonneg hi (live_io hc) hb hben
    show s.current_time ≤ s.current_time + b
    omega
  · intro _ o ht
    exact timely_advance hb ht

theorem inv_rr_sliced {args : SchedulerArgs} {events : List Event} {s : Sim}
    {rl il : List Addr} {a : Addr} {b : Int} (hi : Inv args events s rl il)
    (hrr : args.algorithm = "RR") (hb : (s.heap a).burst = some b) (hq : b > args.quantum) :
    Inv args events (rr_sliced args.quantum b a s) rl il := by
  refine inv_ran hi (rr_sliced_heap args.quantum b a s) ⟨rfl, rfl⟩ ⟨rfl, rfl⟩ ⟨rfl, rfl⟩
    ⟨rfl, rfl, rfl, rfl⟩ rfl ?_ ?_
  · intro hben
    have := hben.1 hrr
    show s.current_time ≤ s.current_time + args.quantum
    omega
  · intro _ o ht
    exact timely_slice hb hq ht

/-- The burst-and-route part of a non-preemptive dispatch preserves the
invariant. -/
theorem run_fifo_body_inv {args : SchedulerArgs} {events : List Event} {s s1 : Sim}
    {rl il : List Addr} {a : Addr} (hi : Inv args events s rl il) (hc : s.cpu = .holds a)
    (hbody : run_fifo_body a s = some s1) :
    ∃ rl' il', Inv args events { s1 with cpu := .top } rl' il' := by
  cases hb : (s.heap a).burst with
  | none => simp [run_fifo_body, hb] at hbody
  | some b =>
    have hm := inv_cpu_ran hi hc hb
    by_cases hmore : MoreBursts (s.heap a)
    · rw [run_fifo_body_more hb hmore] at hbody
      cases hbody
      exact ⟨_, _, inv_enqueue_io_cpu hm hc⟩
    · rw [run_fifo_body_last hb hmore] at hbody
      cases hbody
      exact ⟨_, _, inv_finalized_cpu hm hc⟩

/-- The burst-and-route part of a round-robin dispatch preserves the invariant. -/
theorem run_rr_body_inv {args : SchedulerArgs} {events : List Event} {s s1 : Sim}
    {rl il : List Addr} {a : Addr} (hi : Inv args events s rl il) (hrr : args.algorithm = "RR")
    (hc : s.cpu = .holds a) (hbody : run_rr_body args.quantum a s = some s1) :
    ∃ rl' il', Inv args events { s1 with cpu := .top } rl' il' := by
  cases hb : (s.heap a).burst with
  | none => simp [run_rr_body, hb] at hbody
  | some b =>
    by_cases hq : b > args.quantum
    · rw [run_rr_body_slice hb hq] at hbody
      cases hbody
      exact ⟨_, _, inv_enqueue_ready_cpu (inv_rr_sliced hi hrr hb hq) hc⟩
    · rw [run_rr_body_short hb hq] at hbody
      exact run_fifo_body_inv hi hc hbody

/-- The burst-and-route part of an I/O iteration preserves the invariant. -/
theorem io_system_thread_body_inv {args : SchedulerArgs} {events : List Event} {s s1 : Sim}
    {rl il : List Addr} {a : Addr} (hi : Inv args events s rl il) (hc : s.io = .holds a)
    (hbody : io_system_thread_body a s = some s1) :
    ∃ rl' il', Inv args events { s1 with io := .top } rl' il' := by
  cases hb : (s.heap a).burst with
  | none => simp [io_system_thread_body, hb] at hbody
  | some b =>
    have hm := inv_io_ran hi hc hb
    by_cases hmore : MoreBursts (s.heap a)
    · rw [io_system_thread_body_more hb hmore] at hbody
      cases hbody
      exact ⟨_, _, inv_enqueue_ready_io hm hc⟩
    · rw [io_system_thread_body_last hb hmore] at hbody
      cases hbody
      exact ⟨_, _, inv_finalized_io hm hc⟩

/-- Whatever the bursts, a `run_sjf` scan that ends returns the record it
started with or a record of the chain it walked, and a record if it walked
one. -/
theorem run_sjf_scan_mem {h : Addr → PCB} :
    ∀ (l : List Addr) (p best r : Option Addr) (fuel : Nat), Chain h p l →
    run_sjf_scan fuel h l.head? best = some r →
    (l = [] ∧ r = best) ∨ ∃ a, r = some a ∧ (a ∈ l ∨ best = some a)
  | _, _, _, _, 0, _, hr => by simp [run_sjf_scan] at hr
  | [], _, best, r, fuel + 1, _, hr => by
    simp only [List.head?_nil, run_sjf_scan, Option.some.injEq] at hr
    exact Or.inl ⟨rfl, hr.symm⟩
  | c :: l, _, none, r, fuel + 1, hc, hr => by
    simp only [List.head?_cons, run_sjf_scan] at hr
    rw [hc.2.1] at hr
    right
    rcases run_sjf_scan_mem l (some c) (some c) r fuel hc.2.2 hr with ⟨_, h⟩ | ⟨a, ha, h⟩
    · exact ⟨c, h, Or.inl (List.mem_cons_self _ _)⟩
    · refine ⟨a, ha, Or.inl ?_⟩
      rcases h with h | h
      · exact List.mem_cons_of_mem _ h
      · simp only [Option.some.injEq] at h; subst h; exact List.mem_cons_self _ _
  | c :: l, _, some b, r, fuel + 1, hc, hr => by
    simp only [List.head?_cons, run_sjf_scan] at hr
    rw [hc.2.1] at hr
    right
    cases hx : (h c).burst with
    | none => simp [hx] at hr
    | some x =>
      cases hy : (h b).burst with
      | none => simp [hx, hy] at hr
      | some y =>
        simp only [hx, hy] at hr
        rcases run_sjf_scan_mem l (some c) _ r fuel hc.2.2 hr with ⟨_, h⟩ | ⟨a, ha, h⟩
        · split_ifs at h
          · exact ⟨c, h, Or.inl (List.mem_cons_self _ _)⟩
          · exact ⟨b, h, Or.inr rfl⟩
        · refine ⟨a, ha, ?_⟩
          rcases h with h | h
          · exact Or.inl (List.mem_cons_of_mem _ h)
          · split_ifs at h
            · simp only [Option.some.injEq] at h; subst h
              exact Or.inl (List.mem_cons_self _ _)
            · exact Or.inr h

/-- A `run_pr` scan that ends returns the record it started with or a record
of the chain it walked, and a record if it walked one. -/
theorem run_pr_scan_mem {h : Addr → PCB} :
    ∀ (l : List Addr) (p best r : Option Addr) (fuel : Nat), Chain h p l →
    run_pr_scan fuel h l.head? best = some r →
    (l = [] ∧ r = best) ∨ ∃ a, r = some a ∧ (a ∈ l ∨ best = some a)
  | _, _, _, _, 0, _, hr => by simp [run_pr_scan] at hr
  | [], _, best, r, fuel + 1, _, hr => by
    simp only [List.head?_nil, run_pr_scan, Option.some.injEq] at hr
    exact Or.inl ⟨rfl, hr.symm⟩
  | c :: l, _, none, r, fuel + 1, hc, hr => by
    simp only [List.head?_cons, run_pr_scan] at hr
    rw [hc.2.1] at hr
    right
    rcases run_pr_scan_mem l (some c) (some c) r fuel hc.2.2 hr with ⟨_, h⟩ | ⟨a, ha, h⟩
    · exact ⟨c, h, Or.inl (List.mem_cons_self _ _)⟩
    · refine ⟨a, ha, Or.inl ?_⟩
      rcases h with h | h
      · exact List.mem_cons_of_mem _ h
      · simp only [Option.some.injEq] at h; subst h; exact List.mem_cons_self _ _
  | c :: l, _, some b, r, fuel + 1, hc, hr => by
    simp only [List.head?_cons, run_pr_scan] at hr
    rw [hc.2.1] at hr
    right
    rcases run_pr_scan_mem l (some c) _ r fuel hc.2.2 hr with ⟨_, h⟩ | ⟨a, ha, h⟩
    · split_ifs at h
      · exact ⟨c, h, Or.inl (List.mem_cons_self _ _)⟩
      · exact ⟨b, h, Or.inr rfl⟩
    · refine ⟨a, ha, ?_⟩
      rcases h with h | h
      · exact Or.inl (List.mem_cons_of_mem _ h)
      · split_ifs at h
        · simp only [Option.some.injEq] at h; subst h
          exact Or.inl (List.mem_cons_self _ _)
        · exact Or.inr h

/-- What a selection of `run_sjf` that returns can return on a well-formed ready
queue: nothing when the queue is empty, else a member, unlinked. -/
theorem run_sjf_select_spec {s s1 : Sim} {rl : List Addr} {fuel : Nat} {r : Option Addr}
    (hw : WellFormed s.heap s.ready_queue rl) (hsel : run_sjf_select fuel s = some (r, s1)) :
    (r = none ∧ rl = [] ∧ s1 = s) ∨
    ∃ a pre post, r = some a ∧ rl = pre ++ a :: post ∧ s1 = run_sjf_unlink a s := by
  unfold run_sjf_select at hsel
  cases hscan : run_sjf_scan fuel s.heap s.ready_queue.head none with
  | none => simp [hscan] at hsel
  | some r' =>
    rw [hw.1] at hscan
    rcases run_sjf_scan_mem rl none none r' fuel hw.2.2.1 hscan with ⟨hnil, hr⟩ | ⟨a, ha, hmem⟩
    · subst hr
      rw [hw.1, hscan] at hsel
      simp only [Option.some.injEq, Prod.mk.injEq] at hsel
      exact Or.inl ⟨hsel.1.symm, hnil, hsel.2.symm⟩
    · subst ha
      rw [hw.1, hscan] at hsel
      simp only [Option.some.injEq, Prod.mk.injEq] at hsel
      rcases hmem with hm | hm
      · obtain ⟨pre, post, hl⟩ := List.append_of_mem hm
        exact Or.inr ⟨a, pre, post, hsel.1.symm, hl, hsel.2.symm⟩
      · exact absurd hm (by simp)

/-- What a selection of `run_pr` that returns can return on a well-formed ready
queue: nothing when the queue is empty, else a member, unlinked. -/
theorem run_pr_select_spec {s s1 : Sim} {rl : List Addr} {fuel : Nat} {r : Option Addr}
    (hw : WellFormed s.heap s.ready_queue rl) (hsel : run_pr_select fuel s = some (r, s1)) :
    (r = none ∧ rl = [] ∧ s1 = s) ∨
    ∃ a pre post, r = some a ∧ rl = pre ++ a :: post ∧ s1 = run_sjf_unlink a s := by
  unfold run_pr_select at hsel
  cases hscan : run_pr_scan fuel s.heap s.ready_queue.head none with
  | none => simp [hscan] at hsel
  | some r' =>
    rw [hw.1] at hscan
    rcases run_pr_scan_mem rl none none r' fuel hw.2.2.1 hscan with ⟨hnil, hr⟩ | ⟨a, ha, hmem⟩
    · subst hr
      rw [hw.1, hscan] at hsel
      simp only [Option.some.injEq, Prod.mk.injEq] at hsel
      exact Or.inl ⟨hsel.1.symm, hnil, hsel.2.symm⟩
    · subst ha
      rw [hw.1, hscan] at hsel
      simp only [Option.some.injEq, Prod.mk.injEq] at hsel
      rcases hmem with hm | hm
      · obtain ⟨pre, post, hl⟩ := List.append_of_mem hm
        exact Or.inr ⟨a, pre, post, hsel.1.symm, hl, hsel.2.symm⟩
      · exact absurd hm (by simp)

/-- A consumer's empty selection: it exits when the termination test succeeds
and stays at the top of its loop otherwise. -/
theorem inv_cpu_empty {args : SchedulerArgs} {events : List Event} {s : Sim} {rl il : List Addr}
    (hi : Inv args events s rl il) (h0 : s.cpu.held = []) :
    Inv args events (if all_done s then { s with cpu := .exited } else s) rl il := by
  split_ifs with hd
  · exact inv_cpu_ctl hi .exited h0 rfl
      (fun _ => (all_done_iff hi.shape.ready hi.shape.io).mp hd)
  · exact hi

theorem inv_io_empty {args : SchedulerArgs} {events : List Event} {s : Sim} {rl il : List Addr}
    (hi : Inv args events s rl il) (h0 : s.io.held = []) :
    Inv args events (if all_done s then { s with io := .exited } else s) rl il := by
  split_ifs with hd
  · exact inv_io_ctl hi .exited h0 rfl
      (fun _ => (all_done_iff hi.shape.ready hi.shape.io).mp hd)
  · exact hi

/-- The `dequeue(&ready_queue)` at the top of `run_fifo` and `run_rr`. -/
theorem inv_cpu_dequeue {args : SchedulerArgs} {events : List Event} {s s' : Sim}
    {rl il : List Addr} (hi : Inv args events s rl il) (hc : s.cpu = .top)
    (hstep : (match dequeue .ready s with
      | (.wait, s1) => some { s1 with cpu := .blocked }
      | (.null, s1) => some (if all_done s1 then { s1 with cpu := .exited } else s1)
      | (.pcb a, s1) => some { s1 with cpu := .holds a }) = some s') :
    ∃ rl' il', Inv args events s' rl' il' := by
  have h0 : s.cpu.held = [] := by rw [hc]; rfl
  cases rl with
  | nil =>
    have hh : (s.queue .ready).head = none := hi.shape.ready.head_none.mpr rfl
    by_cases hd : s.file_read_done = true
    · rw [dequeue_none hh, if_pos hd] at hstep
      injection hstep with hstep
      subst hstep
      exact ⟨_, _, inv_cpu_empty hi h0⟩
    · rw [dequeue_none hh, if_neg hd] at hstep
      injection hstep with hstep
      subst hstep
      exact ⟨_, _, inv_cpu_ctl hi .blocked h0 rfl (fun he => absurd he (by simp))⟩
  | cons a l =>
    have hh : (s.queue .ready).head = some a := by simpa using hi.shape.ready.1
    rw [dequeue_eq hh] at hstep
    simp only [Option.some.injEq] at hstep
    subst hstep
    exact ⟨_, _, inv_dequeue_ready hi h0⟩

theorem map_some {f : Sim → Sim} {o : Option Sim} {s' : Sim} (h : o.map f = some s') :
    ∃ s1, o = some s1 ∧ s' = f s1 := by
  cases o with
  | none => simp at h
  | some s1 => exact ⟨s1, rfl, by simpa using h.symm⟩

theorem run_fifo_inv {args : SchedulerArgs} {events : List Event} {s s' : Sim}
    {rl il : List Addr} (hi : Inv args events s rl il) (hstep : run_fifo s = some s') :
    ∃ rl' il', Inv args events s' rl' il' := by
  unfold run_fifo at hstep
  cases hc : s.cpu with
  | top => rw [hc] at hstep; exact inv_cpu_dequeue hi hc hstep
  | blocked => rw [hc] at hstep; cases hstep; exact ⟨_, _, hi⟩
  | exited => rw [hc] at hstep; cases hstep; exact ⟨_, _, hi⟩
  | holds a =>
    rw [hc] at hstep
    obtain ⟨s1, hbody, hs'⟩ := map_some hstep
    subst hs'
    exact run_fifo_body_inv hi hc hbody

theorem run_rr_inv {args : SchedulerArgs} {events : List Event} {s s' : Sim}
    {rl il : List Addr} (hi : Inv args events s rl il) (hrr : args.algorithm = "RR")
    (hstep : run_rr args.quantum s = some s') :
    ∃ rl' il', Inv args events s' rl' il' := by
  unfold run_rr at hstep
  cases hc : s.cpu with
  | top => rw [hc] at hstep; exact inv_cpu_dequeue hi hc hstep
  | blocked => rw [hc] at hstep; cases hstep; exact ⟨_, _, hi⟩
  | exited => rw [hc] at hstep; cases hstep; exact ⟨_, _, hi⟩
  | holds a =>
    rw [hc] at hstep
    obtain ⟨s1, hbody, hs'⟩ := map_some hstep
    subst hs'
    exact run_rr_body_inv hi hrr hc hbody

/-- A selection by scan at the top of `run_sjf` and `run_pr`. -/
theorem inv_cpu_select {args : SchedulerArgs} {events : List Event} {s s1 : Sim}
    {rl il : List Addr} {r : Option Addr} (hi : Inv args events s rl il) (hc : s.cpu = .top)
    (hsel : (r = none ∧ rl = [] ∧ s1 = s) ∨
      ∃ a pre post, r = some a ∧ rl = pre ++ a :: post ∧ s1 = run_sjf_unlink a s) :
    ∃ rl' il', Inv args events
      (match r with
        | none => if all_done s1 then { s1 with cpu := .exited } else s1
        | some a => { s1 with cpu := .holds a }) rl' il' := by
  have h0 : s.cpu.held = [] := by rw [hc]; rfl
  rcases hsel with ⟨hr, _, hs1⟩ | ⟨a, pre, post, hr, hl, hs1⟩
  · subst hr hs1
    exact ⟨_, _, inv_cpu_empty hi h0⟩
  · subst hr hs1 hl
    exact ⟨_, _, inv_unlink hi h0⟩

theorem run_sjf_inv {args : SchedulerArgs} {events : List Event} {s s' : Sim} {fuel : Nat}
    {rl il : List Addr} (hi : Inv args events s rl il) (hstep : run_sjf fuel s = some s') :
    ∃ rl' il', Inv args events s' rl' il' := by
  unfold run_sjf at hstep
  cases hc : s.cpu with
  | top =>
    rw [hc] at hstep
    cases hsel : run_sjf_select fuel s with
    | none => simp [hsel] at hstep
    | some rs =>
      obtain ⟨r, s1⟩ := rs
      have := inv_cpu_select hi hc (run_sjf_select_spec hi.shape.ready hsel)
      rw [hsel] at hstep
      cases r with
      | none => simp only [Option.some.injEq] at hstep; subst hstep; exact this
      | some a => simp only [Option.some.injEq] at hstep; subst hstep; exact this
  | blocked => rw [hc] at hstep; cases hstep; exact ⟨_, _, hi⟩
  | exited => rw [hc] at hstep; cases hstep; exact ⟨_, _, hi⟩
  | holds a =>
    rw [hc] at hstep
    obtain ⟨s1, hbody, hs'⟩ := map_some hstep
    subst hs'
    exact run_fifo_body_inv hi hc hbody

theorem run_pr_inv {args : SchedulerArgs} {events : List Event} {s s' : Sim} {fuel : Nat}
    {rl il : List Addr} (hi : Inv args events s rl il) (hstep : run_pr fuel s = some s') :
    ∃ rl' il', Inv args events s' rl' il' := by
  unfold run_pr at hstep
  cases hc : s.cpu with
  | top =>
    rw [hc] at hstep
    cases hsel : run_pr_select fuel s with
    | none => simp [hsel] at hstep
    | some rs =>
      obtain ⟨r, s1⟩ := rs
      have := inv_cpu_select hi hc (run_pr_select_spec hi.shape.ready hsel)
      rw [hsel] at hstep
      cases r with
      | none => simp only [Option.some.injEq] at hstep; subst hstep; exact this
      | some a => simp only [Option.some.injEq] at hstep; subst hstep; exact this
  | blocked => rw [hc] at hstep; cases hstep; exact ⟨_, _, hi⟩
  | exited => rw [hc] at hstep; cases hstep; exact ⟨_, _, hi⟩
  | holds a =>
    rw [hc] at hstep
    obtain ⟨s1, hbody, hs'⟩ := map_some hstep
    subst hs'
    exact run_fifo_body_inv hi hc hbody

theorem io_system_thread_inv {args : SchedulerArgs} {events : List Event} {s s' : Sim}
    {rl il : List Addr} (hi : Inv args events s rl il) (hstep : io_system_thread s = some s') :
    ∃ rl' il', Inv args events s' rl' il' := by
  unfold io_system_thread at hstep
  cases hc : s.io with
  | top =>
    rw [hc] at hstep
    have h0 : s.io.held = [] := by rw [hc]; rfl
    cases il with
    | nil =>
      have hh : (s.queue .io).head = none := hi.shape.io.head_none.mpr rfl
      by_cases hd : s.file_read_done = true
      · rw [dequeue_none hh, if_pos hd] at hstep
        injection hstep with hstep
        subst hstep
        exact ⟨_, _, inv_io_empty hi h0⟩
      · rw [dequeue_none hh, if_neg hd] at hstep
        injection hstep with hstep
        subst hstep
        exact ⟨_, _, inv_io_ctl hi .blocked h0 rfl (fun he => absurd he (by simp))⟩
    | cons a l =>
      have hh : (s.queue .io).head = some a := by simpa using hi.shape.io.1
      rw [dequeue_eq hh] at hstep
      simp only [Option.some.injEq] at hstep
      subst hstep
      exact ⟨_, _, inv_dequeue_io hi h0⟩
  | blocked => rw [hc] at hstep; cases hstep; exact ⟨_, _, hi⟩
  | exited => rw [hc] at hstep; cases hstep; exact ⟨_, _, hi⟩
  | holds a =>
    rw [hc] at hstep
    obtain ⟨s1, hbody, hs'⟩ := map_some hstep
    subst hs'
    exact io_system_thread_body_inv hi hc hbody

theorem file_read_thread_inv {args : SchedulerArgs} {events : List Event} {s : Sim}
    {rl il : List Addr} (hi : Inv args events s rl il) :
    ∃ rl' il', Inv args events (file_read_thread s) rl' il' := by
  unfold file_read_thread
  by_cases he : s.feeder_exited = true
  · rw [if_pos he]; exact ⟨_, _, hi⟩
  · rw [if_neg he]
    have hne : s.feeder_exited = false := by simpa using he
    cases hf : s.feed with
    | nil => exact ⟨_, _, inv_finish hi (by rw [hf]; rfl)⟩
    | cons e rest =>
      cases e with
      | stop => exact ⟨_, _, inv_finish hi (by rw [hf]; rfl)⟩
      | spawn priority bursts => exact ⟨_, _, inv_spawn (s := s) hi hf hne⟩
      | delay d => exact ⟨_, _, inv_delay (s := s) hi hf hne⟩
      | skip => exact ⟨_, _, inv_skip (s := s) hi hf hne⟩

theorem step_inv {args : SchedulerArgs} {events : List Event} {s s' : Sim} {fuel : Nat}
    {t : Tid} {rl il : List Addr} (hp : KnownPolicy args) (hi : Inv args events s rl il)
    (hstep : step args fuel t s = some s') : ∃ rl' il', Inv args events s' rl' il' := by
  cases t with
  | file =>
    simp only [step, Option.some.injEq] at hstep
    subst hstep
    exact file_read_thread_inv hi
  | io => exact io_system_thread_inv hi hstep
  | cpu =>
    simp only [step, cpu_scheduler_thread] at hstep
    rcases hp with h | h | h | h
    · rw [h] at hstep
      simp only [if_true] at hstep
      exact run_fifo_inv hi hstep
    · rw [h] at hstep
      simp only [show ¬ ("SJF" = "FIFO") by decide, if_false, if_true] at hstep
      exact run_sjf_inv hi hstep
    · rw [h] at hstep
      simp only [show ¬ ("PR" = "FIFO") by decide, show ¬ ("PR" = "SJF") by decide,
        if_false, if_true] at hstep
      exact run_pr_inv hi hstep
    · have h1 : ¬ args.algorithm = "FIFO" := by rw [h]; decide
      have h2 : ¬ args.algorithm = "SJF" := by rw [h]; decide
      have h3 : ¬ args.algorithm = "PR" := by rw [h]; decide
      simp only [h1, h2, h3, h, if_false, if_true] at hstep
      exact run_rr_inv hi h hstep

theorem run_inv {args : SchedulerArgs} {events : List Event} {fuel : Nat}
    (hp : KnownPolicy args) :
    ∀ (sched : List Tid) (s s' : Sim) (rl il : List Addr), Inv args events s rl il →
    run args fuel sched s = some s' → ∃ rl' il', Inv args events s' rl' il'
  | [], s, s', rl, il, hi, hrun => by
    simp only [run, Option.some.injEq] at hrun
    subst hrun
    exact ⟨_, _, hi⟩
  | t :: ts, s, s', rl, il, hi, hrun => by
    simp only [run] at hrun
    cases hstep : step args fuel t s with
    | none => simp [hstep] at hrun
    | some s1 =>
      rw [hstep] at hrun
      obtain ⟨rl1, il1, hi1⟩ := step_inv hp hi hstep
      exact run_inv hp ts s1 s' rl1 il1 hi1 hrun

theorem init_inv (args : SchedulerArgs) (events : List Event) :
    Inv args events (init events) [] [] := by
  refine ⟨⟨⟨rfl, rfl, trivial, List.nodup_nil⟩, ⟨rfl, rfl, trivial, List.nodup_nil⟩,
    by simp [init, Ctl.held], by simp, by simp, by simp,
    by simp [init, Ctl.held]⟩, ?_, rfl, rfl, ⟨[], rfl⟩, ⟨[], rfl, rfl⟩, ?_, ?_, ?_, ?_, ?_⟩
  · intro x hx
    simp [Live, init, Ctl.held] at hx
  · intro h; simp [init] at h
  · intro _ x hx
    simp [Live, init, Ctl.held] at hx
  · intro h; simp [init] at h
  · intro h; simp [init] at h
  · intro _ _; exact ⟨rfl, rfl⟩

/-! ### Completed processes and turnaround -/

/-- If the feeder, the CPU dispatcher and the I/O handler have all exited, then
`process_count` equals the number of spawn events the feeder accepted and both
queues are empty: no record is counted twice, and none is left out of a run
in which all three threads end.  Whether they end is another matter. -/
theorem process_count_at_exit (args : SchedulerArgs) (fuel : Nat) (events : List Event)
    (sched : List Tid) (s' : Sim) (hp : KnownPolicy args)
    (hrun : run args fuel sched (init events) = some s')
    (hfeeder : s'.feeder_exited = true) (hcpu : s'.cpu = .exited) (hio : s'.io = .exited) :
    s'.process_count = accepted events ∧ s'.brk = accepted events ∧
    s'.ready_queue.head = none ∧ s'.io_queue.head = none := by
  obtain ⟨rl, il, hi⟩ := run_inv hp sched (init events) s' [] [] (init_inv args events) hrun
  obtain ⟨hrl, hil⟩ := hi.both_exit hcpu hio
  subst hrl hil
  obtain ⟨done, hdone, hlen⟩ := hi.fed
  rw [hi.fed_exit hfeeder, List.append_nil] at hdone
  have hacc : accepted events = s'.brk := by
    unfold accepted
    rw [hdone, hlen]
  have hcount := hi.count
  rw [hcpu, hio] at hcount
  simp only [held_exited, List.length_nil, List.append_nil, Nat.cast_zero, add_zero] at hcount
  refine ⟨by rw [hcount, hacc], hacc.symm, ?_, ?_⟩
  · exact hi.shape.ready.head_none.mpr rfl
  · exact hi.shape.io.head_none.mpr rfl

/-- A FIFO run of two processes in which all three threads exit: two processes
are counted. -/
theorem process_count_at_exit_witness :
    ∃ s', run fifo_args 0 (fifo_sched ++ [.file, .cpu, .io]) (init fifo_events) = some s' ∧
      s'.feeder_exited = true ∧ s'.cpu = .exited ∧ s'.io = .exited ∧
      s'.process_count = accepted fifo_events ∧ accepted fifo_events = 2 := by
  have hsome : (run fifo_args 0 (fifo_sched ++ [.file, .cpu, .io]) (init fifo_events)).map
      (fun s => (s.feeder_exited, s.cpu, s.io)) = some (true, .exited, .exited) := by decide
  obtain ⟨s', hs', hobs⟩ := Option.map_eq_some'.mp hsome
  simp only [Prod.mk.injEq] at hobs
  exact ⟨s', hs', hobs.1, hobs.2.1, hobs.2.2,
    (process_count_at_exit fifo_args 0 fifo_events _ s' (by decide) hs' hobs.1 hobs.2.1
      hobs.2.2).1, by decide⟩

theorem run_fifo_top_eq (quantum : Int) (t : Sim) (ht : ∀ x, t.cpu ≠ .holds x) :
    run_rr quantum t = run_fifo t := by
  unfold run_rr run_fifo
  cases hc : t.cpu with
  | holds x => exact absurd hc (ht x)
  | top => rfl
  | blocked => rfl
  | exited => rfl

theorem run_fifo_body_some {a : Addr} {s : Sim} {b : Int} (hb : (s.heap a).burst = some b) :
    ∃ s', run_fifo_body a s = some s' := by
  by_cases hm : MoreBursts (s.heap a)
  · exact ⟨_, run_fifo_body_more hb hm⟩
  · exact ⟨_, run_fifo_body_last hb hm⟩

/-- C11: for every quantum, state and record whose current burst `b` is at most
the quantum, the burst-and-route section of `run_rr` yields a state, and it is
the state the section of `run_fifo` yields; hence an action of `run_rr` on a
dispatcher holding that record equals the action of `run_fifo`, and so does
the dequeuing action before it (which does not read the quantum). -/
theorem run_rr_short_burst_is_fifo (quantum : Int) (s : Sim) (a : Addr) (b : Int)
    (hb : (s.heap a).burst = some b) (hq : b ≤ quantum) :
    ∃ s', run_rr_body quantum a s = some s' ∧ run_fifo_body a s = some s' ∧
      (s.cpu = .holds a →
        run_rr quantum s = some { s' with cpu := .top } ∧
        run_fifo s = some { s' with cpu := .top }) ∧
      ∀ t : Sim, (∀ x, t.cpu ≠ .holds x) → run_rr quantum t = run_fifo t := by
  obtain ⟨s', hs'⟩ := run_fifo_body_some hb
  have hrr : run_rr_body quantum a s = some s' := by
    rw [run_rr_body_short hb (by omega), hs']
  refine ⟨s', hrr, hs', ?_, run_fifo_top_eq quantum⟩
  intro hc
  constructor
  · rw [run_rr_holds hc, hrr]; rfl
  · unfold run_fifo
    rw [hc]
    simp only []
    rw [hs']; rfl

/-- With quantum 5 a held record whose burst is 4 is run to the end of the burst
by `run_rr` as by `run_fifo`: clock and busy time 4. -/
theorem run_rr_short_burst_is_fifo_witness :
    ∃ s', run_rr_body 5 0 dispatch_demo = some s' ∧ run_fifo_body 0 dispatch_demo = some s' ∧
      s'.current_time = 4 ∧ s'.busy_time = 4 := by
  obtain ⟨s', h1, h2, _⟩ :=
    run_rr_short_burst_is_fifo 5 dispatch_demo 0 4 (by decide) (by decide)
  refine ⟨s', h1, h2, ?_, ?_⟩
  · have h3 : run_fifo_body 0 dispatch_demo = some (enqueue .io 0 (cpu_ran 4 0 dispatch_demo)) :=
      run_fifo_body_more (by decide) (by decide)
    rw [h3] at h2
    injection h2 with h2
    subst h2
    exact (enqueue_globals .io 0 _).2.2.2.2.2.2.2.1
  · have h3 : run_fifo_body 0 dispatch_demo = some (enqueue .io 0 (cpu_ran 4 0 dispatch_demo)) :=
      run_fifo_body_more (by decide) (by decide)
    rw [h3] at h2
    injection h2 with h2
    subst h2
    exact (enqueue_globals .io 0 _).2.2.2.1

/-- C12: for a record `a` whose current burst `b` is its last, the I/O system
thread and the four policies (round robin when `b` is within the quantum) all
end their step with the same finalization `fin`, applied to the state in which
the burst has run: `fin` stores `current_time - arrival_time` in the record's
`turnaround_time`, adds it to `total_turnaround_time`, adds the record's
`waiting_time` to `total_waiting_time`, adds one to `process_count`, and
changes no other record, field, counter or queue. -/
theorem finalization_is_shared (quantum : Int) (s : Sim) (a : Addr) (b : Int)
    (hb : (s.heap a).burst = some b) (hm : ¬ MoreBursts (s.heap a)) :
    ∃ fin : Sim → Sim,
      io_system_thread_body a s = some (fin (io_ran b a s)) ∧
      run_fifo_body a s = some (fin (cpu_ran b a s)) ∧
      run_sjf_body a s = some (fin (cpu_ran b a s)) ∧
      run_pr_body a s = some (fin (cpu_ran b a s)) ∧
      (b ≤ quantum → run_rr_body quantum a s = some (fin (cpu_ran b a s))) ∧
      ∀ m : Sim,
        (fin m).heap a =
          { m.heap a with turnaround_time := m.current_time - (m.heap a).arrival_time } ∧
        (∀ x, x ≠ a → (fin m).heap x = m.heap x) ∧
        (fin m).total_turnaround_time
          = m.total_turnaround_time + (m.current_time - (m.heap a).arrival_time) ∧
        (fin m).total_waiting_time = m.total_waiting_time + (m.heap a).waiting_time ∧
        (fin m).process_count = m.process_count + 1 ∧
        (fin m).busy_time = m.busy_time ∧ (fin m).current_time = m.current_time ∧
        (fin m).total_time = m.total_time ∧ (fin m).brk = m.brk ∧
        (fin m).file_read_done = m.file_read_done ∧ (fin m).feed = m.feed ∧
        (fin m).feeder_exited = m.feeder_exited ∧
        (fin m).ready_queue = m.ready_queue ∧ (fin m).io_queue = m.io_queue ∧
        (fin m).cpu = m.cpu ∧ (fin m).io = m.io := by
  have hfifo := run_fifo_body_last hb hm
  refine ⟨finalized a, io_system_thread_body_last hb hm, hfifo, hfifo, hfifo, ?_, ?_⟩
  · intro hq
    rw [run_rr_body_short hb (by omega), hfifo]
  · intro m
    refine ⟨?_, ?_, ?_, ?_, rfl, rfl, rfl, rfl, rfl, rfl, rfl, rfl, rfl, rfl, rfl, rfl⟩
    · rw [finalized_heap, if_pos rfl]
    · intro x hx
      rw [finalized_heap, if_neg hx]
    · exact finalized_total_turnaround_time a m
    · exact finalized_total_waiting_time a m

/-- A record with the single burst 4, arrived at clock 0, is finalized with
process count 1 by the I/O system thread and by `run_fifo` alike. -/
theorem finalization_is_shared_witness :
    ∃ fin : Sim → Sim,
      io_system_thread_body 0 last_demo = some (fin (io_ran 4 0 last_demo)) ∧
      run_fifo_body 0 last_demo = some (fin (cpu_ran 4 0 last_demo)) ∧
      (fin (io_ran 4 0 last_demo)).process_count = 1 ∧
      (fin (cpu_ran 4 0 last_demo)).process_count = 1 ∧
      (fin (cpu_ran 4 0 last_demo)).total_turnaround_time = 4 := by
  obtain ⟨fin, h1, h2, _, _, _, h6⟩ :=
    finalization_is_shared 5 last_demo 0 4 (by decide) (by decide)
  refine ⟨fin, h1, h2, ?_, ?_, ?_⟩
  · rw [(h6 _).2.2.2.2.1]; decide
  · rw [(h6 _).2.2.2.2.1]; decide
  · rw [(h6 _).2.2.1]; decide

/-- C13: one burst-and-route section of `io_system_thread` on a held record `a`
with current burst `d` adds `d` to the clock, leaves the busy time alone,
advances the burst cursor by one, and then either appends `a` at the tail of
the ready queue (bursts left; counters unchanged) or finalizes it (totals and
process count updated, no queue and no link changed); the I/O queue is the
same before and after, and stays well-formed with the same records. -/
theorem io_handler_step (s : Sim) (a : Addr) (d : Int) (rl il : List Addr)
    (hb : (s.heap a).burst = some d) (hw : WellFormed s.heap s.ready_queue rl)
    (hwio : WellFormed s.heap s.io_queue il)
    (ha : a ∉ rl) (hai : a ∉ il) (hdis : ∀ x ∈ rl, x ∉ il) (hd : Detached s.heap a) :
    ∃ s', io_system_thread_body a s = some s' ∧
      (s.io = .holds a → io_system_thread s = some { s' with io := .top }) ∧
      s'.current_time = s.current_time + d ∧ s'.busy_time = s.busy_time ∧
      (s'.heap a).current_burst = (s.heap a).current_burst + 1 ∧
      (s'.heap a).priority = (s.heap a).priority ∧
      (s'.heap a).arrival_time = (s.heap a).arrival_time ∧
      (s'.heap a).burst_count = (s.heap a).burst_count ∧
      (s'.heap a).bursts = (s.heap a).bursts ∧
      s'.io_queue = s.io_queue ∧ WellFormed s'.heap s'.io_queue il ∧
      (((s'.heap a).current_burst : Int) < (s'.heap a).burst_count →
        WellFormed s'.heap s'.ready_queue (rl ++ [a]) ∧
        s'.process_count = s.process_count ∧
        s'.total_turnaround_time = s.total_turnaround_time ∧
        s'.total_waiting_time = s.total_waiting_time) ∧
      (¬ ((s'.heap a).current_burst : Int) < (s'.heap a).burst_count →
        s'.total_turnaround_time
          = s.total_turnaround_time + (s'.current_time - (s.heap a).arrival_time) ∧
        (s'.heap a).turnaround_time = s'.current_time - (s.heap a).arrival_time ∧
        s'.total_waiting_time = s.total_waiting_time + (s.heap a).waiting_time ∧
        s'.process_count = s.process_count + 1 ∧
        s'.ready_queue = s.ready_queue ∧
        ∀ x, (s'.heap x).next = (s.heap x).next ∧ (s'.heap x).prev = (s.heap x).prev) := by
  have hstep : ∀ s', io_system_thread_body a s = some s' → s.io = .holds a →
      io_system_thread s = some { s' with io := .top } := by
    intro s' hs' hio
    unfold io_system_thread
    rw [hio]
    simp only []
    rw [hs']; rfl
  by_cases hm : MoreBursts (s.heap a)
  · have hbody := io_system_thread_body_more hb hm
    have hg := enqueue_globals .ready a (io_ran d a s)
    have hw1 : WellFormed (io_ran d a s).heap ((io_ran d a s).queue .ready) rl :=
      wellFormed_congr (fun x _ => io_ran_links d a s x) hw
    have hw2 : WellFormed (io_ran d a s).heap ((io_ran d a s).queue .io) il :=
      wellFormed_congr (fun x _ => io_ran_links d a s x) hwio
    have hd1 : Detached (io_ran d a s).heap a := detached_congr (io_ran_links d a s a) hd
    refine ⟨_, hbody, hstep _ hbody, hg.2.2.2.2.2.2.2.1, hg.2.2.2.1, ?_, ?_, ?_, ?_, ?_,
      enqueue_queue_ne .ready .io a _ (by decide),
      @enqueue_wf_frame .ready .io _ _ _ _ hw1 hw2 (by decide) hai hdis, ?_, ?_⟩
    · rw [enqueue_heap, io_ran_heap]; simp
    · rw [enqueue_heap, io_ran_heap]; simp
    · rw [enqueue_heap, io_ran_heap]; simp
    · rw [enqueue_heap, io_ran_heap]; simp
    · rw [enqueue_heap, io_ran_heap]; simp
    · intro _
      exact ⟨enqueue_wf hw1 ha hd1, hg.2.2.2.2.1, hg.2.2.2.2.2.1, hg.2.2.2.2.2.2.1⟩
    · intro hn
      exfalso
      apply hn
      rw [enqueue_heap, io_ran_heap]
      simpa [MoreBursts] using hm
  · have hbody := io_system_thread_body_last hb hm
    have hl : ∀ x, ((finalized a (io_ran d a s)).heap x).next = (s.heap x).next ∧
        ((finalized a (io_ran d a s)).heap x).prev = (s.heap x).prev := by
      intro x
      have h1 := finalized_links a (io_ran d a s) x
      have h2 := io_ran_links d a s x
      exact ⟨h1.1.trans h2.1, h1.2.trans h2.2⟩
    refine ⟨_, hbody, hstep _ hbody, rfl, rfl, ?_, ?_, ?_, ?_, ?_, rfl,
      wellFormed_congr (fun x _ => hl x) hwio, ?_, ?_⟩
    · rw [finalized_heap, io_ran_heap]; simp
    · rw [finalized_heap, io_ran_heap]; simp
    · rw [finalized_heap, io_ran_heap]; simp
    · rw [finalized_heap, io_ran_heap]; simp
    · rw [finalized_heap, io_ran_heap]; simp
    · intro hn
      exfalso
      apply hm
      rw [finalized_heap, io_ran_heap] at hn
      simpa [MoreBursts] using hn
    · intro _
      refine ⟨?_, ?_, ?_, rfl, rfl, hl⟩
      · rw [finalized_total_turnaround_time, io_ran_heap]; simp; rfl
      · rw [finalized_heap, io_ran_heap]; simp; rfl
      · rw [finalized_total_waiting_time, io_ran_heap]; simp; rfl

/-- The I/O burst 3 of a record with bursts 4, 3, 2 held at clock 4: clock 7,
busy time still 4, cursor 2, record alone in the ready queue. -/
theorem io_handler_step_witness :
    ∃ s', io_system_thread_body 0 io_demo = some s' ∧ s'.current_time = 7 ∧
      s'.busy_time = 4 ∧ (s'.heap 0).current_burst = 2 ∧
      WellFormed s'.heap s'.ready_queue [0] := by
  obtain ⟨s', h1, _, h3, h4, h5, _, _, h8, _, _, _, h12, _⟩ :=
    io_handler_step io_demo 0 3 [] [] (by decide) (by decide) (by decide) (by decide)
      (by decide) (by decide) (by decide)
  refine ⟨s', h1, by rw [h3]; decide, by rw [h4]; decide, by rw [h5]; decide, ?_⟩
  have hlt : ((s'.heap 0).current_burst : Int) < (s'.heap 0).burst_count := by
    rw [h5, h8]; decide
  simpa using (h12 hlt).1

/-! ### `dequeue` at the end of input -/

/-- C14: `dequeue` on a queue whose head is `NULL` while `file_read_done` is set
returns `NULL` and the state it was given (queue, clock and records as they
were); on a queue whose head is a record it returns that record, never `NULL`
and never a wait; and on a well-formed queue `a :: l` the record returned is
`a`, with `next` and `prev` cleared, the queue is left holding `l` in order, and
the clock is as it was. -/
theorem dequeue_on_exhaustion (q : QueueId) (s : Sim) :
    ((s.queue q).head = none → s.file_read_done = true → dequeue q s = (.null, s)) ∧
    (∀ a, (s.queue q).head = some a → (dequeue q s).1 = .pcb a) ∧
    (∀ a l, WellFormed s.heap (s.queue q) (a :: l) →
      (dequeue q s).1 = .pcb a ∧
      WellFormed (dequeue q s).2.heap ((dequeue q s).2.queue q) l ∧
      Detached (dequeue q s).2.heap a ∧
      (dequeue q s).2.current_time = s.current_time) := by
  refine ⟨?_, ?_, ?_⟩
  · intro hh hd
    rw [dequeue_none hh, if_pos hd]
  · intro a hh
    exact dequeue_fst hh
  · intro a l hw
    obtain ⟨h1, h2, h3⟩ := dequeue_wf hw
    exact ⟨h1, h2, h3, (dequeue_globals q s).2.2.2.2.2.2.2.1⟩

/-- On the empty I/O queue after the end of input `dequeue` returns `NULL` and
the same state; on a ready queue holding records 0 and 1 it returns record 0
and leaves record 1. -/
theorem dequeue_on_exhaustion_witness :
    dequeue .io drained_demo = (.null, drained_demo) ∧
    (dequeue .ready fifo_demo).1 = .pcb 0 ∧
    WellFormed (dequeue .ready fifo_demo).2.heap ((dequeue .ready fifo_demo).2.queue .ready) [1] ∧
    Detached (dequeue .ready fifo_demo).2.heap 0 :=
  ⟨(dequeue_on_exhaustion .io drained_demo).1 (by decide) (by decide),
   ((dequeue_on_exhaustion .ready fifo_demo).2.2 0 [1] (by decide)).1,
   ((dequeue_on_exhaustion .ready fifo_demo).2.2 0 [1] (by decide)).2.1,
   ((dequeue_on_exhaustion .ready fifo_demo).2.2 0 [1] (by decide)).2.2.1⟩

/-! ### Removal by the scans -/

theorem run_sjf_unlink_removed {a : Addr} {s : Sim} {pre post : List Addr}
    (hw : WellFormed s.heap s.ready_queue (pre ++ a :: post)) :
    Removed s (run_sjf_unlink a s) (pre ++ a :: post) a := by
  obtain ⟨hp, hn⟩ := Chain.mid pre none hw.2.2.1
  simp only [Option.or_none] at hp
  refine ⟨pre, post, rfl, (run_sjf_unlink_wf hw).1, (run_sjf_unlink_wf hw).2,
    run_sjf_unlink_io_queue a s, run_sjf_unlink_globals a s, ?_, ?_⟩
  · intro x
    rw [run_sjf_unlink_heap]
  · intro x hx
    have hxa : x ≠ a := fun he => hx (by simp [he])
    have h1 : (s.heap a).prev ≠ some x := by
      rw [hp]
      intro he
      exact hx (by simp [List.mem_of_getLast?_eq_some he])
    have h2 : (s.heap a).next ≠ some x := by
      rw [hn]
      intro he
      exact hx (by simp [List.mem_of_mem_head? he])
    rw [run_sjf_unlink_heap]
    simp [hxa, h1, h2]

/-- C20: on a well-formed ready queue `rl` (scan fuel above its length) the
selections of `run_sjf` and of `run_pr` return `NULL` and the unchanged state
when `rl` is empty, and otherwise return a record `a` at some position
`rl = pre ++ a :: post` (head, middle, tail or the only record) and leave the
queue well-formed over `pre ++ post`, with `a` detached and nothing but `next`
and `prev` pointers of queued records changed; for `run_sjf` the queued
records must each have a current burst for the scan to compare. -/
theorem scan_and_remove_keeps_order (fuel : Nat) (s : Sim) (rl : List Addr)
    (hw : WellFormed s.heap s.ready_queue rl) (hf : rl.length < fuel) :
    (rl = [] → run_sjf_select fuel s = some (none, s) ∧ run_pr_select fuel s = some (none, s)) ∧
    (rl ≠ [] →
      ((∀ x ∈ rl, (s.heap x).burst ≠ none) →
        ∃ a s', run_sjf_select fuel s = some (some a, s') ∧ Removed s s' rl a) ∧
      (∃ a s', run_pr_select fuel s = some (some a, s') ∧ Removed s s' rl a)) := by
  constructor
  · intro hnil
    subst hnil
    have hh : s.ready_queue.head = none := hw.head_none.mpr rfl
    have hfuel : ∃ n, fuel = n + 1 := ⟨fuel - 1, by simp at hf; omega⟩
    obtain ⟨n, rfl⟩ := hfuel
    constructor
    · simp [run_sjf_select, hh, run_sjf_scan]
    · simp [run_pr_select, hh, run_pr_scan]
  · intro hne
    constructor
    · intro hk
      have hk' : ∀ x ∈ rl, (s.heap x).burst = some (((s.heap x).burst).getD 0) := by
        intro x hx
        cases hb : (s.heap x).burst with
        | none => exact absurd hb (hk x hx)
        | some b => rfl
      obtain ⟨a, pre, post, hfold, hl, _, _⟩ :=
        foldl_keep_none (fun x => ((s.heap x).burst).getD 0) rl hne
      have hscan := run_sjf_scan_eq rl none none fuel hw.2.2.1 hf hk' (by simp)
      rw [← hw.1, hfold] at hscan
      subst hl
      refine ⟨a, run_sjf_unlink a s, ?_, run_sjf_unlink_removed hw⟩
      simp only [run_sjf_select, hscan]
    · obtain ⟨a, pre, post, hfold, hl, _, _⟩ :=
        foldl_keep_none (fun x => -(s.heap x).priority) rl hne
      have hscan := run_pr_scan_eq rl none none fuel hw.2.2.1 hf
      rw [← hw.1, hfold] at hscan
      subst hl
      refine ⟨a, run_sjf_unlink a s, ?_, run_sjf_unlink_removed hw⟩
      simp only [run_pr_select, hscan, run_pr_unlink_eq]

/-- The selection of `run_sjf` among three queued records with bursts 5, 2, 2
and that of `run_pr` among records of equal priority each remove one record
and keep the other two in order; with no record queued nothing is selected. -/
theorem scan_and_remove_keeps_order_witness :
    ((∃ a s', run_sjf_select 4 sjf_demo = some (some a, s') ∧ Removed sjf_demo s' [0, 1, 2] a) ∧
     (∃ a s', run_pr_select 4 sjf_demo = some (some a, s') ∧ Removed sjf_demo s' [0, 1, 2] a)) ∧
    run_sjf_select 1 (init []) = some (none, init []) ∧
    run_pr_select 1 (init []) = some (none, init []) :=
  ⟨⟨((scan_and_remove_keeps_order 4 sjf_demo [0, 1, 2] (by decide) (by decide)).2
        (by decide)).1 (by decide),
     ((scan_and_remove_keeps_order 4 sjf_demo [0, 1, 2] (by decide) (by decide)).2
        (by decide)).2⟩,
   (scan_and_remove_keeps_order 1 (init []) [] (by decide) (by decide)).1 rfl⟩

/-! ### Lines of the workload file and the command line -/

/-- C15: for the line `proc p n b1 ... bn` the feeder does not store the bursts
`b1 ... bn`: the array receives the tokens that follow the priority, that is
the count `n` and then `b1 ... b(n-1)`, and the last burst is dropped.  For
`proc 1 3 10 20 30` at clock 0 the record created has priority 1, burst count
3, cursor 0, arrival time 0 and is alone in the ready queue, but its bursts
are 3, 10, 20 and not 10, 20, 30. -/
theorem proc_line_drops_last_burst :
    (∀ (p b : Int) (bs : List Int),
      read_line (.proc (p :: ((bs.length + 1 : Nat) : Int) :: (bs ++ [b])))
        = some (.spawn p (((bs.length + 1 : Nat) : Int) :: bs))) ∧
    read_line (.proc [1, 3, 10, 20, 30]) = some (.spawn 1 [3, 10, 20]) ∧
    ((feed_event (.spawn 1 [3, 10, 20]) (init [])).heap 0).bursts = [3, 10, 20] ∧
    ((feed_event (.spawn 1 [3, 10, 20]) (init [])).heap 0).bursts ≠ [10, 20, 30] ∧
    ((feed_event (.spawn 1 [3, 10, 20]) (init [])).heap 0).priority = 1 ∧
    ((feed_event (.spawn 1 [3, 10, 20]) (init [])).heap 0).burst_count = 3 ∧
    ((feed_event (.spawn 1 [3, 10, 20]) (init [])).heap 0).current_burst = 0 ∧
    ((feed_event (.spawn 1 [3, 10, 20]) (init [])).heap 0).arrival_time = 0 ∧
    WellFormed (feed_event (.spawn 1 [3, 10, 20]) (init [])).heap
      (feed_event (.spawn 1 [3, 10, 20]) (init [])).ready_queue [0] := by
  refine ⟨?_, by decide, by decide, by decide, by decide, by decide, by decide, by decide,
    by decide⟩
  intro p b bs
  have h1 : ¬ (((bs.length + 1 : Nat) : Int) < 0) := by omega
  have h2 : ¬ ((((bs.length + 1 : Nat) : Int) :: (bs ++ [b])).length
      < (((bs.length + 1 : Nat) : Int)).toNat) := by
    simp
  simp only [read_line, if_neg h1, if_neg h2]
  simp

/-- C16: `parse_arguments` does not check the policy name and tests the quantum
only against 0.  For every name `alg` other than `RR` (one of `FIFO`, `SJF`,
`PR` or not) and every file it returns normally on `-alg alg -input file`;
on `-alg RR -quantum q -input file` it fails exactly when `atoi q` is 0.  So
`-alg XYZ -input f` is accepted (and `cpu_scheduler_thread` then exits at
once, whatever the state), and so is `-alg RR -quantum -5 -input f`. -/
theorem parse_arguments_accepts_invalid :
    (∀ prog alg file : String,
      parse_arguments [prog, "-alg", alg, "-input", file]
        = if alg = "RR" then none
          else some { algorithm := some alg, input_file := some file, quantum := 0 }) ∧
    (∀ prog q file : String,
      parse_arguments [prog, "-alg", "RR", "-quantum", q, "-input", file]
        = if atoi q = 0 then none
          else some { algorithm := some "RR", input_file := some file, quantum := atoi q }) ∧
    parse_arguments ["a.out", "-alg", "XYZ", "-input", "f"]
      = some { algorithm := some "XYZ", input_file := some "f", quantum := 0 } ∧
    (∀ (fuel : Nat) (s : Sim),
      cpu_scheduler_thread { algorithm := "XYZ", quantum := 0 } fuel s
        = some { s with cpu := .exited }) ∧
    parse_arguments ["a.out", "-alg", "RR", "-quantum", "-5", "-input", "f"]
      = some { algorithm := some "RR", input_file := some "f", quantum := -5 } ∧
    parse_arguments ["a.out", "-input", "f"] = none ∧
    parse_arguments ["a.out", "-alg", "RR", "-input", "f"] = none ∧
    parse_arguments ["a.out", "-alg", "RR", "-quantum", "0", "-input", "f"] = none ∧
    parse_arguments ["a.out", "-alg", "FIFO"] = none := by
  refine ⟨?_, ?_, by decide, ?_, by decide, by decide, by decide, by decide, by decide⟩
  · intro prog alg file
    by_cases halg : alg = "RR"
    · simp [parse_arguments, parse_arguments_loop, halg]
    · simp [parse_arguments, parse_arguments_loop, halg]
  · intro prog q file
    by_cases hq : atoi q = 0
    · simp [parse_arguments, parse_arguments_loop, hq]
    · simp [parse_arguments, parse_arguments_loop, hq]
  · intro fuel s
    rfl

/-! ### The input that holds `stop` alone -/

theorem stuck_exit {s : Sim} (h : Stuck s) : Stuck { s with cpu := .exited } :=
  ⟨h.1, h.2.1, h.2.2.1, h.2.2.2.1, h.2.2.2.2.1, fun _ => by simp, h.2.2.2.2.2.2⟩

theorem stuck_all_done {s : Sim} (h : Stuck s) : all_done s = true := by
  simp [all_done, h.2.1, h.2.2.2.1, h.2.2.2.2.1]

theorem stuck_dequeue {s : Sim} (h : Stuck s) : dequeue .ready s = (.null, s) := by
  rw [dequeue_none (q := .ready) h.2.2.2.1, if_pos h.2.1]

/-- No action of any thread, under any policy, takes the program out of a stuck
state. -/
theorem stuck_step (args : SchedulerArgs) (fuel : Nat) (t : Tid) (s : Sim) (h : Stuck s) :
    ∃ s', step args (fuel + 1) t s = some s' ∧ Stuck s' := by
  cases t with
  | file =>
    refine ⟨s, ?_, h⟩
    simp [step, file_read_thread, h.2.2.1]
  | io =>
    refine ⟨s, ?_, h⟩
    simp [step, io_system_thread, h.1]
  | cpu =>
    have hfifo : ∃ s', run_fifo s = some s' ∧ Stuck s' := by
      unfold run_fifo
      cases hc : s.cpu with
      | holds x => exact absurd hc (h.2.2.2.2.2.1 x)
      | exited => exact ⟨s, rfl, h⟩
      | blocked => exact ⟨s, rfl, h⟩
      | top =>
        simp only []
        rw [stuck_dequeue h]
        simp only [stuck_all_done h, if_true]
        exact ⟨_, rfl, stuck_exit h⟩
    have hrr : ∃ s', run_rr args.quantum s = some s' ∧ Stuck s' := by
      rw [run_fifo_top_eq args.quantum s h.2.2.2.2.2.1]
      exact hfifo
    have hsjf : ∃ s', run_sjf (fuel + 1) s = some s' ∧ Stuck s' := by
      unfold run_sjf
      cases hc : s.cpu with
      | holds x => exact absurd hc (h.2.2.2.2.2.1 x)
      | exited => exact ⟨s, rfl, h⟩
      | blocked => exact ⟨s, rfl, h⟩
      | top =>
        simp only [run_sjf_select, h.2.2.2.1, run_sjf_scan, stuck_all_done h, if_true]
        exact ⟨_, rfl, stuck_exit h⟩
    have hpr : ∃ s', run_pr (fuel + 1) s = some s' ∧ Stuck s' := by
      unfold run_pr
      cases hc : s.cpu with
      | holds x => exact absurd hc (h.2.2.2.2.2.1 x)
      | exited => exact ⟨s, rfl, h⟩
      | blocked => exact ⟨s, rfl, h⟩
      | top =>
        simp only [run_pr_select, h.2.2.2.1, run_pr_scan, stuck_all_done h, if_true]
        exact ⟨_, rfl, stuck_exit h⟩
    simp only [step, cpu_scheduler_thread]
    split_ifs
    · exact hfifo
    · exact hsjf
    · exact hpr
    · exact hrr
    · exact ⟨_, rfl, stuck_exit h⟩

theorem stuck_run (args : SchedulerArgs) (fuel : Nat) :
    ∀ (sched : List Tid) (s : Sim), Stuck s →
      ∃ s', run args (fuel + 1) sched s = some s' ∧ Stuck s'
  | [], s, h => ⟨s, rfl, h⟩
  | t :: ts, s, h => by
    obtain ⟨s1, h1, hs1⟩ := stuck_step args fuel t s h
    obtain ⟨s2, h2, hs2⟩ := stuck_run args fuel ts s1 hs1
    exact ⟨s2, by simp only [run, h1, h2], hs2⟩

/-- C18: with the input `stop` alone, if the I/O system thread calls
`dequeue(&io_queue)` before the feeder has set `file_read_done`, it is
suspended and never leaves: the feeder broadcasts on the ready queue's
condition variable only and nothing is ever put in the I/O queue.  Under every
policy and however the three threads are scheduled afterwards the run goes on
with the I/O system thread blocked (counters and clock 0, feeder exited).
When the feeder runs first, dispatcher and I/O system thread both exit under
each of the four policies. -/
theorem empty_stream_io_thread_never_wakes :
    (∀ (args : SchedulerArgs) (fuel : Nat) (sched : List Tid),
      ∃ s, run args (fuel + 1) (.io :: .file :: sched) (init [.stop]) = some s ∧
        s.io = .blocked ∧ s.file_read_done = true ∧ s.feeder_exited = true ∧
        s.process_count = 0 ∧ s.busy_time = 0 ∧ s.current_time = 0) ∧
    (∀ alg ∈ ["FIFO", "SJF", "PR", "RR"],
      (run { algorithm := alg, quantum := 5 } 1 [.file, .cpu, .io] (init [.stop])).map outcome
        = some (.exited, .exited, true, 0, 0, 0)) := by
  constructor
  · intro args fuel sched
    have hcpu : ∀ x, (file_read_thread { init [.stop] with io := .blocked }).cpu ≠ .holds x := by
      intro x hx
      have hx' : Ctl.top = Ctl.holds x := hx
      cases hx'
    have h0 : Stuck (file_read_thread { init [.stop] with io := .blocked }) :=
      ⟨rfl, rfl, rfl, rfl, rfl, hcpu, rfl, rfl, rfl⟩
    obtain ⟨s, hs, hst⟩ := stuck_run args fuel sched _ h0
    refine ⟨s, ?_, hst.1, hst.2.1, hst.2.2.1, hst.2.2.2.2.2.2⟩
    rw [← hs]
    rfl
  · intro alg halg
    simp only [List.mem_cons, List.mem_singleton, List.not_mem_nil, or_false] at halg
    rcases halg with h | h | h | h <;> subst h <;> decide

/-! ### Mutexes -/

theorem disciplined_replicate (q : QueueId) (p : Ptr) (held : List QueueId) (hq : q ∈ held)
    (rest : List Access) :
    ∀ n, disciplined held (List.replicate n (.read q p) ++ rest) = disciplined held rest
  | 0 => rfl
  | n + 1 => by
    simp only [List.replicate_succ, List.cons_append, disciplined, hq, decide_True, Bool.true_and]
    exact disciplined_replicate q p held hq rest n

theorem disciplined_waits (q : QueueId) (held : List QueueId) (hq : q ∈ held)
    (rest : List Access) :
    ∀ n, disciplined held (dequeue_wait_accesses q n ++ rest) = disciplined held rest
  | 0 => rfl
  | n + 1 => by
    simp only [dequeue_wait_accesses, List.cons_append, disciplined, hq, decide_True,
      Bool.true_and]
    exact disciplined_waits q held hq rest n

theorem disciplined_unlink (has_prev has_next : Bool) :
    disciplined [.ready] (unlink_accesses has_prev has_next ++ [.unlock .ready]) = true := by
  cases has_prev <;> cases has_next <;> decide

/-- C19: the selection of `run_sjf` and of `run_pr` reads `ready_queue.head`
before it locks the ready queue's mutex, on every path (any number of records
visited, a record selected or not): the sequence of its accesses is not
disciplined, and it is disciplined once that first read is left out.  Every
path of `enqueue` and of `dequeue` is disciplined. -/
theorem scan_starts_before_lock :
    (∀ visited selected, disciplined [] (run_sjf_accesses visited selected) = false) ∧
    (∀ visited selected, disciplined [] (run_pr_accesses visited selected) = false) ∧
    (∀ visited selected, (run_sjf_accesses visited selected).head? = some (.read .ready .head) ∧
      disciplined [] (run_sjf_accesses visited selected).tail = true) ∧
    (∀ visited selected, (run_pr_accesses visited selected).head? = some (.read .ready .head) ∧
      disciplined [] (run_pr_accesses visited selected).tail = true) ∧
    (∀ q tail_null, disciplined [] (enqueue_accesses q tail_null) = true) ∧
    (∀ q waits result, disciplined [] (dequeue_accesses q waits result) = true) := by
  have hrest : ∀ visited (selected : Option (Bool × Bool)),
      disciplined [.ready] (List.replicate visited (.read .ready .next) ++
        ((match selected with
          | none => []
          | some (has_prev, has_next) => unlink_accesses has_prev has_next) ++
        [.unlock .ready])) = true := by
    intro visited selected
    rw [disciplined_replicate .ready .next [.ready] (by simp)]
    cases selected with
    | none => rfl
    | some hb => exact disciplined_unlink hb.1 hb.2
  refine ⟨fun _ _ => rfl, fun _ _ => rfl, ?_, ?_, ?_, ?_⟩
  · intro visited selected
    refine ⟨rfl, ?_⟩
    simpa [run_sjf_accesses, disciplined] using hrest visited selected
  · intro visited selected
    refine ⟨rfl, ?_⟩
    simpa [run_pr_accesses, disciplined] using hrest visited selected
  · intro q tail_null
    cases q <;> cases tail_null <;> decide
  · intro q waits result
    have h : dequeue_accesses q waits result =
        .lock q :: .read q .head :: (dequeue_wait_accesses q waits ++
          (.read q .head ::
            ((match result with
              | none => []
              | some last =>
                [.read q .head, .read q .next, .write q .head, .read q .head] ++
                (if last then [.write q .tail] else [.read q .head, .write q .prev]) ++
                [.write q .prev, .write q .next]) ++
            [.unlock q]))) := by
      simp [dequeue_accesses]
    rw [h, disciplined, disciplined, disciplined_waits q [q] (by simp)]
    cases q <;> rcases result with _ | (_ | _) <;> decide

/-! ### Waiting time under `run_sjf` and `run_pr` -/

/-- C21: under `run_sjf` and `run_pr` the waiting time added at finalization is
not the time the record spent in the ready queue.  `enqueue` stores the clock
in `waiting_time` and only `dequeue` turns that stamp into a duration; the
scans unlink the record themselves and leave the stamp, so a record enqueued
at clock `t` and selected at once carries `t`.  With `sleep 7` and then a
process of one burst 4, the record enters the empty ready queue at clock 7,
is selected at clock 7 and finalized at clock 11, and `total_waiting_time`
ends at 7 under both policies, where the same run under `run_fifo` gives 0. -/
theorem scan_policies_add_enqueue_stamp :
    (∀ (a : Addr) (s : Sim),
      ((run_sjf_unlink a (enqueue .ready a s)).heap a).waiting_time = s.current_time ∧
      ((run_pr_unlink a (enqueue .ready a s)).heap a).waiting_time = s.current_time) ∧
    (run sjf_args 2 [.file, .file] (init late_events)).map
      (fun s => (s.current_time, s.ready_queue.head)) = some (7, some 0) ∧
    (run sjf_args 2 [.file, .file, .cpu] (init late_events)).map observe
      = some (7, 0, 0, 0, 0, .holds 0) ∧
    (run sjf_args 2 late_sched (init late_events)).map observe = some (11, 4, 1, 4, 7, .top) ∧
    (run pr_args 2 [.file, .file, .cpu] (init late_events)).map observe
      = some (7, 0, 0, 0, 0, .holds 0) ∧
    (run pr_args 2 late_sched (init late_events)).map observe = some (11, 4, 1, 4, 7, .top) ∧
    (run fifo_args 2 late_sched (init late_events)).map observe = some (11, 4, 1, 4, 0, .top) := by
  refine ⟨?_, by decide, by decide, by decide, by decide, by decide, by decide⟩
  intro a s
  rw [run_pr_unlink_eq, run_sjf_unlink_heap, enqueue_heap]
  simp

/-! ### Busy time and clock -/

theorem advance_refl (s : Sim) : Advance s s := by
  unfold Advance; omega

theorem advance_of_globals {s s' : Sim} (hg : SameGlobals s s') : Advance s s' := by
  unfold Advance
  rw [hg.2.2.2.1, hg.2.2.2.2.2.2.2.1]
  omega

theorem advance_of_eq {s s' t : Sim} (h : Advance s s') (hb : t.busy_time = s'.busy_time)
    (hc : t.current_time = s'.current_time) : Advance s t := by
  unfold Advance at h ⊢
  rw [hb, hc]
  exact h

theorem run_fifo_body_advance {a : Addr} {s s1 : Sim} {b : Int}
    (hb : (s.heap a).burst = some b) (h0 : 0 ≤ b) (hbody : run_fifo_body a s = some s1) :
    Advance s s1 := by
  have hran : Advance s (cpu_ran b a s) := by
    unfold Advance
    show s.busy_time ≤ s.busy_time + b ∧
      s.busy_time + b - s.busy_time ≤ s.current_time + b - s.current_time
    omega
  by_cases hmore : MoreBursts (s.heap a)
  · rw [run_fifo_body_more hb hmore] at hbody
    cases hbody
    have hg := enqueue_globals .io a (cpu_ran b a s)
    exact advance_of_eq hran hg.2.2.2.1 hg.2.2.2.2.2.2.2.1
  · rw [run_fifo_body_last hb hmore] at hbody
    cases hbody
    exact advance_of_eq hran rfl rfl

theorem run_rr_body_advance {quantum : Int} {a : Addr} {s s1 : Sim} {b : Int}
    (hb : (s.heap a).burst = some b) (h0 : 0 ≤ b) (hq : 0 ≤ quantum)
    (hbody : run_rr_body quantum a s = some s1) : Advance s s1 := by
  by_cases hgt : b > quantum
  · rw [run_rr_body_slice hb hgt] at hbody
    cases hbody
    have hg := enqueue_globals .ready a (rr_sliced quantum b a s)
    have hran : Advance s (rr_sliced quantum b a s) := by
      unfold Advance
      show s.busy_time ≤ s.busy_time + quantum ∧
        s.busy_time + quantum - s.busy_time ≤ s.current_time + quantum - s.current_time
      omega
    exact advance_of_eq hran hg.2.2.2.1 hg.2.2.2.2.2.2.2.1
  · rw [run_rr_body_short hb hgt] at hbody
    exact run_fifo_body_advance hb h0 hbody

theorem io_system_thread_body_advance {a : Addr} {s s1 : Sim} {b : Int}
    (hb : (s.heap a).burst = some b) (h0 : 0 ≤ b) (hbody : io_system_thread_body a s = some s1) :
    Advance s s1 := by
  have hran : Advance s (io_ran b a s) := by
    unfold Advance
    show s.busy_time ≤ s.busy_time ∧
      s.busy_time - s.busy_time ≤ s.current_time + b - s.current_time
    omega
  by_cases hmore : MoreBursts (s.heap a)
  · rw [io_system_thread_body_more hb hmore] at hbody
    cases hbody
    have hg := enqueue_globals .ready a (io_ran b a s)
    exact advance_of_eq hran hg.2.2.2.1 hg.2.2.2.2.2.2.2.1
  · rw [io_system_thread_body_last hb hmore] at hbody
    cases hbody
    exact advance_of_eq hran rfl rfl

/-- The dequeuing action of a consumer leaves busy time and clock alone. -/
theorem dequeue_action_advance {q : QueueId} {s s' : Sim} {f g : Sim → Sim} {k : Addr → Sim → Sim}
    (hf : ∀ t, (f t).busy_time = t.busy_time ∧ (f t).current_time = t.current_time)
    (hg : ∀ t, (g t).busy_time = t.busy_time ∧ (g t).current_time = t.current_time)
    (hk : ∀ a t, (k a t).busy_time = t.busy_time ∧ (k a t).current_time = t.current_time)
    (hstep : (match dequeue q s with
      | (.wait, s1) => some (f s1)
      | (.null, s1) => some (g s1)
      | (.pcb a, s1) => some (k a s1)) = some s') : Advance s s' := by
  have hd := advance_of_globals (dequeue_globals q s)
  rcases hres : dequeue q s with ⟨r, s1⟩
  rw [hres] at hstep hd
  cases r with
  | wait =>
    simp only [Option.some.injEq] at hstep
    subst hstep
    exact advance_of_eq hd (hf s1).1 (hf s1).2
  | null =>
    simp only [Option.some.injEq] at hstep
    subst hstep
    exact advance_of_eq hd (hg s1).1 (hg s1).2
  | pcb a =>
    simp only [Option.some.injEq] at hstep
    subst hstep
    exact advance_of_eq hd (hk a s1).1 (hk a s1).2

theorem exit_if_done (c : Sim → Sim)
    (hc : ∀ t, (c t).busy_time = t.busy_time ∧ (c t).current_time = t.current_time) (t : Sim) :
    (if all_done t then c t else t).busy_time = t.busy_time ∧
    (if all_done t then c t else t).current_time = t.current_time := by
  split_ifs
  · exact hc t
  · exact ⟨rfl, rfl⟩

theorem run_fifo_advance {args : SchedulerArgs} {events : List Event} {s s' : Sim}
    {rl il : List Addr} (hben : Benign args events) (hi : Inv args events s rl il)
    (hstep : run_fifo s = some s') : Advance s s' := by
  unfold run_fifo at hstep
  cases hc : s.cpu with
  | top =>
    rw [hc] at hstep
    exact dequeue_action_advance (q := .ready) (f := fun t => { t with cpu := .blocked })
      (g := fun t => if all_done t then { t with cpu := .exited } else t)
      (k := fun a t => { t with cpu := .holds a }) (fun _ => ⟨rfl, rfl⟩)
      (exit_if_done (fun t => { t with cpu := .exited }) (fun _ => ⟨rfl, rfl⟩))
      (fun _ _ => ⟨rfl, rfl⟩) hstep
  | blocked => rw [hc] at hstep; cases hstep; exact advance_refl s
  | exited => rw [hc] at hstep; cases hstep; exact advance_refl s
  | holds a =>
    rw [hc] at hstep
    obtain ⟨s1, hbody, hs'⟩ := map_some hstep
    subst hs'
    cases hb : (s.heap a).burst with
    | none => simp [run_fifo_body, hb] at hbody
    | some b =>
      exact advance_of_eq
        (run_fifo_body_advance hb (burst_nonneg hi (live_cpu hc) hb hben) hbody) rfl rfl

theorem run_rr_advance {args : SchedulerArgs} {events : List Event} {s s' : Sim}
    {rl il : List Addr} (hben : Benign args events) (hi : Inv args events s rl il)
    (hrr : args.algorithm = "RR") (hstep : run_rr args.quantum s = some s') : Advance s s' := by
  unfold run_rr at hstep
  cases hc : s.cpu with
  | top =>
    rw [hc] at hstep
    exact dequeue_action_advance (q := .ready) (f := fun t => { t with cpu := .blocked })
      (g := fun t => if all_done t then { t with cpu := .exited } else t)
      (k := fun a t => { t with cpu := .holds a }) (fun _ => ⟨rfl, rfl⟩)
      (exit_if_done (fun t => { t with cpu := .exited }) (fun _ => ⟨rfl, rfl⟩))
      (fun _ _ => ⟨rfl, rfl⟩) hstep
  | blocked => rw [hc] at hstep; cases hstep; exact advance_refl s
  | exited => rw [hc] at hstep; cases hstep; exact advance_refl s
  | holds a =>
    rw [hc] at hstep
    obtain ⟨s1, hbody, hs'⟩ := map_some hstep
    subst hs'
    cases hb : (s.heap a).burst with
    | none => simp [run_rr_body, hb] at hbody
    | some b =>
      exact advance_of_eq
        (run_rr_body_advance hb (burst_nonneg hi (live_cpu hc) hb hben) (hben.1 hrr) hbody)
        rfl rfl

/-- A selection by scan leaves busy time and clock alone. -/
theorem select_action_advance {s s' : Sim} (sel : Option (Option Addr × Sim))
    (hstep : (match sel with
      | none => none
      | some (none, s1) => some (if all_done s1 then { s1 with cpu := .exited } else s1)
      | some (some a, s1) => some { s1 with cpu := .holds a }) = some s')
    (hsel : ∀ r s1, sel = some (r, s1) → s1 = s ∨ ∃ a, s1 = run_sjf_unlink a s) :
    Advance s s' := by
  cases sel with
  | none => exact absurd hstep (by simp)
  | some rs =>
    obtain ⟨r, s1⟩ := rs
    have h1 : Advance s s1 := by
      rcases hsel r s1 rfl with h | ⟨a, h⟩
      · rw [h]; exact advance_refl s
      · rw [h]; exact advance_of_globals (run_sjf_unlink_globals a s)
    cases r with
    | none =>
      simp only [Option.some.injEq] at hstep
      subst hstep
      have := exit_if_done (fun t => { t with cpu := .exited }) (fun _ => ⟨rfl, rfl⟩) s1
      exact advance_of_eq h1 this.1 this.2
    | some a =>
      simp only [Option.some.injEq] at hstep
      subst hstep
      exact advance_of_eq h1 rfl rfl

theorem run_sjf_select_cases {fuel : Nat} {s : Sim} (r : Option Addr) (s1 : Sim)
    (h : run_sjf_select fuel s = some (r, s1)) : s1 = s ∨ ∃ a, s1 = run_sjf_unlink a s := by
  unfold run_sjf_select at h
  cases hscan : run_sjf_scan fuel s.heap s.ready_queue.head none with
  | none => simp [hscan] at h
  | some r' =>
    cases r' with
    | none => simp [hscan] at h; exact Or.inl h.2.symm
    | some a => simp [hscan] at h; exact Or.inr ⟨a, h.2.symm⟩

theorem run_pr_select_cases {fuel : Nat} {s : Sim} (r : Option Addr) (s1 : Sim)
    (h : run_pr_select fuel s = some (r, s1)) : s1 = s ∨ ∃ a, s1 = run_sjf_unlink a s := by
  unfold run_pr_select at h
  cases hscan : run_pr_scan fuel s.heap s.ready_queue.head none with
  | none => simp [hscan] at h
  | some r' =>
    cases r' with
    | none => simp [hscan] at h; exact Or.inl h.2.symm
    | some a => simp [hscan] at h; exact Or.inr ⟨a, by rw [← run_pr_unlink_eq]; exact h.2.symm⟩

theorem run_sjf_advance {args : SchedulerArgs} {events : List Event} {s s' : Sim} {fuel : Nat}
    {rl il : List Addr} (hben : Benign args events) (hi : Inv args events s rl il)
    (hstep : run_sjf fuel s = some s') : Advance s s' := by
  unfold run_sjf at hstep
  cases hc : s.cpu with
  | top =>
    rw [hc] at hstep
    exact select_action_advance (run_sjf_select fuel s) hstep run_sjf_select_cases
  | blocked => rw [hc] at hstep; cases hstep; exact advance_refl s
  | exited => rw [hc] at hstep; cases hstep; exact advance_refl s
  | holds a =>
    rw [hc] at hstep
    obtain ⟨s1, hbody, hs'⟩ := map_some hstep
    subst hs'
    cases hb : (s.heap a).burst with
    | none => simp [run_sjf_body, hb] at hbody
    | some b =>
      exact advance_of_eq
        (run_fifo_body_advance hb (burst_nonneg hi (live_cpu hc) hb hben) hbody) rfl rfl

theorem run_pr_advance {args : SchedulerArgs} {events : List Event} {s s' : Sim} {fuel : Nat}
    {rl il : List Addr} (hben : Benign args events) (hi : Inv args events s rl il)
    (hstep : run_pr fuel s = some s') : Advance s s' := by
  unfold run_pr at hstep
  cases hc : s.cpu with
  | top =>
    rw [hc] at hstep
    exact select_action_advance (run_pr_select fuel s) hstep run_pr_select_cases
  | blocked => rw [hc] at hstep; cases hstep; exact advance_refl s
  | exited => rw [hc] at hstep; cases hstep; exact advance_refl s
  | holds a =>
    rw [hc] at hstep
    obtain ⟨s1, hbody, hs'⟩ := map_some hstep
    subst hs'
    cases hb : (s.heap a).burst with
    | none => simp [run_pr_body, hb] at hbody
    | some b =>
      exact advance_of_eq
        (run_fifo_body_advance hb (burst_nonneg hi (live_cpu hc) hb hben) hbody) rfl rfl

theorem io_system_thread_advance {args : SchedulerArgs} {events : List Event} {s s' : Sim}
    {rl il : List Addr} (hben : Benign args events) (hi : Inv args events s rl il)
    (hstep : io_system_thread s = some s') : Advance s s' := by
  unfold io_system_thread at hstep
  cases hc : s.io with
  | top =>
    rw [hc] at hstep
    exact dequeue_action_advance (q := .io) (f := fun t => { t with io := .blocked })
      (g := fun t => if all_done t then { t with io := .exited } else t)
      (k := fun a t => { t with io := .holds a }) (fun _ => ⟨rfl, rfl⟩)
      (exit_if_done (fun t => { t with io := .exited }) (fun _ => ⟨rfl, rfl⟩))
      (fun _ _ => ⟨rfl, rfl⟩) hstep
  | blocked => rw [hc] at hstep; cases hstep; exact advance_refl s
  | exited => rw [hc] at hstep; cases hstep; exact advance_refl s
  | holds a =>
    rw [hc] at hstep
    obtain ⟨s1, hbody, hs'⟩ := map_some hstep
    subst hs'
    cases hb : (s.heap a).burst with
    | none => simp [io_system_thread_body, hb] at hbody
    | some b =>
      exact advance_of_eq
        (io_system_thread_body_advance hb (burst_nonneg hi (live_io hc) hb hben) hbody) rfl rfl

theorem file_read_finish_advance (s : Sim) : Advance s (file_read_finish s) := by
  unfold file_read_finish
  by_cases hc : s.cpu = .blocked
  · simp only [hc, if_true]
    exact advance_of_eq (advance_refl s) rfl rfl
  · simp only [hc, if_false]
    exact advance_of_eq (advance_refl s) rfl rfl

theorem file_read_thread_advance {args : SchedulerArgs} {events : List Event} {s : Sim}
    {rl il : List Addr} (hben : Benign args events) (hi : Inv args events s rl il) :
    Advance s (file_read_thread s) := by
  unfold file_read_thread
  by_cases he : s.feeder_exited = true
  · rw [if_pos he]; exact advance_refl s
  · rw [if_neg he]
    cases hf : s.feed with
    | nil => exact file_read_finish_advance s
    | cons e rest =>
      cases e with
      | stop => exact file_read_finish_advance s
      | spawn priority bursts =>
        show Advance s (spawn priority bursts { s with feed := rest })
        rw [spawn_eq]
        exact advance_of_eq (advance_refl s) (enqueue_globals .ready _ _).2.2.2.1
          (enqueue_globals .ready _ _).2.2.2.2.2.2.2.1
      | delay d =>
        obtain ⟨pre, hpre⟩ := hi.suffix
        rw [hf] at hpre
        have h0 : 0 ≤ d := benign_mem hben hpre
        show Advance s { ({ s with feed := rest } : Sim) with
          current_time := s.current_time + d }
        unfold Advance
        show s.busy_time ≤ s.busy_time ∧
          s.busy_time - s.busy_time ≤ s.current_time + d - s.current_time
        omega
      | skip => exact advance_of_eq (advance_refl s) rfl rfl

theorem step_advance {args : SchedulerArgs} {events : List Event} {s s' : Sim} {fuel : Nat}
    {t : Tid} {rl il : List Addr} (hp : KnownPolicy args) (hben : Benign args events)
    (hi : Inv args events s rl il) (hstep : step args fuel t s = some s') : Advance s s' := by
  cases t with
  | file =>
    simp only [step, Option.some.injEq] at hstep
    subst hstep
    exact file_read_thread_advance hben hi
  | io => exact io_system_thread_advance hben hi hstep
  | cpu =>
    simp only [step, cpu_scheduler_thread] at hstep
    rcases hp with h | h | h | h
    · rw [h] at hstep
      simp only [if_true] at hstep
      exact run_fifo_advance hben hi hstep
    · rw [h] at hstep
      simp only [show ¬ ("SJF" = "FIFO") by decide, if_false, if_true] at hstep
      exact run_sjf_advance hben hi hstep
    · rw [h] at hstep
      simp only [show ¬ ("PR" = "FIFO") by decide, show ¬ ("PR" = "SJF") by decide,
        if_false, if_true] at hstep
      exact run_pr_advance hben hi hstep
    · have h1 : ¬ args.algorithm = "FIFO" := by rw [h]; decide
      have h2 : ¬ args.algorithm = "SJF" := by rw [h]; decide
      have h3 : ¬ args.algorithm = "PR" := by rw [h]; decide
      simp only [h1, h2, h3, h, if_false, if_true] at hstep
      exact run_rr_advance hben hi h hstep

theorem run_busy {args : SchedulerArgs} {events : List Event} {fuel : Nat}
    (hp : KnownPolicy args) (hben : Benign args events) :
    ∀ (sched : List Tid) (s s' : Sim) (rl il : List Addr), Inv args events s rl il →
    0 ≤ s.busy_time ∧ s.busy_time ≤ s.current_time →
    run args fuel sched s = some s' → 0 ≤ s'.busy_time ∧ s'.busy_time ≤ s'.current_time
  | [], s, s', _, _, _, hb, hrun => by
    simp only [run, Option.some.injEq] at hrun
    subst hrun
    exact hb
  | t :: ts, s, s', rl, il, hi, hb, hrun => by
    simp only [run] at hrun
    cases hstep : step args fuel t s with
    | none => simp [hstep] at hrun
    | some s1 =>
      rw [hstep] at hrun
      obtain ⟨rl1, il1, hi1⟩ := step_inv hp hi hstep
      have hadv := step_advance hp hben hi hstep
      unfold Advance at hadv
      exact run_busy hp hben ts s1 s' rl1 il1 hi1 (by omega) hrun

/-- C24: in every state a run reaches from the initial state, under each of the
four policies (for round robin a quantum that is not negative), with delays
and bursts that are not negative, whatever the order in which the threads'
actions are taken, the busy time is at least 0 and at most the clock. -/
theorem busy_time_le_clock (args : SchedulerArgs) (fuel : Nat) (events : List Event)
    (sched : List Tid) (s : Sim) (hp : KnownPolicy args) (hben : Benign args events)
    (hrun : run args fuel sched (init events) = some s) :
    0 ≤ s.busy_time ∧ s.busy_time ≤ s.current_time :=
  run_busy hp hben sched (init events) s [] [] (init_inv args events)
    ⟨le_refl _, le_refl _⟩ hrun

/-- The FIFO run of two processes with bursts 4 and 6 ends with busy time and
clock both 10. -/
theorem busy_time_le_clock_witness :
    ∃ s, run fifo_args 0 fifo_sched (init fifo_events) = some s ∧
      s.busy_time = 10 ∧ s.current_time = 10 ∧
      0 ≤ s.busy_time ∧ s.busy_time ≤ s.current_time := by
  have hsome : (run fifo_args 0 fifo_sched (init fifo_events)).map
      (fun s => (s.busy_time, s.current_time)) = some (10, 10) := by decide
  obtain ⟨s, hs, hobs⟩ := Option.map_eq_some'.mp hsome
  simp only [Prod.mk.injEq] at hobs
  exact ⟨s, hs, hobs.1, hobs.2,
    busy_time_le_clock fifo_args 0 fifo_events fifo_sched s (by decide) (by decide) hs⟩

/-! ### The slices of a round-robin burst -/

theorem rr_preemptions_spec {quantum b : Int} (hQ : 1 ≤ quantum) (hb : 1 ≤ b) :
    (rr_preemptions quantum b : Int) * quantum < b ∧
    b ≤ ((rr_preemptions quantum b : Int) + 1) * quantum := by
  unfold rr_preemptions
  have hpos : 0 < quantum := by omega
  have h1 : (b + quantum - 1) / quantum * quantum ≤ b + quantum - 1 :=
    Int.ediv_mul_le _ (by omega)
  have h2 : b + quantum - 1 < ((b + quantum - 1) / quantum + 1) * quantum :=
    Int.lt_ediv_add_one_mul_self _ hpos
  have hc : 1 ≤ (b + quantum - 1) / quantum := by
    rw [Int.le_ediv_iff_mul_le hpos]
    omega
  rw [Int.toNat_of_nonneg (by omega)]
  constructor
  · have : ((b + quantum - 1) / quantum - 1) * quantum
        = (b + quantum - 1) / quantum * quantum - quantum := by ring
    rw [this]; omega
  · have : ((b + quantum - 1) / quantum - 1 + 1) * quantum
        = ((b + quantum - 1) / quantum + 1) * quantum - quantum := by ring
    rw [this]; omega

theorem run_append (args : SchedulerArgs) (fuel : Nat) :
    ∀ (l1 l2 : List Tid) (s : Sim),
    run args fuel (l1 ++ l2) s = (run args fuel l1 s).bind (run args fuel l2)
  | [], l2, s => by simp [run]
  | t :: l1, l2, s => by
    simp only [List.cons_append, run]
    cases step args fuel t s with
    | none => rfl
    | some s1 => exact run_append args fuel l1 l2 s1

theorem step_cpu_rr (quantum : Int) (fuel : Nat) (s : Sim) :
    step (rr_args quantum) fuel .cpu s = run_rr quantum s := by
  simp [step, cpu_scheduler_thread, rr_args]

theorem run_cpu_cpu {quantum : Int} {fuel : Nat} {s s1 s2 : Sim}
    (h1 : run_rr quantum s = some s1) (h2 : run_rr quantum s1 = some s2) :
    run (rr_args quantum) fuel [.cpu, .cpu] s = some s2 := by
  simp only [run, step_cpu_rr, h1, h2]

/-- One round of `run_rr` on a record alone in the ready queue whose burst
exceeds the quantum: the record is back alone in the queue with the quantum
taken off its burst. -/
theorem rr_round_slice (quantum : Int) (fuel : Nat) {s : Sim} {a : Addr} {r : Int}
    (hal : Alone s a) (hb : (s.heap a).burst = some r) (hq : r > quantum) :
    ∃ t, run (rr_args quantum) fuel [.cpu, .cpu] s = some t ∧ Alone t a ∧
      (t.heap a).burst = some (r - quantum) ∧
      (t.heap a).current_burst = (s.heap a).current_burst ∧
      t.busy_time = s.busy_time + quantum ∧ t.current_time = s.current_time + quantum := by
  obtain ⟨hcpu, hw⟩ := hal
  have hh : s.ready_queue.head = some a := by simpa using hw.1
  obtain ⟨_, hw1, hd1⟩ := dequeue_wf (q := .ready) hw
  have hg1 := dequeue_globals .ready s
  set s1 : Sim := { (dequeue .ready s).2 with cpu := .holds a } with hs1
  have hb1 : (s1.heap a).burst = some r := by
    show ((dequeue .ready s).2.heap a).burst = some r
    rw [dequeue_burst (q := .ready) hh]; exact hb
  have hbody := run_rr_body_slice (s := s1) hb1 hq
  have hg2 := enqueue_globals .ready a (rr_sliced quantum r a s1)
  have hw2 : WellFormed (rr_sliced quantum r a s1).heap
      ((rr_sliced quantum r a s1).queue .ready) [] :=
    wellFormed_congr (fun x _ => rr_sliced_links quantum r a s1 x) hw1
  have hd2 : Detached (rr_sliced quantum r a s1).heap a :=
    detached_congr (rr_sliced_links quantum r a s1 a) hd1
  have hrec : (enqueue .ready a (rr_sliced quantum r a s1)).heap a =
      { s.heap a with
        bursts := (s.heap a).bursts.set (s.heap a).current_burst (r - quantum)
        waiting_time := ((enqueue .ready a (rr_sliced quantum r a s1)).heap a).waiting_time
        next := ((enqueue .ready a (rr_sliced quantum r a s1)).heap a).next
        prev := ((enqueue .ready a (rr_sliced quantum r a s1)).heap a).prev } := by
    rw [enqueue_heap, rr_sliced_heap]
    simp only [if_true]
    show _ = _
    have : s1.heap a = (dequeue .ready s).2.heap a := rfl
    rw [this, dequeue_heap (q := .ready) hh]
  have hstep2 : run_rr quantum s1
      = some { enqueue .ready a (rr_sliced quantum r a s1) with cpu := .top } := by
    rw [run_rr_holds (s := s1) rfl, hbody]; rfl
  refine ⟨_, run_cpu_cpu (run_rr_top hcpu hh) hstep2, ⟨rfl, ?_⟩, ?_, ?_, ?_, ?_⟩
  · exact enqueue_wf hw2 (by simp) hd2
  · show ((enqueue .ready a (rr_sliced quantum r a s1)).heap a).burst = _
    rw [hrec]
    exact burst_set hb
  · show ((enqueue .ready a (rr_sliced quantum r a s1)).heap a).current_burst = _
    rw [hrec]
  · show (enqueue .ready a (rr_sliced quantum r a s1)).busy_time = _
    rw [hg2.2.2.2.1]
    show (dequeue .ready s).2.busy_time + quantum = _
    rw [hg1.2.2.2.1]
  · show (enqueue .ready a (rr_sliced quantum r a s1)).current_time = _
    rw [hg2.2.2.2.2.2.2.2.1]
    show (dequeue .ready s).2.current_time + quantum = _
    rw [hg1.2.2.2.2.2.2.2.1]

/-- One round of `run_rr` on a record alone in the ready queue whose burst is
within the quantum: the burst is run to its end and the cursor advances. -/
theorem rr_round_last (quantum : Int) (fuel : Nat) {s : Sim} {a : Addr} {r : Int}
    (hal : Alone s a) (hb : (s.heap a).burst = some r) (hq : ¬ r > quantum) :
    ∃ t, run (rr_args quantum) fuel [.cpu, .cpu] s = some t ∧ t.cpu = .top ∧
      (t.heap a).current_burst = (s.heap a).current_burst + 1 ∧
      t.busy_time = s.busy_time + r ∧ t.current_time = s.current_time + r ∧
      t.ready_queue.head = none := by
  obtain ⟨hcpu, hw⟩ := hal
  have hh : s.ready_queue.head = some a := by simpa using hw.1
  obtain ⟨_, hw1, hd1⟩ := dequeue_wf (q := .ready) hw
  have hg1 := dequeue_globals .ready s
  set s1 : Sim := { (dequeue .ready s).2 with cpu := .holds a } with hs1
  have hb1 : (s1.heap a).burst = some r := by
    show ((dequeue .ready s).2.heap a).burst = some r
    rw [dequeue_burst (q := .ready) hh]; exact hb
  have hcur : (s1.heap a).current_burst = (s.heap a).current_burst := by
    show ((dequeue .ready s).2.heap a).current_burst = _
    rw [dequeue_heap (q := .ready) hh]
  have hhead : s1.ready_queue.head = none := hw1.head_none.mpr rfl
  have hshort : run_rr_body quantum a s1 = run_fifo_body a s1 := run_rr_body_short hb1 hq
  by_cases hm : MoreBursts (s1.heap a)
  · have hbody := run_fifo_body_more hb1 hm
    have hg2 := enqueue_globals .io a (cpu_ran r a s1)
    have hstep2 : run_rr quantum s1
        = some { enqueue .io a (cpu_ran r a s1) with cpu := .top } := by
      rw [run_rr_holds (s := s1) rfl, hshort, hbody]; rfl
    refine ⟨_, run_cpu_cpu (run_rr_top hcpu hh) hstep2, rfl, ?_, ?_, ?_, ?_⟩
    · show ((enqueue .io a (cpu_ran r a s1)).heap a).current_burst = _
      rw [enqueue_heap, cpu_ran_heap, ← hcur]; simp
    · show (enqueue .io a (cpu_ran r a s1)).busy_time = _
      rw [hg2.2.2.2.1]
      show (dequeue .ready s).2.busy_time + r = _
      rw [hg1.2.2.2.1]
    · show (enqueue .io a (cpu_ran r a s1)).current_time = _
      rw [hg2.2.2.2.2.2.2.2.1]
      show (dequeue .ready s).2.current_time + r = _
      rw [hg1.2.2.2.2.2.2.2.1]
    · show ((enqueue .io a (cpu_ran r a s1)).queue .ready).head = none
      rw [enqueue_queue_ne .io .ready a _ (by decide)]
      exact hhead
  · have hbody := run_fifo_body_last hb1 hm
    have hstep2 : run_rr quantum s1
        = some { finalized a (cpu_ran r a s1) with cpu := .top } := by
      rw [run_rr_holds (s := s1) rfl, hshort, hbody]; rfl
    refine ⟨_, run_cpu_cpu (run_rr_top hcpu hh) hstep2, rfl, ?_, ?_, ?_, hhead⟩
    · show ((finalized a (cpu_ran r a s1)).heap a).current_burst = _
      rw [finalized_heap, cpu_ran_heap, ← hcur]; simp
    · show (dequeue .ready s).2.busy_time + r = _
      rw [hg1.2.2.2.1]
    · show (dequeue .ready s).2.current_time + r = _
      rw [hg1.2.2.2.2.2.2.2.1]

/-- After `j` rounds of slicing, possible while `j` quanta fall short of the
burst, the record is alone in the ready queue again with `j` quanta taken off
its burst and added to busy time and clock. -/
theorem rr_rounds {quantum b : Int} (fuel : Nat) {s : Sim} {a : Addr} (hQ : 1 ≤ quantum)
    (hal : Alone s a) (hb : (s.heap a).burst = some b) :
    ∀ j : Nat, (j : Int) * quantum < b →
      ∃ t, run (rr_args quantum) fuel (List.replicate (2 * j) .cpu) s = some t ∧ Alone t a ∧
        (t.heap a).burst = some (b - j * quantum) ∧
        (t.heap a).current_burst = (s.heap a).current_burst ∧
        t.busy_time = s.busy_time + j * quantum ∧
        t.current_time = s.current_time + j * quantum
  | 0, _ => ⟨s, rfl, hal, by simpa using hb, rfl, by simp, by simp⟩
  | j + 1, hj => by
    have hcast : ((j + 1 : Nat) : Int) * quantum = (j : Int) * quantum + quantum := by
      push_cast; ring
    rw [hcast] at hj
    obtain ⟨t, hrun, halt, hbt, hcur, hbusy, hclock⟩ :=
      rr_rounds fuel hQ hal hb j (by omega)
    obtain ⟨t', hrun', halt', hbt', hcur', hbusy', hclock'⟩ :=
      rr_round_slice quantum fuel halt hbt (by omega)
    refine ⟨t', ?_, halt', ?_, hcur'.trans hcur, ?_, ?_⟩
    · have hrep : List.replicate (2 * (j + 1)) Tid.cpu
          = List.replicate (2 * j) Tid.cpu ++ [.cpu, .cpu] := by
        rw [show 2 * (j + 1) = 2 * j + 2 from by ring, List.replicate_add]
        rfl
      rw [hrep, run_append, hrun]
      exact hrun'
    · rw [hbt', hcast]
      congr 1
      ring
    · rw [hbusy', hbusy, hcast]; ring
    · rw [hclock', hclock, hcast]; ring

theorem rr_preemptions_eq {quantum : Int} (r : Int) (hQ : 1 ≤ quantum) :
    rr_preemptions quantum r = ((r - 1) / quantum).toNat := by
  unfold rr_preemptions
  have h : (r + quantum - 1) / quantum = (r - 1) / quantum + 1 := by
    rw [show r + quantum - 1 = (r - 1) + 1 * quantum from by ring,
      Int.add_mul_ediv_right _ _ (by omega)]
  rw [h]
  congr 1
  ring

theorem rr_preemptions_slice {quantum r : Int} (hQ : 1 ≤ quantum) (hq : r > quantum) :
    rr_preemptions quantum r = rr_preemptions quantum (r - quantum) + 1 := by
  rw [rr_preemptions_eq r hQ, rr_preemptions_eq (r - quantum) hQ]
  have h : (r - quantum - 1) / quantum = (r - 1) / quantum + -1 := by
    rw [show r - quantum - 1 = (r - 1) + (-1) * quantum from by ring,
      Int.add_mul_ediv_right _ _ (by omega)]
  have hge : 1 ≤ (r - 1) / quantum := by
    rw [Int.le_ediv_iff_mul_le (by omega)]
    omega
  rw [h]
  omega

theorem rr_preemptions_last {quantum r : Int} (hr : 1 ≤ r) (hq : ¬ r > quantum) :
    rr_preemptions quantum r = 0 := by
  rw [rr_preemptions_eq r (by omega), Int.ediv_eq_zero_of_lt (by omega) (by omega)]
  rfl

/-- One dispatch by `run_rr` of a record whose burst `r` exceeds the quantum, in
any state: a slice of the quantum, the cursor kept, one preemption fewer to
come. -/
theorem run_rr_body_preempts {quantum : Int} {a : Addr} {t : Sim} {r : Int}
    (hQ : 1 ≤ quantum) (hb : (t.heap a).burst = some r) (hq : r > quantum) :
    ∃ t', run_rr_body quantum a t = some t' ∧ t'.busy_time = t.busy_time + quantum ∧
      t'.current_time = t.current_time + quantum ∧
      (t'.heap a).current_burst = (t.heap a).current_burst ∧
      (t'.heap a).burst = some (r - quantum) ∧ 1 ≤ r - quantum ∧ r - quantum < r ∧
      rr_preemptions quantum r = rr_preemptions quantum (r - quantum) + 1 := by
  have hg := enqueue_globals .ready a (rr_sliced quantum r a t)
  refine ⟨_, run_rr_body_slice hb hq, hg.2.2.2.1, hg.2.2.2.2.2.2.2.1, ?_, ?_, by omega, by omega,
    rr_preemptions_slice hQ hq⟩
  · rw [enqueue_heap, rr_sliced_heap, if_pos rfl]
  · rw [enqueue_heap, rr_sliced_heap, if_pos rfl]
    exact burst_set hb

/-- One dispatch by `run_rr` of a record whose burst `r` is within the quantum,
in any state: the whole burst runs, the cursor advances, and no preemption
was left to come. -/
theorem run_rr_body_completes {quantum : Int} {a : Addr} {t : Sim} {r : Int}
    (hr : 1 ≤ r) (hb : (t.heap a).burst = some r) (hq : ¬ r > quantum) :
    ∃ t', run_rr_body quantum a t = some t' ∧ t'.busy_time = t.busy_time + r ∧
      t'.current_time = t.current_time + r ∧
      (t'.heap a).current_burst = (t.heap a).current_burst + 1 ∧
      rr_preemptions quantum r = 0 := by
  rw [run_rr_body_short hb hq]
  by_cases hm : MoreBursts (t.heap a)
  · have hg := enqueue_globals .io a (cpu_ran r a t)
    refine ⟨_, run_fifo_body_more hb hm, hg.2.2.2.1, hg.2.2.2.2.2.2.2.1, ?_,
      rr_preemptions_last hr hq⟩
    rw [enqueue_heap, cpu_ran_heap]; simp
  · refine ⟨_, run_fifo_body_last hb hm, rfl, rfl, ?_, rr_preemptions_last hr hq⟩
    rw [finalized_heap, cpu_ran_heap]; simp

/-- C23: dispatch by `run_rr` with a quantum of at least 1.  In any state, a
record whose current burst `r` is at least 1 is either preempted (`r` above
the quantum: the quantum is added to busy time and clock, the burst left is
`r - quantum`, at least 1 and less than `r`, the cursor stays, and one
preemption fewer is to come) or completes (`r` within the quantum: `r` is
added, the cursor advances, no preemption was to come); the preemptions to
come are `rr_preemptions quantum r`, the ceiling of `r / quantum` less one.
For a record alone in the ready queue with burst `b` and
`k = rr_preemptions quantum b`: after each of the first `j ≤ k` rounds of the
dispatcher (a round is a dequeue and the burst-and-route section) the record
is alone in the queue again at the same cursor with burst `b - j * quantum`
left and `j * quantum` added to the busy time; that remainder exceeds the
quantum when `j < k`, so the next round preempts again, and lies between 1 and
the quantum when `j = k`; round `k + 1` takes the completion path (the cursor
advances) and leaves exactly `b` added to the busy time and to the clock. -/
theorem rr_slicing_conserves_work (quantum b : Int) (fuel : Nat) (s : Sim) (a : Addr)
    (hQ : 1 ≤ quantum) (hb1 : 1 ≤ b) (hal : Alone s a) (hb : (s.heap a).burst = some b) :
    (∀ (t : Sim) (x : Addr) (r : Int), 1 ≤ r → (t.heap x).burst = some r →
      (r > quantum →
        ∃ t', run_rr_body quantum x t = some t' ∧ t'.busy_time = t.busy_time + quantum ∧
          t'.current_time = t.current_time + quantum ∧
          (t'.heap x).current_burst = (t.heap x).current_burst ∧
          (t'.heap x).burst = some (r - quantum) ∧ 1 ≤ r - quantum ∧ r - quantum < r ∧
          rr_preemptions quantum r = rr_preemptions quantum (r - quantum) + 1) ∧
      (¬ r > quantum →
        ∃ t', run_rr_body quantum x t = some t' ∧ t'.busy_time = t.busy_time + r ∧
          t'.current_time = t.current_time + r ∧
          (t'.heap x).current_burst = (t.heap x).current_burst + 1 ∧
          rr_preemptions quantum r = 0)) ∧
    (∀ j ≤ rr_preemptions quantum b,
      ∃ t, run (rr_args quantum) fuel (List.replicate (2 * j) .cpu) s = some t ∧ Alone t a ∧
        (t.heap a).current_burst = (s.heap a).current_burst ∧
        (t.heap a).burst = some (b - j * quantum) ∧
        t.busy_time = s.busy_time + j * quantum ∧
        (j < rr_preemptions quantum b → b - j * quantum > quantum) ∧
        (j = rr_preemptions quantum b →
          1 ≤ b - j * quantum ∧ b - j * quantum ≤ quantum)) ∧
    ∃ s', run (rr_args quantum) fuel
        (List.replicate (2 * (rr_preemptions quantum b + 1)) .cpu) s = some s' ∧
      (s'.heap a).current_burst = (s.heap a).current_burst + 1 ∧
      s'.busy_time = s.busy_time + b ∧ s'.current_time = s.current_time + b := by
  obtain ⟨hk1, hk2⟩ := rr_preemptions_spec hQ hb1
  have hmono : ∀ j : Nat, j ≤ rr_preemptions quantum b →
      (j : Int) * quantum ≤ (rr_preemptions quantum b : Int) * quantum := by
    intro j hj
    exact Int.mul_le_mul_of_nonneg_right (by exact_mod_cast hj) (by omega)
  refine ⟨fun t x r hr hbr =>
    ⟨fun hq => run_rr_body_preempts hQ hbr hq, fun hq => run_rr_body_completes hr hbr hq⟩,
    ?_, ?_⟩
  · intro j hj
    have hlt : (j : Int) * quantum < b := lt_of_le_of_lt (hmono j hj) hk1
    obtain ⟨t, hrun, halt, hbt, hcur, hbusy, _⟩ := rr_rounds fuel hQ hal hb j hlt
    refine ⟨t, hrun, halt, hcur, hbt, hbusy, ?_, ?_⟩
    · intro hjk
      have h1 := hmono (j + 1) hjk
      have hcast : ((j + 1 : Nat) : Int) * quantum = (j : Int) * quantum + quantum := by
        push_cast; ring
      rw [hcast] at h1
      omega
    · intro hjk
      rw [hjk]
      have hexp : ((rr_preemptions quantum b : Int) + 1) * quantum
          = (rr_preemptions quantum b : Int) * quantum + quantum := by ring
      rw [hexp] at hk2
      omega
  · obtain ⟨t, hrun, halt, hbt, hcur, hbusy, hclock⟩ :=
      rr_rounds fuel hQ hal hb (rr_preemptions quantum b) hk1
    have hexp : ((rr_preemptions quantum b : Int) + 1) * quantum
        = (rr_preemptions quantum b : Int) * quantum + quantum := by ring
    rw [hexp] at hk2
    obtain ⟨s', hrun', _, hcur', hbusy', hclock', _⟩ :=
      rr_round_last quantum fuel halt hbt (by omega)
    refine ⟨s', ?_, ?_, ?_, ?_⟩
    · have hrep : List.replicate (2 * (rr_preemptions quantum b + 1)) Tid.cpu
          = List.replicate (2 * rr_preemptions quantum b) Tid.cpu ++ [.cpu, .cpu] := by
        rw [show 2 * (rr_preemptions quantum b + 1) = 2 * rr_preemptions quantum b + 2
          from by ring, List.replicate_add]
        rfl
      rw [hrep, run_append, hrun]
      exact hrun'
    · rw [hcur', hcur]
    · rw [hbusy', hbusy]; ring
    · rw [hclock', hclock]; ring

/-- With quantum 3 a burst of 8 is preempted twice (slices 3, 3, 2) and the
third round leaves busy time 8. -/
theorem rr_slicing_conserves_work_witness :
    rr_preemptions 3 8 = 2 ∧
    ∃ s', run (rr_args 3) 0 (List.replicate (2 * (rr_preemptions 3 8 + 1)) .cpu) rr_demo
        = some s' ∧
      (s'.heap 0).current_burst = (rr_demo.heap 0).current_burst + 1 ∧
      s'.busy_time = rr_demo.busy_time + 8 ∧ s'.current_time = rr_demo.current_time + 8 :=
  ⟨by decide,
   (rr_slicing_conserves_work 3 8 0 rr_demo 0 (by decide) (by decide)
      ⟨by decide, by decide⟩ (by decide)).2.2⟩

/-! ### Well-formedness as an invariant -/

theorem Chain.reaches {h : Addr → PCB} :
    ∀ (l : List Addr) (a : Addr) (p : Option Addr), Chain h p (a :: l) →
    ∃ t, (a :: l).getLast? = some t ∧ Reaches h a l t ∧ (h t).next = none
  | [], a, _, hc => ⟨a, rfl, rfl, by simpa using hc.2.1⟩
  | b :: l, a, _, hc => by
    obtain ⟨t, ht, hr, hn⟩ := Chain.reaches l b (some a) hc.2.2
    refine ⟨t, ?_, ⟨by simpa using hc.2.1, hr⟩, hn⟩
    rw [List.getLast?_cons_cons]; exact ht

theorem Chain.next_prev {h : Addr → PCB} :
    ∀ (l : List Addr) (p : Option Addr), Chain h p l → l.Nodup →
    ∀ x ∈ l, ∀ y, (h x).next = some y → (h y).prev = some x
  | [], _, _, _, x, hx, _, _ => by simp at hx
  | [a], _, hc, _, x, hx, y, hy => by
    simp only [List.mem_singleton] at hx
    subst hx
    have := hc.2.1
    rw [hy] at this
    simp at this
  | a :: b :: l, _, hc, hnd, x, hx, y, hy => by
    rcases List.mem_cons.mp hx with he | hm
    · subst he
      have h1 := hc.2.1
      rw [hy] at h1
      simp only [List.head?_cons, Option.some.injEq] at h1
      subst h1
      exact hc.2.2.1
    · exact Chain.next_prev (b :: l) (some a) hc.2.2 (List.nodup_cons.mp hnd).2 x hm y hy

theorem Reaches.getLast {h : Addr → PCB} :
    ∀ (l : List Addr) (x y : Addr), Reaches h x l y → (x :: l).getLast? = some y
  | [], x, y, hr => by
    have : x = y := hr
    subst this; rfl
  | z :: l, x, y, hr => by
    rw [List.getLast?_cons_cons]
    exact Reaches.getLast l z y hr.2

theorem Reaches.chain {h : Addr → PCB} :
    ∀ (l : List Addr) (x y : Addr) (p : Option Addr), Reaches h x l y → (h y).next = none →
    (h x).prev = p → (∀ z ∈ x :: l, ∀ w, (h z).next = some w → (h w).prev = some z) →
    Chain h p (x :: l)
  | [], x, y, p, hr, hn, hp, _ => by
    have : x = y := hr
    subst this
    exact ⟨hp, by simpa using hn, trivial⟩
  | z :: l, x, y, p, hr, hn, hp, hall => by
    refine ⟨hp, by simpa using hr.1, ?_⟩
    exact Reaches.chain l z y (some x) hr.2 hn (hall x (List.mem_cons_self _ _) z hr.1)
      (fun w hw => hall w (List.mem_cons_of_mem _ hw))

/-- In a chain every record's `prev` is the record before the chain or a
record of the chain. -/
theorem Chain.prev_mem {h : Addr → PCB} :
    ∀ (l : List Addr) (b : Addr), Chain h (some b) l →
    ∀ x ∈ l, ∃ q, (h x).prev = some q ∧ (q = b ∨ q ∈ l)
  | [], _, _, x, hx => by simp at hx
  | a :: l, b, hc, x, hx => by
    rcases List.mem_cons.mp hx with he | hm
    · subst he
      exact ⟨b, hc.1, Or.inl rfl⟩
    · obtain ⟨q, hq, hor⟩ := Chain.prev_mem l a hc.2.2 x hm
      refine ⟨q, hq, Or.inr ?_⟩
      rcases hor with h1 | h1
      · rw [h1]; exact List.mem_cons_self _ _
      · exact List.mem_cons_of_mem _ h1

/-- A chain that starts at a record outside it, or at `NULL`, has no record
twice. -/
theorem Chain.nodup {h : Addr → PCB} :
    ∀ (l : List Addr) (p : Option Addr), Chain h p l → (∀ q, p = some q → q ∉ l) → l.Nodup
  | [], _, _, _ => List.nodup_nil
  | a :: l, p, hc, hp => by
    have hal : a ∉ l := by
      intro hm
      obtain ⟨q, hq, hor⟩ := Chain.prev_mem l a hc.2.2 a hm
      have hpq : p = some q := by rw [← hc.1]; exact hq
      have := hp q hpq
      rcases hor with h1 | h1
      · exact this (by rw [h1]; exact List.mem_cons_self _ _)
      · exact this (List.mem_cons_of_mem _ h1)
    refine List.nodup_cons.mpr ⟨hal, Chain.nodup l (some a) hc.2.2 ?_⟩
    intro q hq
    simp only [Option.some.injEq] at hq
    subst hq
    exact hal

/-- The well-formedness of the property's words is that of `WellFormed` for
some list of records. -/
theorem doublyLinked_iff (h : Addr → PCB) (q : Queue) :
    DoublyLinked h q ↔ ∃ l, WellFormed h q l := by
  constructor
  · rintro (⟨hh, ht⟩ | ⟨hd, tl, l, hh, ht, hp, hn, hr, hall⟩)
    · exact ⟨[], hh, ht, trivial, List.nodup_nil⟩
    · have hc : Chain h none (hd :: l) := Reaches.chain l hd tl none hr hn hp hall
      refine ⟨hd :: l, hh, ?_, hc, Chain.nodup _ none hc (fun _ hq => by simp at hq)⟩
      rw [ht, Reaches.getLast l hd tl hr]
  · rintro ⟨l, hw⟩
    cases l with
    | nil => exact Or.inl ⟨hw.1, hw.2.1⟩
    | cons a l =>
      obtain ⟨t, ht, hr, hn⟩ := Chain.reaches l a none hw.2.2.1
      exact Or.inr ⟨a, t, l, hw.1, by rw [hw.2.1, ht], hw.2.2.1.1, hn, hr,
        Chain.next_prev _ none hw.2.2.1 hw.2.2.2⟩

/-- The only record of a queue has `next` and `prev` both `NULL`; enqueueing it on
that queue again makes it its own successor and predecessor, and the queue is
no longer well-formed. -/
theorem enqueue_queued_record_breaks :
    DoublyLinked single_demo.heap single_demo.ready_queue ∧ Detached single_demo.heap 0 ∧
    ¬ DoublyLinked (enqueue .ready 0 single_demo).heap
        (enqueue .ready 0 single_demo).ready_queue := by
  refine ⟨(doublyLinked_iff _ _).mpr ⟨[0], by decide⟩, by decide, ?_⟩
  rintro (⟨hh, _⟩ | ⟨hd, tl, l, hh, _, hp, _⟩)
  · exact absurd hh (by decide)
  · have h0 : (enqueue .ready 0 single_demo).ready_queue.head = some 0 := by decide
    rw [h0] at hh
    simp only [Option.some.injEq] at hh
    subst hh
    exact absurd hp (by decide)

/-- C22 (as amended): well-formedness in the words of the property is
`WellFormed` for some list of records.  A queue that is well-formed over `l`
is well-formed over `l ++ [a]` after `enqueue` of a record `a` that is detached
and not in `l`; over the tail of `l` after `dequeue`; over `pre ++ post` after
the unlinking of `a` by `run_sjf` or `run_pr` when `l = pre ++ a :: post`; and
over some list after any selection of `run_sjf` or `run_pr`.  In every state
that a run of one of the four policies reaches from the initial state both
queues are well-formed, and a record held by the dispatcher or by the I/O
system thread (the record it passes to `enqueue`) is detached and in neither
queue. -/
theorem wellFormed_is_invariant :
    (∀ (h : Addr → PCB) (q : Queue), DoublyLinked h q ↔ ∃ l, WellFormed h q l) ∧
    (∀ (q : QueueId) (a : Addr) (s : Sim) (l : List Addr),
      WellFormed s.heap (s.queue q) l → a ∉ l → Detached s.heap a →
      WellFormed (enqueue q a s).heap ((enqueue q a s).queue q) (l ++ [a])) ∧
    (∀ (q : QueueId) (s : Sim) (l : List Addr), WellFormed s.heap (s.queue q) l →
      WellFormed (dequeue q s).2.heap ((dequeue q s).2.queue q) l.tail) ∧
    (∀ (a : Addr) (s : Sim) (pre post : List Addr),
      WellFormed s.heap s.ready_queue (pre ++ a :: post) →
      WellFormed (run_sjf_unlink a s).heap (run_sjf_unlink a s).ready_queue (pre ++ post) ∧
      WellFormed (run_pr_unlink a s).heap (run_pr_unlink a s).ready_queue (pre ++ post)) ∧
    (∀ (fuel : Nat) (s s' : Sim) (l : List Addr) (r : Option Addr),
      WellFormed s.heap s.ready_queue l →
      run_sjf_select fuel s = some (r, s') ∨ run_pr_select fuel s = some (r, s') →
      ∃ l', WellFormed s'.heap s'.ready_queue l') ∧
    (∀ (args : SchedulerArgs) (events : List Event) (fuel : Nat) (sched : List Tid) (s : Sim),
      KnownPolicy args → run args fuel sched (init events) = some s →
      DoublyLinked s.heap s.ready_queue ∧ DoublyLinked s.heap s.io_queue ∧
      ∃ rl il, WellFormed s.heap s.ready_queue rl ∧ WellFormed s.heap s.io_queue il ∧
        ∀ a, s.cpu = .holds a ∨ s.io = .holds a → Detached s.heap a ∧ a ∉ rl ∧ a ∉ il) := by
  refine ⟨doublyLinked_iff, fun q a s l hw ha hd => enqueue_wf hw ha hd, ?_, ?_, ?_, ?_⟩
  · intro q s l hw
    cases l with
    | nil =>
      have hh : (s.queue q).head = none := hw.head_none.mpr rfl
      rw [dequeue_none hh]
      exact hw
    | cons a l => exact (dequeue_wf hw).2.1
  · intro a s pre post hw
    exact ⟨(run_sjf_unlink_wf hw).1, by rw [run_pr_unlink_eq]; exact (run_sjf_unlink_wf hw).1⟩
  · intro fuel s s' l r hw hsel
    have hspec : (r = none ∧ l = [] ∧ s' = s) ∨
        ∃ a pre post, r = some a ∧ l = pre ++ a :: post ∧ s' = run_sjf_unlink a s := by
      rcases hsel with h | h
      · exact run_sjf_select_spec hw h
      · exact run_pr_select_spec hw h
    rcases hspec with ⟨_, _, hs⟩ | ⟨a, pre, post, _, hl, hs⟩
    · subst hs; exact ⟨l, hw⟩
    · subst hs hl; exact ⟨_, (run_sjf_unlink_wf hw).1⟩
  · intro args events fuel sched s hp hrun
    obtain ⟨rl, il, hi⟩ := run_inv hp sched (init events) s [] [] (init_inv args events) hrun
    have hsh := hi.shape
    refine ⟨(doublyLinked_iff _ _).mpr ⟨rl, hsh.ready⟩, (doublyLinked_iff _ _).mpr ⟨il, hsh.io⟩,
      rl, il, hsh.ready, hsh.io, ?_⟩
    intro a ha
    have hmem : a ∈ s.cpu.held ++ s.io.held := by
      rcases ha with h | h
      · rw [h]; simp
      · rw [h]; simp
    exact ⟨hsh.detached a hmem, fun hr => hsh.ready_held a hr hmem,
      fun hio => hsh.io_held a hio hmem⟩

/-- Record 2, detached and not queued, enqueued behind records 0 and 1; the
head dequeued; and the queues of the state a FIFO run of two processes ends
in. -/
theorem wellFormed_is_invariant_witness :
    WellFormed (enqueue .ready 2 fifo_demo).heap ((enqueue .ready 2 fifo_demo).queue .ready)
      ([0, 1] ++ [2]) ∧
    WellFormed (dequeue .ready fifo_demo).2.heap ((dequeue .ready fifo_demo).2.queue .ready)
      [0, 1].tail ∧
    ∀ s, run fifo_args 0 fifo_sched (init fifo_events) = some s →
      DoublyLinked s.heap s.ready_queue ∧ DoublyLinked s.heap s.io_queue :=
  ⟨wellFormed_is_invariant.2.1 .ready 2 fifo_demo [0, 1] (by decide) (by decide) (by decide),
   wellFormed_is_invariant.2.2.1 .ready fifo_demo [0, 1] (by decide),
   fun s hs =>
    ⟨(wellFormed_is_invariant.2.2.2.2.2 fifo_args fifo_events 0 fifo_sched s (by decide) hs).1,
     (wellFormed_is_invariant.2.2.2.2.2 fifo_args fifo_events 0 fifo_sched s (by decide)
        hs).2.1⟩⟩

/-! ### A record left behind by the dispatcher's exit -/

/-- In a lost state every action of every thread, under each of the four
policies, leaves the state as it is. -/
theorem lost_step (args : SchedulerArgs) (fuel : Nat) (t : Tid) (s : Sim) (hp : KnownPolicy args)
    (h : Lost s) : step args fuel t s = some s := by
  obtain ⟨hcpu, hio, hfe, hdone, hready, hioq⟩ := h
  cases t with
  | file => simp [step, file_read_thread, hfe]
  | io =>
    have hnd : all_done s = false := by
      cases hh : s.ready_queue.head with
      | none => exact absurd hh hready
      | some a => simp [all_done, hh]
    simp only [step, io_system_thread, hio]
    rw [dequeue_none (q := .io) hioq, if_pos hdone]
    simp [hnd]
  | cpu =>
    simp only [step, cpu_scheduler_thread]
    rcases hp with h | h | h | h
    · rw [h]; simp [run_fifo, hcpu]
    · rw [h]; simp [run_sjf, hcpu]
    · rw [h]; simp [run_pr, hcpu]
    · rw [h]; simp [run_rr, hcpu]

theorem lost_run (args : SchedulerArgs) (fuel : Nat) (hp : KnownPolicy args) :
    ∀ (sched : List Tid) (s : Sim), Lost s → run args fuel sched s = some s
  | [], _, _ => rfl
  | t :: ts, s, h => by
    simp only [run, lost_step args fuel t s hp h]
    exact lost_run args fuel hp ts s h

/-- C5: a record can be lost.  The termination test of the dispatcher
(`file_read_done`, both queue heads `NULL`) passes while the I/O system thread
holds a record it has taken out of the I/O queue; the dispatcher exits, the
I/O system thread puts the record back in the ready queue, and nothing ever
takes it out again.  With the one process of `proc 1 3 1 1 1` (bursts 3, 1, 1)
and the schedule `lost_sched`, under each of the four policies and however the
run goes on, the feeder and the dispatcher have exited, the I/O system thread
is still in its loop, the record is in the ready queue, and `process_count` is
0 where one spawn event was accepted. -/
theorem dispatcher_exit_loses_record :
    read_line (.proc [1, 3, 1, 1, 1]) = some (.spawn 1 [3, 1, 1]) ∧
    accepted lost_events = 1 ∧
    ∀ alg ∈ ["FIFO", "SJF", "PR", "RR"], ∀ sched : List Tid,
      ∃ s, run { algorithm := alg, quantum := 5 } 2 (lost_sched ++ sched) (init lost_events)
          = some s ∧
        s.feeder_exited = true ∧ s.cpu = .exited ∧ s.io = .top ∧
        s.ready_queue.head = some 0 ∧ s.io_queue.head = none ∧
        s.process_count = 0 ∧ s.busy_time = 3 ∧ s.current_time = 4 ∧
        s.process_count ≠ accepted lost_events := by
  refine ⟨by decide, by decide, ?_⟩
  intro alg halg sched
  have hp : KnownPolicy { algorithm := alg, quantum := 5 } := by
    simpa only [List.mem_cons, List.mem_singleton, List.not_mem_nil, or_false] using halg
  simp only [List.mem_cons, List.mem_singleton, List.not_mem_nil, or_false] at halg
  have hpre : (run { algorithm := alg, quantum := 5 } 2 lost_sched (init lost_events)).map outcome
      = some (.exited, .top, true, 0, 3, 4) := by
    rcases halg with h | h | h | h <;> subst h <;> decide
  have hpre2 : (run { algorithm := alg, quantum := 5 } 2 lost_sched (init lost_events)).map
      (fun s => (s.file_read_done, s.ready_queue.head, s.io_queue.head))
      = some (true, some 0, none) := by
    rcases halg with h | h | h | h <;> subst h <;> decide
  obtain ⟨s, hs, hobs⟩ := Option.map_eq_some'.mp hpre
  rw [hs] at hpre2
  simp only [outcome, Prod.mk.injEq] at hobs
  simp only [Option.map_some', Option.some.injEq, Prod.mk.injEq] at hpre2
  obtain ⟨h1, h2, h3, h7, h8, h9⟩ := hobs
  obtain ⟨h4, h5, h6⟩ := hpre2
  have hlost : Lost s := ⟨h1, h2, h3, h4, by rw [h5]; simp, h6⟩
  refine ⟨s, ?_, h3, h1, h2, h5, h6, h7, h8, h9, ?_⟩
  · rw [run_append, hs]
    exact lost_run _ 2 hp sched s hlost
  · rw [h7]; decide

end Sched
